import Mathlib

/-!
Verification development for the routing-service TSP core
(`backend/app/core/tsp_bruteforce.py`, `tsp_heldkarp.py`, `tsp_greedy.py`,
`distance_matrix.py` and the solve entry points in `backend/app/api/tsp.py`).

Distances are modelled exactly: the Python `float` values (with `float('inf')`
marking disconnected pairs) become `WithTop ℚ`, so `⊤` plays the role of
`+∞` and all arithmetic is exact.  A distance matrix is a function
`Nat → Nat → WithTop ℚ` read only on indices below `n`.
-/

/-- Exact model of the Python `float` distances: a rational, or `⊤` for
`float('inf')`. -/
abbrev Cost := WithTop ℚ

/-- Sum of `D` over consecutive pairs of `tour` (the
`for i in range(len(tour) - 1): total += D[tour[i]][tour[i+1]]` loop that
appears in `calculate_tour_length`, Held-Karp path costs and the greedy
solver). -/
def pathCost (D : Nat → Nat → Cost) (l : List Nat) : Cost :=
  ((l.zip l.tail).map (fun p => D p.1 p.2)).sum

/-- The cost of the edge joining the last element of `l₁` with the first
element of `l₂` (zero when either list is empty). -/
def glueCost (D : Nat → Nat → Cost) (l₁ l₂ : List Nat) : Cost :=
  match l₁.getLast?, l₂.head? with
  | some x, some y => D x y
  | _, _ => 0

/-- Closing edge of a tour: `D[tour[-1]][tour[0]]`. -/
def closeCost (D : Nat → Nat → Cost) (l : List Nat) : Cost :=
  glueCost D l l

/-- Closed-cycle cost of a tour: the consecutive-pair sum plus the closing
edge.  For a singleton `[a]` this is `D a a`, which is exactly what the local
`calculate_tour_length` inside `improve_tour_with_2opt` computes (it sums
`D[t[i]][t[(i+1) % n]]` over all `i < n`). -/
def cycleCost (D : Nat → Nat → Cost) (l : List Nat) : Cost :=
  pathCost D l + closeCost D l

/-- `tsp_bruteforce.calculate_tour_length`: returns `0.0` for tours of length
`0` or `1`, otherwise the consecutive-pair sum plus the return edge. -/
def calculate_tour_length (tour : List Nat) (D : Nat → Nat → Cost) : Cost :=
  if tour.length = 0 then 0
  else if tour.length = 1 then 0
  else pathCost D tour + closeCost D tour

/-- The `best_length = inf; if length < best_length: update` selection loop
shared by the brute-force permutation scan, the Held-Karp inner minimisation
and its final last-city scan.  Returns the minimal first component together
with the payload of the first strictly-smaller candidate (ties keep the
earlier candidate, exactly as the strict `<` in the source does). -/
def foldMin {α : Type} (l : List (Cost × α)) : Cost × Option α :=
  l.foldl (fun acc c => if c.1 < acc.1 then (c.1, some c.2) else acc) (⊤, none)

/-- `np.any(np.isinf(distance_matrix))`: some entry in the `n × n` window is
infinite. -/
def hasInf (D : Nat → Nat → Cost) (n : Nat) : Bool :=
  (List.range n).any (fun i => (List.range n).any (fun j => decide (D i j = ⊤)))

deriving instance DecidableEq for Except

/-- All ways of inserting `a` into a list (used to enumerate permutations by
structural recursion, so that the enumeration evaluates inside the kernel;
the source's `itertools.permutations` enumerates the same collection in a
different order, and no behaviour of the solver depends on that order beyond
which of several equal-cost tours is returned, which nothing specifies). -/
def insertAll (a : Nat) : List Nat → List (List Nat)
  | [] => [[a]]
  | b :: t => (a :: b :: t) :: (insertAll a t).map (fun l => b :: l)

/-- All permutations of a list (structurally recursive enumeration). -/
def permsOf : List Nat → List (List Nat)
  | [] => [[]]
  | a :: t => (permsOf t).flatMap (insertAll a)

theorem mem_insertAll {a : Nat} :
    ∀ {t l : List Nat}, l ∈ insertAll a t ↔
      ∃ t₁ t₂, t = t₁ ++ t₂ ∧ l = t₁ ++ a :: t₂ := by
  intro t
  induction t with
  | nil =>
    intro l
    constructor
    · intro h
      have : l = [a] := by simpa [insertAll] using h
      exact ⟨[], [], rfl, by simp [this]⟩
    · rintro ⟨t₁, t₂, h, rfl⟩
      have h₁ : t₁ = [] := by
        cases t₁ with
        | nil => rfl
        | cons x xs => cases h
      have h₂ : t₂ = [] := by
        rw [h₁] at h
        simpa using h.symm
      subst h₁
      subst h₂
      simp [insertAll]
  | cons b t ih =>
    intro l
    constructor
    · intro h
      rcases List.mem_cons.1 h with rfl | h
      · exact ⟨[], b :: t, rfl, rfl⟩
      · obtain ⟨l', hl', rfl⟩ := List.mem_map.1 h
        obtain ⟨t₁, t₂, rfl, rfl⟩ := ih.1 hl'
        exact ⟨b :: t₁, t₂, rfl, rfl⟩
    · rintro ⟨t₁, t₂, h, rfl⟩
      cases t₁ with
      | nil =>
        cases h
        exact List.mem_cons_self _ _
      | cons x t₁' =>
        rw [List.cons_append] at h
        injection h with h1 h2
        subst h1
        refine List.mem_cons_of_mem _ (List.mem_map.2 ⟨t₁' ++ a :: t₂, ?_, rfl⟩)
        exact ih.2 ⟨t₁', t₂, h2, rfl⟩

theorem mem_permsOf : ∀ {t l : List Nat}, l ∈ permsOf t ↔ l.Perm t := by
  intro t
  induction t with
  | nil =>
    intro l
    simp [permsOf, List.perm_nil]
  | cons a t ih =>
    intro l
    simp only [permsOf, List.mem_flatMap]
    constructor
    · rintro ⟨q, hq, hl⟩
      obtain ⟨q₁, q₂, rfl, rfl⟩ := mem_insertAll.1 hl
      refine List.Perm.trans List.perm_middle ?_
      exact (ih.1 hq).cons a
    · intro hl
      have ha : a ∈ l := hl.mem_iff.2 (List.mem_cons_self a t)
      obtain ⟨l₁, l₂, rfl⟩ := List.append_of_mem ha
      have hq : (l₁ ++ l₂).Perm t := by
        have h₁ : (l₁ ++ a :: l₂).Perm (a :: (l₁ ++ l₂)) := List.perm_middle
        have := (h₁.symm.trans hl)
        exact (List.perm_cons a).1 this
      exact ⟨l₁ ++ l₂, ih.2 hq, mem_insertAll.2 ⟨l₁, l₂, rfl, rfl⟩⟩

/-- `tsp_bruteforce.solve_tsp_bruteforce`.  Returns
`(best_tour_point_ids, best_length, permutations_checked)` or the
`ValueError` message.  The permutation scan fixes index `0` and folds the
strict-minimum update over all permutations of the remaining indices. -/
def solve_tsp_bruteforce (D : Nat → Nat → Cost) (point_ids : List Nat) :
    Except String (List Nat × Cost × Nat) :=
  let n := point_ids.length
  if n = 0 then .error "No points provided"
  else if n = 1 then .ok ([point_ids.getD 0 0], 0, 1)
  else if 12 < n then .error "Brute-force TSP is impractical"
  else if hasInf D n then
    .error "Graph contains disconnected points (infinite distances)"
  else
    let perms := permsOf ((List.range n).drop 1)
    let cands := perms.map (fun p => (calculate_tour_length (0 :: p) D, 0 :: p))
    match foldMin cands with
    | (_, none) => .error "no tour found"
    | (len, some t) => .ok (t.map (fun i => point_ids.getD i 0), len, perms.length)

section FoldMinLemmas

variable {α : Type}

private def foldMinStep : Cost × Option α → Cost × α → Cost × Option α :=
  fun acc c => if c.1 < acc.1 then (c.1, some c.2) else acc

theorem foldMin_eq_foldl (l : List (Cost × α)) :
    foldMin l = l.foldl foldMinStep (⊤, none) := rfl

theorem foldl_foldMinStep_le_init (l : List (Cost × α)) (acc : Cost × Option α) :
    (l.foldl foldMinStep acc).1 ≤ acc.1 := by
  induction l generalizing acc with
  | nil => simp
  | cons c t ih =>
    refine le_trans (ih (foldMinStep acc c)) ?_
    by_cases h : c.1 < acc.1
    · simp [foldMinStep, h, le_of_lt h]
    · simp [foldMinStep, h]

theorem foldl_foldMinStep_le_mem (l : List (Cost × α)) (acc : Cost × Option α)
    (c : Cost × α) (hc : c ∈ l) : (l.foldl foldMinStep acc).1 ≤ c.1 := by
  induction l generalizing acc with
  | nil => cases hc
  | cons d t ih =>
    rcases List.mem_cons.1 hc with h | h
    · subst h
      refine le_trans (foldl_foldMinStep_le_init t (foldMinStep acc c)) ?_
      by_cases h : c.1 < acc.1
      · simp [foldMinStep, h]
      · simp only [foldMinStep, if_neg h]
        exact le_of_not_lt h
    · exact ih (foldMinStep acc d) h

theorem foldl_foldMinStep_attain (l : List (Cost × α)) (acc : Cost × Option α) :
    l.foldl foldMinStep acc = acc ∨
      ∃ c ∈ l, l.foldl foldMinStep acc = (c.1, some c.2) := by
  induction l generalizing acc with
  | nil => exact Or.inl rfl
  | cons d t ih =>
    rcases ih (foldMinStep acc d) with h | ⟨c, hc, h⟩
    · by_cases hd : d.1 < acc.1
      · right; exact ⟨d, List.mem_cons_self d t, by simpa [foldMinStep, hd] using h⟩
      · left; simpa [foldMinStep, hd] using h
    · right; exact ⟨c, List.mem_cons_of_mem d hc, h⟩

/-- The selected minimum is a lower bound for every candidate. -/
theorem foldMin_le {l : List (Cost × α)} {c : Cost × α} (hc : c ∈ l) :
    (foldMin l).1 ≤ c.1 :=
  foldl_foldMinStep_le_mem l (⊤, none) c hc

/-- If no candidate was selected, the reported minimum is still `⊤`. -/
theorem foldMin_none {l : List (Cost × α)} (h : (foldMin l).2 = none) :
    (foldMin l).1 = ⊤ := by
  rcases foldl_foldMinStep_attain l (⊤, none) with h' | ⟨c, _, h'⟩
  · rw [foldMin_eq_foldl, h']
  · rw [foldMin_eq_foldl] at h
    rw [h'] at h
    cases h

/-- A selected payload comes from the candidate list, paired with the reported
minimum. -/
theorem foldMin_mem {l : List (Cost × α)} {t : α} (h : (foldMin l).2 = some t) :
    ((foldMin l).1, t) ∈ l := by
  rcases foldl_foldMinStep_attain l (⊤, none) with h' | ⟨c, hc, h'⟩
  · rw [foldMin_eq_foldl] at h
    rw [h'] at h
    cases h
  · rw [foldMin_eq_foldl] at h ⊢
    rw [h'] at h ⊢
    cases h
    simpa using hc

/-- Some finite candidate exists iff a payload is selected. -/
theorem foldMin_isSome_of_lt {l : List (Cost × α)} {c : Cost × α} (hc : c ∈ l)
    (hfin : c.1 < ⊤) : ∃ t, (foldMin l).2 = some t := by
  rcases h : (foldMin l).2 with _ | t
  · exact absurd (foldMin_none h ▸ lt_of_le_of_lt (foldMin_le hc) hfin) (lt_irrefl _)
  · exact ⟨t, rfl⟩

end FoldMinLemmas

section HasInfLemmas

theorem hasInf_eq_false_iff (D : Nat → Nat → Cost) (n : Nat) :
    hasInf D n = false ↔ ∀ i < n, ∀ j < n, D i j ≠ ⊤ := by
  simp [hasInf, List.any_eq_true, List.mem_range]

end HasInfLemmas

section CostAlgebra

variable (D : Nat → Nat → Cost)

theorem pathCost_nil : pathCost D [] = 0 := rfl

theorem pathCost_single (a : Nat) : pathCost D [a] = 0 := rfl

theorem pathCost_cons_cons (a b : Nat) (t : List Nat) :
    pathCost D (a :: b :: t) = D a b + pathCost D (b :: t) := by
  simp [pathCost]

theorem glueCost_nil_left (l : List Nat) : glueCost D [] l = 0 := rfl

theorem glueCost_nil_right (l : List Nat) : glueCost D l [] = 0 := by
  simp [glueCost]

theorem glueCost_cons_cons_left (a b : Nat) (t l : List Nat) :
    glueCost D (a :: b :: t) l = glueCost D (b :: t) l := by
  simp [glueCost, List.getLast?_cons_cons]

theorem glueCost_eq (l₁ l₂ : List Nat) (h₁ : l₁ ≠ []) (h₂ : l₂ ≠ []) :
    glueCost D l₁ l₂ = D (l₁.getLast h₁) (l₂.head h₂) := by
  simp [glueCost, List.getLast?_eq_getLast _ h₁, List.head?_eq_head h₂]

theorem pathCost_append (l₁ l₂ : List Nat) :
    pathCost D (l₁ ++ l₂) = pathCost D l₁ + glueCost D l₁ l₂ + pathCost D l₂ := by
  induction l₁ with
  | nil => simp [pathCost, glueCost]
  | cons a l₁ ih =>
    cases l₁ with
    | nil =>
      cases l₂ with
      | nil => simp [pathCost, glueCost]
      | cons b t =>
        simp only [List.singleton_append, pathCost_cons_cons, pathCost_single]
        simp [glueCost]
    | cons c l₁' =>
      simp only [List.cons_append, pathCost_cons_cons] at *
      rw [ih, glueCost_cons_cons_left]
      abel

end CostAlgebra

section CycleAlgebra

variable (D : Nat → Nat → Cost)

theorem closeCost_nil : closeCost D [] = 0 := rfl

theorem cycleCost_nil : cycleCost D [] = 0 := by
  simp [cycleCost, closeCost, pathCost, glueCost]

theorem cycleCost_single (a : Nat) : cycleCost D [a] = D a a := by
  simp [cycleCost, closeCost, pathCost, glueCost]

theorem calculate_tour_length_eq_cycleCost (tour : List Nat)
    (h : 2 ≤ tour.length) :
    calculate_tour_length tour D = cycleCost D tour := by
  unfold calculate_tour_length cycleCost
  rw [if_neg (by omega), if_neg (by omega)]

/-- A closed tour's cost is invariant under rotating the starting point:
`cycleCost (X ++ Y) = cycleCost (Y ++ X)`. -/
theorem cycleCost_append_comm (X Y : List Nat) :
    cycleCost D (X ++ Y) = cycleCost D (Y ++ X) := by
  rcases eq_or_ne X [] with hX | hX
  · simp [hX]
  rcases eq_or_ne Y [] with hY | hY
  · simp [hY]
  have hXY : X ++ Y ≠ [] := by simp [hX]
  have hYX : Y ++ X ≠ [] := by simp [hY]
  have hlast₁ : (X ++ Y).getLast? = Y.getLast? := List.getLast?_append_of_ne_nil X hY
  have hhead₁ : (X ++ Y).head? = X.head? := List.head?_append_of_ne_nil X hX
  have hlast₂ : (Y ++ X).getLast? = X.getLast? := List.getLast?_append_of_ne_nil Y hX
  have hhead₂ : (Y ++ X).head? = Y.head? := List.head?_append_of_ne_nil Y hY
  have hclose₁ : closeCost D (X ++ Y) = glueCost D Y X := by
    unfold closeCost glueCost
    rw [hlast₁, hhead₁]
  have hclose₂ : closeCost D (Y ++ X) = glueCost D X Y := by
    unfold closeCost glueCost
    rw [hlast₂, hhead₂]
  unfold cycleCost
  rw [pathCost_append, pathCost_append, hclose₁, hclose₂]
  abel

end CycleAlgebra


theorem mem_of_head?_eq_some {α : Type} {l : List α} {x : α}
    (h : l.head? = some x) : x ∈ l := by
  cases l with
  | nil => cases h
  | cons a t => cases h; simp

theorem mem_of_getLast?_eq_some {α : Type} {l : List α} {x : α}
    (h : l.getLast? = some x) : x ∈ l := by
  induction l with
  | nil => cases h
  | cons a t ih =>
    cases t with
    | nil => cases h; simp
    | cons b t' =>
      rw [List.getLast?_cons_cons] at h
      exact List.mem_cons_of_mem a (ih h)

section Finiteness

variable {D : Nat → Nat → Cost} {n : Nat}

theorem pathCost_lt_top (hfin : ∀ i < n, ∀ j < n, D i j ≠ ⊤)
    {l : List Nat} (hl : ∀ x ∈ l, x < n) : pathCost D l < ⊤ := by
  induction l with
  | nil => simp [pathCost]
  | cons a t ih =>
    cases t with
    | nil => simp [pathCost]
    | cons b t' =>
      rw [pathCost_cons_cons]
      refine WithTop.add_lt_top.2 ⟨?_, ?_⟩
      · exact lt_top_iff_ne_top.2
          (hfin a (hl a (by simp)) b (hl b (by simp)))
      · exact ih (fun x hx => hl x (List.mem_cons_of_mem a hx))

theorem glueCost_lt_top (hfin : ∀ i < n, ∀ j < n, D i j ≠ ⊤)
    {l₁ l₂ : List Nat} (h₁ : ∀ x ∈ l₁, x < n) (h₂ : ∀ x ∈ l₂, x < n) :
    glueCost D l₁ l₂ < ⊤ := by
  unfold glueCost
  rcases hg : l₁.getLast? with _ | x
  · simp
  rcases hh : l₂.head? with _ | y
  · simp
  have hx : x ∈ l₁ := mem_of_getLast?_eq_some hg
  have hy : y ∈ l₂ := mem_of_head?_eq_some hh
  exact lt_top_iff_ne_top.2 (hfin x (h₁ x hx) y (h₂ y hy))

theorem cycleCost_lt_top (hfin : ∀ i < n, ∀ j < n, D i j ≠ ⊤)
    {l : List Nat} (hl : ∀ x ∈ l, x < n) : cycleCost D l < ⊤ :=
  WithTop.add_lt_top.2 ⟨pathCost_lt_top hfin hl, glueCost_lt_top hfin hl hl⟩

end Finiteness

section PermMap

/-- Reading a list back through `getD` over `range` reproduces the list. -/
theorem map_getD_range (ids : List Nat) :
    (List.range ids.length).map (fun i => ids.getD i 0) = ids := by
  induction ids with
  | nil => simp
  | cons a t ih =>
    rw [List.length_cons, List.range_succ_eq_map, List.map_cons, List.map_map]
    simp only [List.getD_cons_zero, Function.comp_def, List.getD_cons_succ]
    rw [ih]

/-- Mapping index tours back to identifiers turns a permutation of
`range n` into a permutation of `point_ids`. -/
theorem perm_map_getD {ids l : List Nat}
    (h : l.Perm (List.range ids.length)) :
    (l.map (fun i => ids.getD i 0)).Perm ids := by
  have := h.map (fun i => ids.getD i 0)
  rwa [map_getD_range ids] at this

theorem range_eq_cons_drop {n : Nat} (h : 0 < n) :
    List.range n = 0 :: (List.range n).drop 1 := by
  cases n with
  | zero => omega
  | succ m => rw [List.range_succ_eq_map]; rfl

end PermMap

/-- Specification-side notion from the claims: `L` is the minimum closed-cycle
cost over all permutations of the `n` indices. -/
def IsMinCycleCost (D : Nat → Nat → Cost) (n : Nat) (L : Cost) : Prop :=
  (∃ p, p.Perm (List.range n) ∧ cycleCost D p = L) ∧
  ∀ p, p.Perm (List.range n) → L ≤ cycleCost D p

/-- Every permutation of `range n` can be rotated into an anchored tour
(starting at index `0`) with the same closed-cycle cost. -/
theorem anchored_of_perm (D : Nat → Nat → Cost) {n : Nat} (hn : 0 < n)
    {q : List Nat} (hq : q.Perm (List.range n)) :
    ∃ r, r.Perm ((List.range n).drop 1) ∧
      cycleCost D (0 :: r) = cycleCost D q := by
  have h0 : (0 : Nat) ∈ q := hq.mem_iff.2 (List.mem_range.2 hn)
  obtain ⟨l₁, l₂, rfl⟩ := List.append_of_mem h0
  refine ⟨l₂ ++ l₁, ?_, ?_⟩
  · have h₁ : (0 :: (l₂ ++ l₁)).Perm (0 :: (l₁ ++ l₂)) :=
      List.Perm.cons 0 (List.perm_append_comm)
    have h₂ : (0 :: (l₁ ++ l₂)).Perm (l₁ ++ 0 :: l₂) := List.perm_middle.symm
    have h₃ : (0 :: (l₂ ++ l₁)).Perm (List.range n) := (h₁.trans h₂).trans hq
    rw [range_eq_cons_drop hn] at h₃
    exact (List.perm_cons 0).1 h₃
  · have : (0 :: l₂) ++ l₁ = 0 :: (l₂ ++ l₁) := rfl
    rw [← this, cycleCost_append_comm]

section BruteforceSpec

/-- Reduction of `solve_tsp_bruteforce` to its permutation-scan branch when
none of the guard conditions fire. -/
theorem solve_tsp_bruteforce_eq_main (D : Nat → Nat → Cost) (ids : List Nat)
    (h0 : ids.length ≠ 0) (h1 : ids.length ≠ 1) (h12 : ¬ 12 < ids.length)
    (hInf : hasInf D ids.length = false) :
    solve_tsp_bruteforce D ids =
      (match foldMin ((permsOf ((List.range ids.length).drop 1)).map
          (fun p => (calculate_tour_length (0 :: p) D, 0 :: p))) with
        | (_, none) => .error "no tour found"
        | (len, some t) =>
            .ok (t.map (fun i => ids.getD i 0), len,
              (permsOf ((List.range ids.length).drop 1)).length)) := by
  unfold solve_tsp_bruteforce
  simp only [h0, h1, h12, hInf, if_false, Bool.false_eq_true, ite_false]

/-- Core behaviour of the brute-force permutation scan for `2 ≤ n ≤ 12` on a
finite matrix: it succeeds, the returned tour is an anchored index tour mapped
through `point_ids`, its reported length is the closed-cycle cost of that
tour, and that length is minimal among all anchored tours. -/
theorem solve_tsp_bruteforce_spec (D : Nat → Nat → Cost) (ids : List Nat)
    (hn2 : 2 ≤ ids.length) (hn12 : ids.length ≤ 12)
    (hfin : ∀ i < ids.length, ∀ j < ids.length, D i j ≠ ⊤) :
    ∃ t L, solve_tsp_bruteforce D ids =
        .ok (t.map (fun i => ids.getD i 0), L,
             (permsOf ((List.range ids.length).drop 1)).length) ∧
      t.head? = some 0 ∧ t.Perm (List.range ids.length) ∧
      L = cycleCost D t ∧
      ∀ p, p.Perm ((List.range ids.length).drop 1) →
        L ≤ cycleCost D (0 :: p) := by
  have hn0 : 0 < ids.length := by omega
  have hrange : List.range ids.length = 0 :: (List.range ids.length).drop 1 :=
    range_eq_cons_drop hn0
  set n := ids.length with hn
  set drop1 := (List.range n).drop 1 with hdrop1
  have hlen1 : drop1.length = n - 1 := by
    rw [hdrop1]
    simp
  set cands := (permsOf drop1).map
      (fun p => (calculate_tour_length (0 :: p) D, 0 :: p)) with hcands
  -- every anchored tour built from a permutation of `drop1` is bounded and
  -- boundedly finite
  have hbound : ∀ p : List Nat, p.Perm drop1 → ∀ x ∈ (0 :: p), x < n := by
    intro p hp x hx
    have hperm : (0 :: p).Perm (List.range n) := by
      rw [hrange]
      exact hp.cons 0
    exact List.mem_range.1 (hperm.mem_iff.1 hx)
  have hlen2 : ∀ p : List Nat, p.Perm drop1 → 2 ≤ (0 :: p).length := by
    intro p hp
    have := hp.length_eq
    simp only [List.length_cons]
    omega
  have hcalc : ∀ p : List Nat, p.Perm drop1 →
      calculate_tour_length (0 :: p) D = cycleCost D (0 :: p) := by
    intro p hp
    exact calculate_tour_length_eq_cycleCost D (0 :: p) (hlen2 p hp)
  have hfinite : ∀ p : List Nat, p.Perm drop1 →
      calculate_tour_length (0 :: p) D < ⊤ := by
    intro p hp
    rw [hcalc p hp]
    exact cycleCost_lt_top hfin (hbound p hp)
  -- a finite candidate exists, so the fold selects a tour
  have hself : drop1 ∈ permsOf drop1 := mem_permsOf.2 (List.Perm.refl _)
  have hc₀ : (calculate_tour_length (0 :: drop1) D, 0 :: drop1) ∈ cands := by
    rw [hcands]
    exact List.mem_map_of_mem _ hself
  obtain ⟨t, ht⟩ := foldMin_isSome_of_lt hc₀ (hfinite drop1 (List.Perm.refl _))
  have hmem : ((foldMin cands).1, t) ∈ cands := foldMin_mem ht
  rw [hcands] at hmem
  obtain ⟨p, hp, heq⟩ := List.mem_map.1 hmem
  have hpperm : p.Perm drop1 := mem_permsOf.1 hp
  have heq1 : calculate_tour_length (0 :: p) D = (foldMin cands).1 :=
    congrArg Prod.fst heq
  have heq2 : (0 :: p) = t := by
    have := congrArg Prod.snd heq
    simpa using this
  refine ⟨0 :: p, (foldMin cands).1, ?_, rfl, ?_, ?_, ?_⟩
  · rw [solve_tsp_bruteforce_eq_main D ids (by omega) (by omega) (by omega)
      ((hasInf_eq_false_iff D ids.length).2 hfin)]
    rcases hF : foldMin cands with ⟨L', s⟩
    have hs : s = some t := by
      have := ht
      rw [hF] at this
      exact this
    subst hs
    have hL' : L' = (foldMin cands).1 := by rw [hF]
    rw [heq2, hL']
  · rw [hrange]
    exact hpperm.cons 0
  · rw [← heq1, hcalc p hpperm]
  · intro p' hp'
    have hc' : (calculate_tour_length (0 :: p') D, 0 :: p') ∈ cands := by
      rw [hcands]
      exact List.mem_map_of_mem _ (mem_permsOf.2 hp')
    have := foldMin_le hc'
    rwa [hcalc p' hp'] at this

end BruteforceSpec

/-- Held-Karp DP state: the pair `(dp[(mask, i)], tour-prefix reconstructed by
following the parent chain down from `(mask, i)`)`.  The Python table is a
sparse dict and treats absent `(mask, i)` keys as `inf`; absent states are
`(⊤, [])` here.  Subsets of `range n` stand for the bitmasks (the source
iterates masks in increasing numeric order so that every one-element-smaller
submask is ready, which is exactly the evaluation order of this recursion),
and the inner `for j in range(n)` scan with its strict `<` update is the
`foldMin` over ascending `j`. -/
def hkStateFuel (D : Nat → Nat → Cost) (n : Nat) :
    Nat → Finset Nat → Nat → Cost × List Nat
  | 0, _, _ => (⊤, [])
  | fuel + 1, S, i =>
    if S = {0} ∧ i = 0 then (0, [0])
    else if i ∈ S ∧ i ≠ 0 ∧ 0 ∈ S ∧ i < n ∧ S ⊆ Finset.range n then
      let r := foldMin ((List.range n).filterMap (fun j =>
        if j ∈ S.erase i then
          some ((hkStateFuel D n fuel (S.erase i) j).1 + D j i,
                (hkStateFuel D n fuel (S.erase i) j).2 ++ [i])
        else none))
      (r.1, r.2.getD [])
    else (⊤, [])

/-- Entry point of the recursion: the fuel is the subset size, which is
exactly the recursion depth (each step removes the current terminal city
from the subset). -/
def hkState (D : Nat → Nat → Cost) (n : Nat) (S : Finset Nat) (i : Nat) :
    Cost × List Nat :=
  hkStateFuel D n S.card S i

/-- Number of `(mask, i)` states the Python loop stores in `dp` (the base
state plus every non-base state whose inner minimisation produced a finite
value). -/
def hk_subproblems (D : Nat → Nat → Cost) (n : Nat) : Nat :=
  1 + (((Finset.range n).powerset ×ˢ Finset.range n).filter
    (fun q => 0 ∈ q.1 ∧ q.2 ∈ q.1 ∧ ¬(q.1 = {0} ∧ q.2 = 0) ∧
      (hkState D n q.1 q.2).1 ≠ ⊤)).card

/-- `tsp_heldkarp.solve_tsp_heldkarp`.  The final scan
`for i in range(1, n)` over possible last cities is the `foldMin` over
`(range n).drop 1`, and the parent-chain reconstruction is the tour prefix
carried by `hkState`. -/
def solve_tsp_heldkarp (D : Nat → Nat → Cost) (point_ids : List Nat) :
    Except String (List Nat × Cost × Nat) :=
  let n := point_ids.length
  if n = 0 then .error "No points provided"
  else if n = 1 then .ok ([point_ids.getD 0 0], 0, 1)
  else if n = 2 then
    .ok ([point_ids.getD 0 0, point_ids.getD 1 0], D 0 1 + D 1 0, 2)
  else if 23 < n then .error "Held-Karp is impractical"
  else if hasInf D n then
    .error "Graph contains disconnected points (infinite distances)"
  else
    match foldMin (((List.range n).drop 1).map (fun i =>
        ((hkState D n (Finset.range n) i).1 + D i 0,
         (hkState D n (Finset.range n) i).2))) with
    | (_, none) => .error "Could not find valid tour (disconnected graph)"
    | (len, some t) =>
        .ok (t.map (fun i => point_ids.getD i 0), len, hk_subproblems D n)

/-- Candidate list scanned by the inner `for j in range(n)` loop of the
Held-Karp recurrence at state `(S, i)`. -/
def hkCands (D : Nat → Nat → Cost) (n : Nat) (S : Finset Nat) (i : Nat) :
    List (Cost × List Nat) :=
  (List.range n).filterMap (fun j =>
    if j ∈ S.erase i then
      some ((hkState D n (S.erase i) j).1 + D j i,
            (hkState D n (S.erase i) j).2 ++ [i])
    else none)

theorem hkState_base (D : Nat → Nat → Cost) (n : Nat) :
    hkState D n {0} 0 = (0, [0]) := by
  show hkStateFuel D n (({0} : Finset Nat)).card {0} 0 = (0, [0])
  rw [Finset.card_singleton]
  simp [hkStateFuel]

theorem hkState_junk (D : Nat → Nat → Cost) (n : Nat) (S : Finset Nat) (i : Nat)
    (hbase : ¬(S = {0} ∧ i = 0))
    (hval : ¬(i ∈ S ∧ i ≠ 0 ∧ 0 ∈ S ∧ i < n ∧ S ⊆ Finset.range n)) :
    hkState D n S i = (⊤, []) := by
  show hkStateFuel D n S.card S i = (⊤, [])
  cases hc : S.card with
  | zero => rfl
  | succ m =>
    simp only [hkStateFuel]
    rw [if_neg hbase, if_neg hval]

theorem hkState_rec (D : Nat → Nat → Cost) (n : Nat) (S : Finset Nat) (i : Nat)
    (hbase : ¬(S = {0} ∧ i = 0))
    (hval : i ∈ S ∧ i ≠ 0 ∧ 0 ∈ S ∧ i < n ∧ S ⊆ Finset.range n) :
    hkState D n S i =
      ((foldMin (hkCands D n S i)).1, (foldMin (hkCands D n S i)).2.getD []) := by
  show hkStateFuel D n S.card S i = _
  have hc : S.card = (S.erase i).card + 1 := by
    rw [Finset.card_erase_of_mem hval.1]
    have := Finset.card_pos.2 ⟨i, hval.1⟩
    omega
  rw [hc]
  simp only [hkStateFuel]
  rw [if_neg hbase, if_pos hval]
  rfl

theorem mem_hkCands {D : Nat → Nat → Cost} {n : Nat} {S : Finset Nat} {i : Nat}
    {c : Cost × List Nat} :
    c ∈ hkCands D n S i ↔ ∃ j, j < n ∧ j ∈ S.erase i ∧
      c = ((hkState D n (S.erase i) j).1 + D j i,
           (hkState D n (S.erase i) j).2 ++ [i]) := by
  unfold hkCands
  rw [List.mem_filterMap]
  constructor
  · rintro ⟨j, hj, hfj⟩
    by_cases hmem : j ∈ S.erase i
    · rw [if_pos hmem] at hfj
      exact ⟨j, List.mem_range.1 hj, hmem, (Option.some.inj hfj).symm⟩
    · rw [if_neg hmem] at hfj
      cases hfj
  · rintro ⟨j, hj, hmem, rfl⟩
    exact ⟨j, List.mem_range.2 hj, by rw [if_pos hmem]⟩

/-- Validity of stored Held-Karp states: whenever `dp[(S, i)]` is finite, the
reconstructed prefix is a duplicate-free path over exactly the cities of `S`,
from city `0` to city `i`, and the stored value is its path cost. -/
theorem hkState_valid (D : Nat → Nat → Cost) (n : Nat) (hn : 0 < n) :
    ∀ (k : Nat) (S : Finset Nat) (i : Nat), S.card = k →
      (hkState D n S i).1 ≠ ⊤ →
      (hkState D n S i).1 = pathCost D (hkState D n S i).2 ∧
      (hkState D n S i).2.head? = some 0 ∧
      (hkState D n S i).2.getLast? = some i ∧
      (hkState D n S i).2.Nodup ∧
      (hkState D n S i).2.toFinset = S ∧
      ∀ x ∈ (hkState D n S i).2, x < n := by
  intro k
  induction k using Nat.strong_induction_on with
  | _ k ih =>
    intro S i hk htop
    by_cases hbase : S = {0} ∧ i = 0
    · obtain ⟨hS, hi⟩ := hbase
      subst hS
      subst hi
      rw [hkState_base]
      refine ⟨rfl, rfl, rfl, by simp, by simp, ?_⟩
      intro x hx
      have : x = 0 := by simpa using hx
      omega
    · by_cases hval : i ∈ S ∧ i ≠ 0 ∧ 0 ∈ S ∧ i < n ∧ S ⊆ Finset.range n
      · rw [hkState_rec D n S i hbase hval] at htop ⊢
        simp only at htop ⊢
        rcases hs : (foldMin (hkCands D n S i)).2 with _ | t
        · exact absurd (foldMin_none hs) htop
        have hmem := foldMin_mem hs
        obtain ⟨j, hjn, hjmem, hceq⟩ := mem_hkCands.1 hmem
        have h1 : (foldMin (hkCands D n S i)).1 =
            (hkState D n (S.erase i) j).1 + D j i := congrArg Prod.fst hceq
        have h2 : t = (hkState D n (S.erase i) j).2 ++ [i] := congrArg Prod.snd hceq
        have hsub : (hkState D n (S.erase i) j).1 ≠ ⊤ := by
          intro hT
          rw [hT, top_add] at h1
          exact htop h1
        have hcard : (S.erase i).card < k :=
          hk ▸ Finset.card_erase_lt_of_mem hval.1
        obtain ⟨hA, hB, hC, hD', hE, hF⟩ := ih _ hcard (S.erase i) j rfl hsub
        have hp'ne : (hkState D n (S.erase i) j).2 ≠ [] := by
          intro h
          rw [h] at hB
          cases hB
        have hine : i ∉ (hkState D n (S.erase i) j).2 := by
          intro hmem'
          have : i ∈ S.erase i := hE ▸ List.mem_toFinset.2 hmem'
          exact absurd this (Finset.not_mem_erase i S)
        simp only [Option.getD_some]
        refine ⟨?_, ?_, ?_, ?_, ?_, ?_⟩
        · rw [h1, h2, pathCost_append, pathCost_single, hA]
          have hglue : glueCost D (hkState D n (S.erase i) j).2 [i] = D j i := by
            unfold glueCost
            rw [hC]
            rfl
          rw [hglue]
          abel
        · rw [h2, List.head?_append_of_ne_nil _ hp'ne]
          exact hB
        · rw [h2, List.getLast?_concat]
        · rw [h2, List.nodup_append]
          refine ⟨hD', by simp, ?_⟩
          intro x hx hx'
          have : x = i := by simpa using hx'
          subst this
          exact hine hx
        · rw [h2, List.toFinset_append]
          simp only [List.toFinset_cons, List.toFinset_nil,
            insert_emptyc_eq]
          rw [hE, Finset.union_comm, ← Finset.insert_eq,
            Finset.insert_erase hval.1]
        · intro x hx
          rw [h2] at hx
          rcases List.mem_append.1 hx with h | h
          · exact hF x h
          · have : x = i := by simpa using h
            subst this
            exact hval.2.2.2.1
      · rw [hkState_junk D n S i hbase hval] at htop
        exact absurd rfl htop

/-- Lower-bound property of the Held-Karp recurrence: `dp[(S, i)]` is at most
the cost of any duplicate-free path from `0` to `i` through exactly the
cities of `S`. -/
theorem hkState_le (D : Nat → Nat → Cost) (n : Nat) :
    ∀ (p : List Nat) (i : Nat), p.Nodup → p.head? = some 0 →
      (∀ x ∈ p, x < n) → p.getLast? = some i →
      (hkState D n p.toFinset i).1 ≤ pathCost D p := by
  intro p
  induction p using List.reverseRecOn with
  | nil =>
    intro i _ h
    cases h
  | append_singleton q a ih =>
    intro i hnd hhead hbound hlast
    obtain rfl : i = a := by
      rw [List.getLast?_concat] at hlast
      exact (Option.some.inj hlast).symm
    rcases eq_or_ne q [] with hq | hqne
    · subst hq
      have h0 : i = 0 := by
        have : (([] : List Nat) ++ [i]).head? = some i := rfl
        rw [this] at hhead
        exact Option.some.inj hhead
      subst h0
      simp only [List.nil_append]
      have : ([0] : List Nat).toFinset = ({0} : Finset Nat) := by simp
      rw [this, hkState_base]
      simp [pathCost_single]
    · have hhq : q.head? = some 0 := by
        rw [List.head?_append_of_ne_nil q hqne] at hhead
        exact hhead
      obtain ⟨hndq, _, hdisj⟩ := List.nodup_append.1 hnd
      have hinq : i ∉ q := by
        intro h
        exact hdisj h (by simp)
      have h0q : (0 : Nat) ∈ q := mem_of_head?_eq_some hhq
      have hi0 : i ≠ 0 := by
        intro h
        subst h
        exact hinq h0q
      have hjlast : q.getLast? = some (q.getLast hqne) :=
        List.getLast?_eq_getLast_of_ne_nil hqne
      set j := q.getLast hqne with hj
      have hjq : j ∈ q := List.getLast_mem hqne
      have hSerase : ((q ++ [i]).toFinset).erase i = q.toFinset := by
        ext x
        simp only [Finset.mem_erase, List.toFinset_append, Finset.mem_union,
          List.mem_toFinset, List.toFinset_cons, List.toFinset_nil,
          insert_emptyc_eq, Finset.mem_insert, Finset.not_mem_empty, or_false,
          Finset.mem_singleton]
        constructor
        · rintro ⟨hne, h | h⟩
          · exact h
          · exact absurd h hne
        · intro hx
          exact ⟨fun h => hinq (h ▸ hx), Or.inl hx⟩
      have hbase : ¬((q ++ [i]).toFinset = {0} ∧ i = 0) := by
        rintro ⟨_, h⟩
        exact hi0 h
      have hval : i ∈ (q ++ [i]).toFinset ∧ i ≠ 0 ∧ 0 ∈ (q ++ [i]).toFinset ∧
          i < n ∧ (q ++ [i]).toFinset ⊆ Finset.range n := by
        refine ⟨by simp, hi0, ?_, ?_, ?_⟩
        · exact List.mem_toFinset.2 (List.mem_append_left _ h0q)
        · exact hbound i (by simp)
        · intro x hx
          exact Finset.mem_range.2 (hbound x (List.mem_toFinset.1 hx))
      rw [hkState_rec D n _ i hbase hval]
      simp only
      have hcand : ((hkState D n (((q ++ [i]).toFinset).erase i) j).1 + D j i,
          (hkState D n (((q ++ [i]).toFinset).erase i) j).2 ++ [i]) ∈
          hkCands D n (q ++ [i]).toFinset i :=
        mem_hkCands.2 ⟨j, hbound j (List.mem_append_left _ hjq),
          by rw [hSerase]; exact List.mem_toFinset.2 hjq, rfl⟩
      refine le_trans (foldMin_le hcand) ?_
      simp only [hSerase]
      have hIH : (hkState D n q.toFinset j).1 ≤ pathCost D q :=
        ih j hndq hhq (fun x hx => hbound x (List.mem_append_left _ hx)) hjlast
      have hpc : pathCost D (q ++ [i]) = pathCost D q + D j i := by
        rw [pathCost_append, pathCost_single]
        have hglue : glueCost D q [i] = D j i := by
          unfold glueCost
          rw [hjlast]
          rfl
        rw [hglue]
        abel
      rw [hpc]
      exact add_le_add_right hIH (D j i)

section HeldKarpSpec

theorem mem_drop_one_range {n x : Nat} :
    x ∈ (List.range n).drop 1 ↔ 1 ≤ x ∧ x < n := by
  cases n with
  | zero => simp
  | succ m =>
    rw [List.range_succ_eq_map]
    simp only [List.drop_succ_cons, List.drop_zero, List.mem_map, List.mem_range]
    constructor
    · rintro ⟨y, hy, rfl⟩
      omega
    · rintro ⟨h1, h2⟩
      exact ⟨x - 1, by omega, by omega⟩

theorem nodup_drop_one_range (n : Nat) : ((List.range n).drop 1).Nodup :=
  (List.drop_sublist 1 (List.range n)).nodup (List.nodup_range n)

theorem toFinset_list_range (n : Nat) : (List.range n).toFinset = Finset.range n := by
  ext x
  simp

theorem solve_tsp_heldkarp_eq_main (D : Nat → Nat → Cost) (ids : List Nat)
    (h0 : ids.length ≠ 0) (h1 : ids.length ≠ 1) (h2 : ids.length ≠ 2)
    (h23 : ¬ 23 < ids.length) (hInf : hasInf D ids.length = false) :
    solve_tsp_heldkarp D ids =
      (match foldMin (((List.range ids.length).drop 1).map (fun i =>
          ((hkState D ids.length (Finset.range ids.length) i).1 + D i 0,
           (hkState D ids.length (Finset.range ids.length) i).2))) with
        | (_, none) => .error "Could not find valid tour (disconnected graph)"
        | (len, some t) =>
            .ok (t.map (fun i => ids.getD i 0), len,
                 hk_subproblems D ids.length)) := by
  unfold solve_tsp_heldkarp
  simp only [h0, h1, h2, h23, hInf, if_false, Bool.false_eq_true, ite_false]

/-- Core behaviour of Held-Karp for `3 ≤ n ≤ 23` on a finite matrix: it
succeeds, the reconstructed tour is an anchored index tour mapped through
`point_ids`, its reported length is the closed-cycle cost of that tour, and
that length is minimal among all anchored tours. -/
theorem solve_tsp_heldkarp_spec (D : Nat → Nat → Cost) (ids : List Nat)
    (hn3 : 3 ≤ ids.length) (hn23 : ids.length ≤ 23)
    (hfin : ∀ i < ids.length, ∀ j < ids.length, D i j ≠ ⊤) :
    ∃ t L, solve_tsp_heldkarp D ids =
        .ok (t.map (fun i => ids.getD i 0), L, hk_subproblems D ids.length) ∧
      t.head? = some 0 ∧ t.Perm (List.range ids.length) ∧
      L = cycleCost D t ∧
      ∀ p, p.Perm ((List.range ids.length).drop 1) →
        L ≤ cycleCost D (0 :: p) := by
  have hn0 : 0 < ids.length := by omega
  have hrange : List.range ids.length = 0 :: (List.range ids.length).drop 1 :=
    range_eq_cons_drop hn0
  set n := ids.length with hn
  set drop1 := (List.range n).drop 1 with hdrop1
  have hlen1 : drop1.length = n - 1 := by
    rw [hdrop1]
    simp
  set f : Nat → Cost × List Nat := fun i =>
    ((hkState D n (Finset.range n) i).1 + D i 0,
     (hkState D n (Finset.range n) i).2) with hf
  set cands := drop1.map f with hcands
  -- facts about anchored tours `0 :: p` with `p` a permutation of `drop1`
  have hql : ∀ p : List Nat, p.Perm drop1 → (0 :: p).Perm (List.range n) := by
    intro p hp
    rw [hrange]
    exact hp.cons 0
  have hbound : ∀ p : List Nat, p.Perm drop1 → ∀ x ∈ (0 :: p), x < n := by
    intro p hp x hx
    exact List.mem_range.1 ((hql p hp).mem_iff.1 hx)
  have hkey : ∀ p : List Nat, p.Perm drop1 → ∀ i, (0 :: p).getLast? = some i →
      ((hkState D n (Finset.range n) i).1 + D i 0 ≤ cycleCost D (0 :: p)) ∧
        i ∈ drop1 := by
    intro p hp i hlast
    have hpne : p ≠ [] := by
      intro h
      have := hp.length_eq
      rw [h, hlen1] at this
      simp at this
      omega
    have hnd : (0 :: p).Nodup := ((hql p hp).nodup_iff).2 (List.nodup_range n)
    have htf : (0 :: p).toFinset = Finset.range n := by
      rw [List.toFinset_eq_of_perm _ _ (hql p hp)]
      exact toFinset_list_range n
    have hle := hkState_le D n (0 :: p) i hnd rfl (hbound p hp) hlast
    rw [htf] at hle
    have hclose : closeCost D (0 :: p) = D i 0 := by
      unfold closeCost glueCost
      rw [hlast]
      rfl
    constructor
    · unfold cycleCost
      rw [hclose]
      exact add_le_add_right hle (D i 0)
    · have himem : i ∈ (0 :: p) := mem_of_getLast?_eq_some hlast
      have hilast : p.getLast? = some i := by
        cases p with
        | nil => exact absurd rfl hpne
        | cons b t => rwa [List.getLast?_cons_cons] at hlast
      exact hp.mem_iff.1 (mem_of_getLast?_eq_some hilast)
  -- existence of a finite candidate
  have hd1ne : drop1 ≠ [] := by
    intro h
    rw [h] at hlen1
    simp at hlen1
    omega
  have hq0ne : (0 :: drop1) ≠ [] := List.cons_ne_nil _ _
  obtain ⟨i₀, hi₀⟩ : ∃ i₀, (0 :: drop1).getLast? = some i₀ :=
    ⟨(0 :: drop1).getLast hq0ne, List.getLast?_eq_getLast_of_ne_nil hq0ne⟩
  obtain ⟨hle₀, hi₀mem⟩ := hkey drop1 (List.Perm.refl _) i₀ hi₀
  have hcyc₀ : cycleCost D (0 :: drop1) < ⊤ :=
    cycleCost_lt_top hfin (hbound drop1 (List.Perm.refl _))
  have hc₀ : f i₀ ∈ cands := List.mem_map_of_mem f hi₀mem
  have hf₀fin : (f i₀).1 < ⊤ := lt_of_le_of_lt hle₀ hcyc₀
  obtain ⟨t, ht⟩ := foldMin_isSome_of_lt hc₀ hf₀fin
  have hmem : ((foldMin cands).1, t) ∈ cands := foldMin_mem ht
  rw [hcands] at hmem
  obtain ⟨istar, histar, heq⟩ := List.mem_map.1 hmem
  have heq1 : (hkState D n (Finset.range n) istar).1 + D istar 0 =
      (foldMin cands).1 := by
    have := congrArg Prod.fst heq
    simpa [hf] using this
  have heq2 : (hkState D n (Finset.range n) istar).2 = t := by
    have := congrArg Prod.snd heq
    simpa [hf] using this
  have hLfin : (foldMin cands).1 ≠ ⊤ :=
    ne_top_of_lt (lt_of_le_of_lt (foldMin_le hc₀) hf₀fin)
  have hvfin : (hkState D n (Finset.range n) istar).1 ≠ ⊤ := by
    intro hT
    rw [hT, top_add] at heq1
    exact hLfin heq1.symm
  obtain ⟨hA, hB, hC, hD', hE, _⟩ :=
    hkState_valid D n hn0 (Finset.range n).card (Finset.range n) istar rfl hvfin
  rw [heq2] at hA hB hC hD' hE
  have htperm : t.Perm (List.range n) :=
    List.perm_of_nodup_nodup_toFinset_eq hD' (List.nodup_range n)
      (by rw [hE, toFinset_list_range])
  refine ⟨t, (foldMin cands).1, ?_, hB, htperm, ?_, ?_⟩
  · rw [solve_tsp_heldkarp_eq_main D ids (by omega) (by omega) (by omega)
      (by omega) ((hasInf_eq_false_iff D ids.length).2 hfin)]
    rcases hF : foldMin cands with ⟨L', s⟩
    have hs : s = some t := by
      have := ht
      rw [hF] at this
      exact this
    subst hs
    have hL' : L' = (foldMin cands).1 := by rw [hF]
    rw [hL']
  · have hclose : closeCost D t = D istar 0 := by
      unfold closeCost glueCost
      rw [hC, hB]
    unfold cycleCost
    rw [hclose, ← hA, heq1]
  · intro p hp
    have hpne : (0 :: p) ≠ [] := List.cons_ne_nil _ _
    obtain ⟨i₁, hi₁⟩ : ∃ i₁, (0 :: p).getLast? = some i₁ :=
      ⟨(0 :: p).getLast hpne, List.getLast?_eq_getLast_of_ne_nil hpne⟩
    obtain ⟨hle₁, hi₁mem⟩ := hkey p hp i₁ hi₁
    have hc₁ : f i₁ ∈ cands := List.mem_map_of_mem f hi₁mem
    exact le_trans (foldMin_le hc₁) hle₁

end HeldKarpSpec

/-- Inner scan of the nearest-neighbor step:
`for next_city in range(n): if not visited[next_city]: distance_queries += 1;
if distance < nearest_distance: update`.  Returns
`(nearest_city, nearest_distance, queries_added)`. -/
def nnScan (D : Nat → Nat → Cost) (n current : Nat) (visited : List Bool) :
    Option Nat × Cost × Nat :=
  (List.range n).foldl
    (fun acc j =>
      if visited.getD j true = false then
        if D current j < acc.2.1 then (some j, D current j, acc.2.2 + 1)
        else (acc.1, acc.2.1, acc.2.2 + 1)
      else acc)
    (none, ⊤, 0)

/-- The `for _ in range(n - 1)` extension loop of
`solve_tsp_greedy_nearest_neighbor`; `tourRev` is the tour built so far in
reverse order (the Python list appends at the back).  When the loop ends, one
more distance query closes the cycle back to city `0`. -/
def nnLoop (D : Nat → Nat → Cost) (n : Nat) :
    Nat → List Bool → Nat → List Nat → Cost → Nat →
    Except String (List Nat × Cost × Nat)
  | 0, _, current, tourRev, total, queries =>
      .ok (tourRev.reverse, total + D current 0, queries + 1)
  | fuel + 1, visited, current, tourRev, total, queries =>
      match nnScan D n current visited with
      | (none, _, _) => .error "No unvisited cities found (should not happen)"
      | (some nc, nd, q) =>
          nnLoop D n fuel (visited.set nc true) nc (nc :: tourRev)
            (total + nd) (queries + q)

/-- `tsp_greedy.solve_tsp_greedy_nearest_neighbor`. -/
def solve_tsp_greedy_nearest_neighbor (D : Nat → Nat → Cost)
    (point_ids : List Nat) : Except String (List Nat × Cost × Nat) :=
  let n := point_ids.length
  if n = 0 then .error "No points provided"
  else if n = 1 then .ok ([point_ids.getD 0 0], 0, 0)
  else if n = 2 then
    .ok ([point_ids.getD 0 0, point_ids.getD 1 0], D 0 1 + D 1 0, 2)
  else if hasInf D n then
    .error "Graph contains disconnected points (infinite distances)"
  else
    match nnLoop D n (n - 1) ((List.replicate n false).set 0 true) 0 [0] 0 0 with
    | .error e => .error e
    | .ok (tour, total, queries) =>
        .ok (tour.map (fun i => point_ids.getD i 0), total, queries)

/-- Cost of the two tour edges removed by a candidate 2-opt swap `(i, j)`:
`D[t[i]][t[i+1]] + D[t[j]][t[(j+1) % n]]`. -/
def twoOptEdgeOld (D : Nat → Nat → Cost) (t : List Nat) (n i j : Nat) : Cost :=
  D (t.getD i 0) (t.getD (i + 1) 0) + D (t.getD j 0) (t.getD ((j + 1) % n) 0)

/-- Cost of the two edges a candidate 2-opt swap `(i, j)` would introduce:
`D[t[i]][t[j]] + D[t[i+1]][t[(j+1) % n]]`. -/
def twoOptEdgeNew (D : Nat → Nat → Cost) (t : List Nat) (n i j : Nat) : Cost :=
  D (t.getD i 0) (t.getD j 0) + D (t.getD (i + 1) 0) (t.getD ((j + 1) % n) 0)

/-- First-improvement scan `for i in range(n - 1): for j in range(i + 2, n)`:
the first pair whose new edges are strictly cheaper than the removed ones. -/
def findImprove (D : Nat → Nat → Cost) (n : Nat) (t : List Nat) :
    Option (Nat × Nat) :=
  (List.range (n - 1)).findSome? (fun i =>
    ((List.range' (i + 2) (n - (i + 2))).find? (fun j =>
      decide (twoOptEdgeNew D t n i j < twoOptEdgeOld D t n i j))).map
      (fun j => (i, j)))

/-- `current_tour[i+1 : j+1] = reversed(current_tour[i+1 : j+1])` with
`a = i + 1`, `b = j + 1`. -/
def reverseSegment (t : List Nat) (a b : Nat) : List Nat :=
  t.take a ++ ((t.drop a).take (b - a)).reverse ++ t.drop b

/-- The `while improved and iterations < max_iterations` sweep loop: each
iteration either applies the first improving swap found and restarts, or
terminates.  Returns the final tour and the swap count. -/
def twoOptLoop (D : Nat → Nat → Cost) (n : Nat) :
    Nat → List Nat → Nat → List Nat × Nat
  | 0, t, swaps => (t, swaps)
  | fuel + 1, t, swaps =>
      match findImprove D n t with
      | none => (t, swaps)
      | some (i, j) => twoOptLoop D n fuel (reverseSegment t (i + 1) (j + 1)) (swaps + 1)

/-- The local `calculate_tour_length` helper inside `improve_tour_with_2opt`:
sum over `i < n` of `D[t[i]][t[(i+1) % n]]`. -/
def calcTourLengthMod (D : Nat → Nat → Cost) (t : List Nat) : Cost :=
  ((List.range t.length).map
    (fun i => D (t.getD i 0) (t.getD ((i + 1) % t.length) 0))).sum

/-- `tsp_greedy.improve_tour_with_2opt`.  `id_to_idx` is positional lookup in
`point_ids` (the Python dict comprehension keeps the last occurrence of a
duplicated id, `List.indexOf` the first; they agree on duplicate-free id lists
and either choice maps an id back to an equal id).  The running
`current_length` always equals the local mod-`n` length of the current tour —
it is recomputed from scratch after every accepted swap — so the returned
length is that of the final tour. -/
def improve_tour_with_2opt (tour : List Nat) (D : Nat → Nat → Cost)
    (point_ids : List Nat) (max_iterations : Nat) :
    List Nat × Cost × Nat :=
  let tour_indices := tour.map (fun pid => point_ids.indexOf pid)
  let n := tour_indices.length
  let r := twoOptLoop D n max_iterations tour_indices 0
  (r.1.map (fun idx => point_ids.getD idx 0), calcTourLengthMod D r.1, r.2)

/-- Telemetry dict returned by `solve_tsp_greedy_with_2opt`.  The
`improvement_percent` entry is computed with total rational division in place
of Python float division; the guard reproduces the `ZeroDivisionError` the
source raises when the greedy length is exactly zero (its value on inputs
where Python would produce `nan` is not claimed by anything and is never
read). -/
structure GreedyStats where
  greedy_length : Cost
  improved_length : Cost
  improvement_percent : ℚ
  distance_queries : Nat
  two_opt_swaps : Nat
deriving DecidableEq

/-- `tsp_greedy.solve_tsp_greedy_with_2opt`: greedy construction followed by
2-opt improvement; fails like the source when the greedy phase fails or when
`improvement_percent` divides by a zero greedy length. -/
def solve_tsp_greedy_with_2opt (D : Nat → Nat → Cost) (point_ids : List Nat)
    (max_iterations : Nat) :
    Except String (List Nat × Cost × GreedyStats) :=
  match solve_tsp_greedy_nearest_neighbor D point_ids with
  | .error e => .error e
  | .ok (greedy_tour, greedy_length, distance_queries) =>
      let r := improve_tour_with_2opt greedy_tour D point_ids max_iterations
      if greedy_length = 0 then .error "float division by zero"
      else
        .ok (r.1, r.2.1,
          { greedy_length := greedy_length
            improved_length := r.2.1
            improvement_percent :=
              ((WithTop.untop' 0 greedy_length - WithTop.untop' 0 r.2.1) /
                WithTop.untop' 0 greedy_length) * 100
            distance_queries := distance_queries
            two_opt_swaps := r.2.2 })

section NearestNeighbor

variable {D : Nat → Nat → Cost}

/-- One step of the inner candidate scan. -/
def nnStep (D : Nat → Nat → Cost) (current : Nat) (visited : List Bool) :
    (Option Nat × Cost × Nat) → Nat → (Option Nat × Cost × Nat) :=
  fun acc j =>
    if visited.getD j true = false then
      if D current j < acc.2.1 then (some j, D current j, acc.2.2 + 1)
      else (acc.1, acc.2.1, acc.2.2 + 1)
    else acc

theorem nnScan_eq_foldl (n current : Nat) (visited : List Bool) :
    nnScan D n current visited =
      (List.range n).foldl (nnStep D current visited) (none, ⊤, 0) := rfl

theorem nnStep_unvisited_lt {current j : Nat} {visited : List Bool}
    {acc : Option Nat × Cost × Nat} (hv : visited.getD j true = false)
    (hd : D current j < acc.2.1) :
    nnStep D current visited acc j = (some j, D current j, acc.2.2 + 1) := by
  simp only [nnStep, if_pos hv, if_pos hd]

theorem nnStep_unvisited_ge {current j : Nat} {visited : List Bool}
    {acc : Option Nat × Cost × Nat} (hv : visited.getD j true = false)
    (hd : ¬ D current j < acc.2.1) :
    nnStep D current visited acc j = (acc.1, acc.2.1, acc.2.2 + 1) := by
  simp only [nnStep, if_pos hv, if_neg hd]

theorem nnStep_visited {current j : Nat} {visited : List Bool}
    {acc : Option Nat × Cost × Nat} (hv : ¬ visited.getD j true = false) :
    nnStep D current visited acc j = acc := by
  simp only [nnStep, if_neg hv]

theorem nnStep_foldl_queries (current : Nat) (visited : List Bool)
    (l : List Nat) (acc : Option Nat × Cost × Nat) :
    (l.foldl (nnStep D current visited) acc).2.2 =
      acc.2.2 + (l.filter (fun j => !visited.getD j true)).length := by
  induction l generalizing acc with
  | nil => simp
  | cons j t ih =>
    rw [List.foldl_cons, ih, List.filter_cons]
    by_cases hv : visited.getD j true = false
    · have hb : (!visited.getD j true) = true := by rw [hv]; rfl
      rw [if_pos hb, List.length_cons]
      by_cases hd : D current j < acc.2.1
      · rw [nnStep_unvisited_lt hv hd]
        dsimp only
        omega
      · rw [nnStep_unvisited_ge hv hd]
        dsimp only
        omega
    · have hb : ¬((!visited.getD j true) = true) := by
        simp only [Bool.not_eq_false] at hv
        rw [hv]
        simp
      rw [if_neg hb, nnStep_visited hv]

theorem nnStep_foldl_sel (current : Nat) (visited : List Bool)
    (l : List Nat) (acc : Option Nat × Cost × Nat) :
    ((l.foldl (nnStep D current visited) acc).1 = acc.1 ∧
     (l.foldl (nnStep D current visited) acc).2.1 = acc.2.1) ∨
    ∃ c ∈ l, visited.getD c true = false ∧
      (l.foldl (nnStep D current visited) acc).1 = some c ∧
      (l.foldl (nnStep D current visited) acc).2.1 = D current c := by
  induction l generalizing acc with
  | nil => exact Or.inl ⟨rfl, rfl⟩
  | cons j t ih =>
    rw [List.foldl_cons]
    rcases ih (nnStep D current visited acc j) with ⟨h1, h2⟩ | ⟨c, hc, hv, h1, h2⟩
    · by_cases hv : visited.getD j true = false
      · by_cases hd : D current j < acc.2.1
        · right
          refine ⟨j, List.mem_cons_self j t, hv, ?_, ?_⟩
          · rw [h1, nnStep_unvisited_lt hv hd]
          · rw [h2, nnStep_unvisited_lt hv hd]
        · left
          refine ⟨?_, ?_⟩
          · rw [h1, nnStep_unvisited_ge hv hd]
          · rw [h2, nnStep_unvisited_ge hv hd]
      · left
        refine ⟨?_, ?_⟩
        · rw [h1, nnStep_visited hv]
        · rw [h2, nnStep_visited hv]
    · exact Or.inr ⟨c, List.mem_cons_of_mem j hc, hv, h1, h2⟩

theorem nnStep_foldl_some (current : Nat) (visited : List Bool)
    (l : List Nat) (acc : Option Nat × Cost × Nat) (c : Nat)
    (h : acc.1 = some c) :
    ∃ c', (l.foldl (nnStep D current visited) acc).1 = some c' := by
  induction l generalizing acc c with
  | nil => exact ⟨c, h⟩
  | cons j t ih =>
    rw [List.foldl_cons]
    by_cases hv : visited.getD j true = false
    · by_cases hd : D current j < acc.2.1
      · exact ih _ j (by rw [nnStep_unvisited_lt hv hd])
      · exact ih _ c (by rw [nnStep_unvisited_ge hv hd]; exact h)
    · exact ih _ c (by rw [nnStep_visited hv]; exact h)

theorem nnStep_foldl_finds (current : Nat) (visited : List Bool)
    (l : List Nat) (acc : Option Nat × Cost × Nat)
    (hinv : acc.1 = none → acc.2.1 = ⊤)
    (hex : ∃ j ∈ l, visited.getD j true = false ∧ D current j ≠ ⊤) :
    ∃ c, (l.foldl (nnStep D current visited) acc).1 = some c := by
  induction l generalizing acc with
  | nil => exact absurd hex (by simp)
  | cons j t ih =>
    rw [List.foldl_cons]
    obtain ⟨j', hj', hv', hd'⟩ := hex
    rcases List.mem_cons.1 hj' with rfl | hj'
    · rcases hacc : acc.1 with _ | c
      · have htop : acc.2.1 = ⊤ := hinv hacc
        have hlt : D current j' < acc.2.1 := htop ▸ lt_top_iff_ne_top.2 hd'
        exact nnStep_foldl_some current visited t _ j'
          (by rw [nnStep_unvisited_lt hv' hlt])
      · by_cases hv : visited.getD j' true = false
        · by_cases hd : D current j' < acc.2.1
          · exact nnStep_foldl_some current visited t _ j'
              (by rw [nnStep_unvisited_lt hv hd])
          · exact nnStep_foldl_some current visited t _ c
              (by rw [nnStep_unvisited_ge hv hd]; exact hacc)
        · exact nnStep_foldl_some current visited t _ c
            (by rw [nnStep_visited hv]; exact hacc)
    · refine ih _ ?_ ⟨j', hj', hv', hd'⟩
      intro hnone
      by_cases hv : visited.getD j true = false
      · by_cases hd : D current j < acc.2.1
        · rw [nnStep_unvisited_lt hv hd] at hnone
          cases hnone
        · rw [nnStep_unvisited_ge hv hd] at hnone
          rw [nnStep_unvisited_ge hv hd]
          exact hinv hnone
      · rw [nnStep_visited hv] at hnone
        rw [nnStep_visited hv]
        exact hinv hnone

end NearestNeighbor

section NNLoopSpec

/-- `fuel + (fuel-1) + ... + 1`: total number of inner-scan distance lookups
performed by the extension loop when `fuel` steps remain. -/
def triangular : Nat → Nat
  | 0 => 0
  | k + 1 => (k + 1) + triangular k

theorem triangular_eq (k : Nat) : triangular k = k * (k + 1) / 2 := by
  induction k with
  | zero => rfl
  | succ m ih =>
    show (m + 1) + triangular m = (m + 1) * (m + 2) / 2
    rw [ih]
    have hev : m * (m + 1) % 2 = 0 := Nat.even_iff.1 (Nat.even_mul_succ_self m)
    have hexp : (m + 1) * (m + 2) = m * (m + 1) + 2 * (m + 1) := by ring
    omega

theorem length_filter_not_add {α : Type} (p : α → Bool) (l : List α) :
    (l.filter p).length + (l.filter (fun a => !p a)).length = l.length := by
  induction l with
  | nil => simp
  | cons a t ih =>
    rcases h : p a with _ | _
    · rw [List.filter_cons_of_neg (by simp [h]), List.filter_cons_of_pos (by simp [h])]
      simp only [List.length_cons]
      omega
    · rw [List.filter_cons_of_pos (by simp [h]), List.filter_cons_of_neg (by simp [h])]
      simp only [List.length_cons]
      omega

theorem filter_unvisited_length {n : Nat} {visited : List Bool}
    {tourRev : List Nat} (hnd : tourRev.Nodup) (hbd : ∀ x ∈ tourRev, x < n)
    (hvis : ∀ x, x < n → (visited.getD x true = true ↔ x ∈ tourRev)) :
    ((List.range n).filter (fun j => !visited.getD j true)).length =
      n - tourRev.length := by
  have hcong : (List.range n).filter (fun j => !visited.getD j true) =
      (List.range n).filter (fun j => !decide (j ∈ tourRev)) := by
    apply List.filter_congr
    intro x hx
    have hxn : x < n := List.mem_range.1 hx
    by_cases hmem : x ∈ tourRev
    · rw [(hvis x hxn).2 hmem]
      simp [hmem]
    · have hne : visited.getD x true ≠ true := fun h => hmem ((hvis x hxn).1 h)
      have hfa : visited.getD x true = false := by
        revert hne
        cases visited.getD x true <;> simp
      rw [hfa]
      simp [hmem]
  rw [hcong]
  have hperm : ((List.range n).filter (fun j => decide (j ∈ tourRev))).Perm
      tourRev := by
    apply List.perm_of_nodup_nodup_toFinset_eq
    · exact (List.nodup_range n).filter _
    · exact hnd
    · ext x
      simp only [List.mem_toFinset, List.mem_filter, List.mem_range,
        decide_eq_true_eq]
      constructor
      · rintro ⟨_, h⟩
        exact h
      · intro h
        exact ⟨hbd x h, h⟩
  have hadd := length_filter_not_add (fun j => decide (j ∈ tourRev)) (List.range n)
  rw [hperm.length_eq] at hadd
  rw [List.length_range] at hadd
  omega

theorem nnLoop_spec (D : Nat → Nat → Cost) (n : Nat)
    (hfin : ∀ i < n, ∀ j < n, D i j ≠ ⊤) :
    ∀ (fuel : Nat) (visited : List Bool) (current : Nat) (tourRev : List Nat)
      (total : Cost) (queries : Nat),
      visited.length = n →
      tourRev.head? = some current →
      tourRev.getLast? = some 0 →
      tourRev.Nodup →
      (∀ x ∈ tourRev, x < n) →
      (∀ x, x < n → (visited.getD x true = true ↔ x ∈ tourRev)) →
      fuel + tourRev.length = n →
      total = pathCost D tourRev.reverse →
      ∃ t, nnLoop D n fuel visited current tourRev total queries =
          .ok (t, cycleCost D t, queries + triangular fuel + 1) ∧
        t.head? = some 0 ∧ t.Nodup ∧ (∀ x ∈ t, x < n) ∧ t.length = n := by
  intro fuel
  induction fuel with
  | zero =>
    intro visited current tourRev total queries hvl hhead hlast hnd hbd hvis hflen htot
    have htr : tourRev.reverse.head? = some 0 := by
      rw [List.head?_reverse]
      exact hlast
    have htl : tourRev.reverse.getLast? = some current := by
      rw [List.getLast?_reverse]
      exact hhead
    refine ⟨tourRev.reverse, ?_, htr, List.nodup_reverse.2 hnd, ?_, ?_⟩
    · show Except.ok (tourRev.reverse, total + D current 0, queries + 1) = _
      have h1 : total + D current 0 = cycleCost D tourRev.reverse := by
        rw [htot]
        unfold cycleCost closeCost glueCost
        rw [htl, htr]
      rw [h1]
      show _ = Except.ok (tourRev.reverse, cycleCost D tourRev.reverse,
        queries + triangular 0 + 1)
      rfl
    · intro x hx
      exact hbd x (List.mem_reverse.1 hx)
    · rw [List.length_reverse]
      omega
  | succ fuel ih =>
    intro visited current tourRev total queries hvl hhead hlast hnd hbd hvis hflen htot
    have hcur : current ∈ tourRev := mem_of_head?_eq_some hhead
    have hcurn : current < n := hbd current hcur
    have htne : tourRev ≠ [] := by
      intro h
      rw [h] at hhead
      cases hhead
    have hcount : ((List.range n).filter (fun j => !visited.getD j true)).length =
        n - tourRev.length := filter_unvisited_length hnd hbd hvis
    have hposlen : ((List.range n).filter (fun j => !visited.getD j true)) ≠ [] := by
      intro h
      rw [h] at hcount
      simp at hcount
      omega
    obtain ⟨j₀, hj₀⟩ := List.exists_mem_of_ne_nil _ hposlen
    obtain ⟨hj₀r, hj₀v⟩ := List.mem_filter.1 hj₀
    have hj₀n : j₀ < n := List.mem_range.1 hj₀r
    have hj₀vf : visited.getD j₀ true = false := by
      revert hj₀v
      cases visited.getD j₀ true <;> simp
    obtain ⟨nc, hnc⟩ := nnStep_foldl_finds current visited (List.range n)
      (none, ⊤, 0) (fun _ => rfl)
      ⟨j₀, hj₀r, hj₀vf, hfin current hcurn j₀ hj₀n⟩
    rcases nnStep_foldl_sel current visited (List.range n) (none, ⊤, 0) with
      ⟨h1, _⟩ | ⟨c, hcm, hcv, h1, h2⟩
    · rw [hnc] at h1
      cases h1
    have hceq : c = nc := by
      rw [hnc] at h1
      exact (Option.some.inj h1).symm
    subst hceq
    have hcn : c < n := List.mem_range.1 hcm
    have hcnot : c ∉ tourRev := by
      intro hmem
      rw [(hvis c hcn).2 hmem] at hcv
      cases hcv
    -- the scan's query count is the number of unvisited cities
    have hq : (nnScan D n current visited).2.2 = fuel + 1 := by
      rw [nnScan_eq_foldl, nnStep_foldl_queries, hcount]
      dsimp only
      omega
    -- reduce one unfolding of the loop
    rcases hr : nnScan D n current visited with ⟨s, nd, q⟩
    have hs : s = some c := by
      rw [nnScan_eq_foldl] at hr
      rw [← hnc]
      rw [hr]
    have hnd' : nd = D current c := by
      rw [nnScan_eq_foldl] at hr
      rw [← h2, hr]
    have hq' : q = fuel + 1 := by
      rw [← hq, hr]
    subst hs
    have hstep : nnLoop D n (fuel + 1) visited current tourRev total queries =
        nnLoop D n fuel (visited.set c true) c (c :: tourRev) (total + nd)
          (queries + q) := by
      show (match nnScan D n current visited with
        | (none, _, _) => Except.error "No unvisited cities found (should not happen)"
        | (some nc, nd, q) =>
            nnLoop D n fuel (visited.set nc true) nc (nc :: tourRev)
              (total + nd) (queries + q)) = _
      rw [hr]
    rw [hstep]
    have hres := ih (visited.set c true) c (c :: tourRev) (total + nd)
      (queries + q)
      (by rw [List.length_set]; exact hvl)
      rfl
      (by
        cases tourRev with
        | nil => exact absurd rfl htne
        | cons b t => rw [List.getLast?_cons_cons]; exact hlast)
      (by rw [List.nodup_cons]; exact ⟨hcnot, hnd⟩)
      (by
        intro x hx
        rcases List.mem_cons.1 hx with rfl | hx
        · exact hcn
        · exact hbd x hx)
      (by
        intro x hxn
        by_cases hxc : x = c
        · subst hxc
          have : (visited.set x true).getD x true = true := by
            rw [List.getD_eq_getElem?_getD, List.getElem?_set_self (by omega)]
            rfl
          rw [this]
          simp
        · have : (visited.set c true).getD x true = visited.getD x true := by
            rw [List.getD_eq_getElem?_getD,
              List.getElem?_set_ne (fun h => hxc h.symm),
              ← List.getD_eq_getElem?_getD]
          rw [this, hvis x hxn]
          constructor
          · intro h
            exact List.mem_cons_of_mem c h
          · intro h
            rcases List.mem_cons.1 h with h | h
            · exact absurd h hxc
            · exact h)
      (by simp only [List.length_cons]; omega)
      (by
        rw [hnd', htot, List.reverse_cons, pathCost_append, pathCost_single]
        have hglue : glueCost D tourRev.reverse [c] = D current c := by
          unfold glueCost
          rw [List.getLast?_reverse, hhead]
          rfl
        rw [hglue]
        abel)
    obtain ⟨t, hloop, hthead, htnd, htbd, htlen⟩ := hres
    refine ⟨t, ?_, hthead, htnd, htbd, htlen⟩
    rw [hloop, hq']
    show _ = Except.ok (t, cycleCost D t, queries + triangular (fuel + 1) + 1)
    have : queries + (fuel + 1) + triangular fuel + 1 =
        queries + triangular (fuel + 1) + 1 := by
      show _ = queries + ((fuel + 1) + triangular fuel) + 1
      omega
    rw [this]

end NNLoopSpec

section GreedySpec

theorem solve_tsp_greedy_nn_eq_main (D : Nat → Nat → Cost) (ids : List Nat)
    (h0 : ids.length ≠ 0) (h1 : ids.length ≠ 1) (h2 : ids.length ≠ 2)
    (hInf : hasInf D ids.length = false) :
    solve_tsp_greedy_nearest_neighbor D ids =
      (match nnLoop D ids.length (ids.length - 1)
          ((List.replicate ids.length false).set 0 true) 0 [0] 0 0 with
        | .error e => .error e
        | .ok (tour, total, queries) =>
            .ok (tour.map (fun i => ids.getD i 0), total, queries)) := by
  unfold solve_tsp_greedy_nearest_neighbor
  simp only [h0, h1, h2, hInf, if_false, Bool.false_eq_true, ite_false]

/-- Core behaviour of the greedy nearest-neighbor construction for `n ≥ 3`
on a finite matrix: it succeeds, returns an anchored index tour mapped
through `point_ids` whose length is that tour's closed-cycle cost, and
reports exactly `(n-1) + (n-2) + ... + 1 + 1` distance queries. -/
theorem solve_tsp_greedy_nn_spec (D : Nat → Nat → Cost) (ids : List Nat)
    (hn3 : 3 ≤ ids.length)
    (hfin : ∀ i < ids.length, ∀ j < ids.length, D i j ≠ ⊤) :
    ∃ t, solve_tsp_greedy_nearest_neighbor D ids =
        .ok (t.map (fun i => ids.getD i 0), cycleCost D t,
             triangular (ids.length - 1) + 1) ∧
      t.head? = some 0 ∧ t.Perm (List.range ids.length) := by
  set n := ids.length with hn
  have hn0 : 0 < n := by omega
  have hvl : ((List.replicate n false).set 0 true).length = n := by
    rw [List.length_set, List.length_replicate]
  have hvis : ∀ x, x < n →
      (((List.replicate n false).set 0 true).getD x true = true ↔
        x ∈ ([0] : List Nat)) := by
    intro x hx
    by_cases hx0 : x = 0
    · subst hx0
      have : ((List.replicate n false).set 0 true).getD 0 true = true := by
        rw [List.getD_eq_getElem?_getD, List.getElem?_set_self (by rw [List.length_replicate]; omega)]
        rfl
      rw [this]
      simp
    · have : ((List.replicate n false).set 0 true).getD x true =
          (List.replicate n false).getD x true := by
        rw [List.getD_eq_getElem?_getD,
          List.getElem?_set_ne (fun h => hx0 h.symm),
          ← List.getD_eq_getElem?_getD]
      rw [this]
      have : (List.replicate n false).getD x true = false := by
        rw [List.getD_eq_getElem?_getD, List.getElem?_replicate_of_lt hx]
        rfl
      rw [this]
      simp [hx0]
  obtain ⟨t, hloop, hthead, htnd, htbd, htlen⟩ :=
    nnLoop_spec D n hfin (n - 1) ((List.replicate n false).set 0 true) 0 [0] 0 0
      hvl rfl rfl (by simp) (by intro x hx; simp at hx; omega) hvis
      (by simp only [List.length_cons, List.length_nil]; omega)
      (by simp [pathCost])
  refine ⟨t, ?_, hthead, ?_⟩
  · rw [solve_tsp_greedy_nn_eq_main D ids (by omega) (by omega) (by omega)
      ((hasInf_eq_false_iff D ids.length).2 hfin)]
    rw [← hn, hloop]
    simp
  · apply List.perm_of_nodup_nodup_toFinset_eq htnd (List.nodup_range n)
    rw [toFinset_list_range]
    apply Finset.eq_of_subset_of_card_le
    · intro x hx
      exact Finset.mem_range.2 (htbd x (List.mem_toFinset.1 hx))
    · rw [Finset.card_range, List.toFinset_card_of_nodup htnd, htlen]

end GreedySpec

section TwoOptAlgebra

variable {D : Nat → Nat → Cost}

theorem pathCost_reverse (hsym : ∀ i j, D i j = D j i) (l : List Nat) :
    pathCost D l.reverse = pathCost D l := by
  induction l with
  | nil => rfl
  | cons a t ih =>
    cases t with
    | nil => rfl
    | cons b t' =>
      rw [List.reverse_cons, pathCost_append, pathCost_single, ih,
        pathCost_cons_cons]
      have hglue : glueCost D (b :: t').reverse [a] = D a b := by
        unfold glueCost
        rw [List.getLast?_reverse]
        show (match some b, some a with
          | some x, some y => D x y
          | _, _ => 0) = D a b
        exact hsym b a
      rw [hglue]
      abel

theorem glueCost_reverse_left (l₁ l₂ : List Nat) :
    glueCost D l₁.reverse l₂ =
      (match l₁.head?, l₂.head? with
        | some x, some y => D x y
        | _, _ => 0) := by
  unfold glueCost
  rw [List.getLast?_reverse]

theorem glueCost_reverse_right (l₁ l₂ : List Nat) :
    glueCost D l₁ l₂.reverse =
      (match l₁.getLast?, l₂.getLast? with
        | some x, some y => D x y
        | _, _ => 0) := by
  unfold glueCost
  rw [List.head?_reverse]

/-- Head of a nonempty first list dominates the glue cost on the right. -/
theorem glueCost_right_head (l₁ l₂ l₃ : List Nat) (h : l₂.head? = l₃.head?) :
    glueCost D l₁ l₂ = glueCost D l₁ l₃ := by
  unfold glueCost
  rw [h]

/-- Cost-change identity of a 2-opt segment reversal on a symmetric matrix:
removing the edges `(A.last, B.head)` and `(B.last, (C ++ A).head)` and
adding `(A.last, B.last)` and `(B.head, (C ++ A).head)` accounts exactly for
the difference between the old tour `A ++ B ++ C` and the reversed-segment
tour `A ++ B.reverse ++ C`. -/
theorem cycleCost_reverse_middle (hsym : ∀ i j, D i j = D j i)
    (A B C : List Nat) (hA : A ≠ []) (hB : B ≠ []) :
    cycleCost D (A ++ B.reverse ++ C) +
      (glueCost D A B + glueCost D B (C ++ A)) =
    cycleCost D (A ++ B ++ C) +
      (glueCost D A B.reverse + glueCost D B.reverse (C ++ A)) := by
  have hBrev : B.reverse ≠ [] := by
    intro h
    exact hB (by simpa using congrArg List.reverse h)
  rcases eq_or_ne C [] with rfl | hC
  · -- no suffix: the second removed edge closes the cycle back into `A`
    simp only [List.append_nil, List.nil_append]
    have expand : ∀ (X : List Nat), X ≠ [] →
        cycleCost D (A ++ X) =
          pathCost D A + glueCost D A X + pathCost D X + glueCost D X A := by
      intro X hX
      unfold cycleCost
      rw [pathCost_append]
      have hclose : closeCost D (A ++ X) = glueCost D X A := by
        unfold closeCost glueCost
        rw [List.getLast?_append_of_ne_nil A hX, List.head?_append_of_ne_nil A hA]
      rw [hclose]
    rw [expand B hB, expand B.reverse hBrev, pathCost_reverse hsym]
    abel
  · have hCA : C ++ A ≠ [] := by simp [hC]
    have expand : ∀ (X : List Nat), X ≠ [] →
        cycleCost D (A ++ X ++ C) =
          pathCost D A + glueCost D A X + pathCost D X + glueCost D X C +
            pathCost D C + glueCost D C A := by
      intro X hX
      unfold cycleCost
      rw [List.append_assoc, pathCost_append, pathCost_append]
      have hglueAX : glueCost D A (X ++ C) = glueCost D A X := by
        apply glueCost_right_head
        rw [List.head?_append_of_ne_nil X hX]
      have hclose : closeCost D (A ++ (X ++ C)) = glueCost D C A := by
        unfold closeCost glueCost
        rw [List.getLast?_append_of_ne_nil A (by simp [hC]),
          List.getLast?_append_of_ne_nil X hC,
          List.head?_append_of_ne_nil A hA]
      rw [hglueAX, hclose]
      abel
    have hgBC : glueCost D B (C ++ A) = glueCost D B C := by
      apply glueCost_right_head
      rw [List.head?_append_of_ne_nil C hC]
    have hgBrevC : glueCost D B.reverse (C ++ A) = glueCost D B.reverse C := by
      apply glueCost_right_head
      rw [List.head?_append_of_ne_nil C hC]
    rw [expand B hB, expand B.reverse hBrev, hgBC, hgBrevC,
      pathCost_reverse hsym]
    abel

end TwoOptAlgebra

section TwoOptSwap

theorem findImprove_bounds {D : Nat → Nat → Cost} {n : Nat} {t : List Nat}
    {i j : Nat} (h : findImprove D n t = some (i, j)) :
    i + 2 ≤ j ∧ j < n ∧
      twoOptEdgeNew D t n i j < twoOptEdgeOld D t n i j := by
  unfold findImprove at h
  obtain ⟨i', hi', hfi⟩ := List.exists_of_findSome?_eq_some h
  rcases hfind : (List.range' (i' + 2) (n - (i' + 2))).find? (fun j =>
      decide (twoOptEdgeNew D t n i' j < twoOptEdgeOld D t n i' j)) with _ | j'
  · rw [hfind] at hfi
    cases hfi
  · rw [hfind] at hfi
    have hpair : (i', j') = (i, j) := by
      simpa using hfi
    have hii : i' = i := congrArg Prod.fst hpair
    have hjj : j' = j := congrArg Prod.snd hpair
    subst hii
    subst hjj
    have hp := List.find?_some hfind
    have hj := List.mem_of_find?_eq_some hfind
    obtain ⟨k, hk, hkj⟩ := List.mem_range'.1 hj
    have hlt := of_decide_eq_true hp
    refine ⟨by omega, by omega, hlt⟩

theorem twoOpt_swap_spec {D : Nat → Nat → Cost} {m : Nat}
    (hsym : ∀ x y, D x y = D y x) (hfin : ∀ x < m, ∀ y < m, D x y ≠ ⊤)
    {t : List Nat} (hbd : ∀ x ∈ t, x < m) {i j : Nat}
    (hij : i + 2 ≤ j) (hjn : j < t.length)
    (hlt : twoOptEdgeNew D t t.length i j < twoOptEdgeOld D t t.length i j) :
    (reverseSegment t (i + 1) (j + 1)).Perm t ∧
    (reverseSegment t (i + 1) (j + 1)).head? = t.head? ∧
    cycleCost D (reverseSegment t (i + 1) (j + 1)) < cycleCost D t := by
  set n := t.length with hn
  set a := i + 1 with ha
  set b := j + 1 with hb
  set A := t.take a with hA
  set B := (t.drop a).take (b - a) with hB
  set C := t.drop b with hC
  have han : a ≤ n := by omega
  have hbn : b ≤ n := by omega
  have hlenA : A.length = a := by
    rw [hA, List.length_take_of_le (by omega)]
  have hAne : A ≠ [] := by
    intro h
    rw [h] at hlenA
    simp at hlenA
    omega
  have hlenB : B.length = b - a := by
    rw [hB, List.length_take_of_le (by rw [List.length_drop]; omega)]
  have hBne : B ≠ [] := by
    intro h
    rw [h] at hlenB
    simp at hlenB
    omega
  have hdecomp : t = A ++ B ++ C := by
    rw [hA, hB, hC]
    rw [List.append_assoc]
    have h1 : (t.drop a).take (b - a) ++ t.drop b =
        (t.drop a).take (b - a) ++ (t.drop a).drop (b - a) := by
      rw [List.drop_drop]
      have : a + (b - a) = b := by omega
      rw [this]
    rw [h1, List.take_append_drop, List.take_append_drop]
  have hrs : reverseSegment t a b = A ++ B.reverse ++ C := rfl
  have hi' : i < n := by omega
  have ha' : a < n := by omega
  have hj' : j < n := hjn
  -- endpoint identifications
  have hAlast : A.getLast? = t[i]? := by
    rw [List.getLast?_eq_getElem?, hlenA]
    have hia : a - 1 = i := by omega
    rw [hA, hia, List.getElem?_take_of_lt (by omega)]
  have hAhead : A.head? = t[0]? := by
    rw [List.head?_eq_getElem?, hA, List.getElem?_take_of_lt (by omega)]
  have hBhead : B.head? = t[a]? := by
    rw [List.head?_eq_getElem?, hB, List.getElem?_take_of_lt (by omega),
      List.getElem?_drop]
  have hBlast : B.getLast? = t[j]? := by
    rw [List.getLast?_eq_getElem?, hlenB, hB,
      List.getElem?_take_of_lt (by omega), List.getElem?_drop]
    have : a + (b - a - 1) = j := by omega
    rw [this]
  have hCAhead : (C ++ A).head? = t[(j + 1) % n]? := by
    rcases Nat.lt_or_ge b n with hblt | hbge
    · have hCne : C ≠ [] := by
        intro h
        have := congrArg List.length h
        rw [hC, List.length_drop] at this
        simp at this
        omega
      rw [List.head?_append_of_ne_nil C hCne, List.head?_eq_getElem?, hC,
        List.getElem?_drop]
      have h1 : (j + 1) % n = b := by
        rw [← hb]
        exact Nat.mod_eq_of_lt hblt
      rw [h1]
    · have hbeq : b = n := by omega
      have hCnil : C = [] := by
        rw [hC, hbeq, hn, List.drop_length]
      rw [hCnil, List.nil_append, hAhead]
      have h1 : (j + 1) % n = 0 := by
        rw [← hb, hbeq]
        exact Nat.mod_self n
      rw [h1]
  -- concrete entries
  have hgi := List.getElem?_eq_getElem (l := t) (n := i) (by omega)
  have hga := List.getElem?_eq_getElem (l := t) (n := a) (by omega)
  have hgj := List.getElem?_eq_getElem (l := t) (n := j) (by omega)
  have hgw := List.getElem?_eq_getElem (l := t) (n := (j + 1) % n)
    (by
      have : (j + 1) % n < n := Nat.mod_lt _ (by omega)
      omega)
  -- the removed and added edges as glue costs
  have hold : glueCost D A B + glueCost D B (C ++ A) =
      twoOptEdgeOld D t n i j := by
    unfold twoOptEdgeOld glueCost
    rw [hAlast, hBhead, hBlast, hCAhead, hgi, hga, hgj, hgw]
    simp only [List.getD_eq_getElem?_getD, hgi, hga, hgj, hgw, Option.getD_some]
  have hnew : glueCost D A B.reverse + glueCost D B.reverse (C ++ A) =
      twoOptEdgeNew D t n i j := by
    unfold twoOptEdgeNew glueCost
    rw [List.getLast?_reverse, List.head?_reverse, hBhead, hBlast, hAlast,
      hCAhead, hgi, hga, hgj, hgw]
    simp only [List.getD_eq_getElem?_getD, hgi, hga, hgj, hgw, Option.getD_some]
  -- permutation, head preservation, and strict cost decrease
  refine ⟨?_, ?_, ?_⟩
  · rw [hrs]
    conv_rhs => rw [hdecomp]
    exact ((B.reverse_perm).append_left A).append_right C
  · rw [hrs]
    conv_rhs => rw [hdecomp]
    rw [List.append_assoc, List.head?_append_of_ne_nil A hAne,
      List.append_assoc, List.head?_append_of_ne_nil A hAne]
  · have heq := cycleCost_reverse_middle hsym A B C hAne hBne
    rw [hold, hnew] at heq
    have hm1 : t.getD i 0 ∈ t := by
      rw [List.getD_eq_getElem?_getD, hgi]
      exact List.getElem_mem _
    have hm2 : t.getD (i + 1) 0 ∈ t := by
      rw [List.getD_eq_getElem?_getD]
      rw [show i + 1 = a from rfl, hga]
      exact List.getElem_mem _
    have hm3 : t.getD j 0 ∈ t := by
      rw [List.getD_eq_getElem?_getD, hgj]
      exact List.getElem_mem _
    have hm4 : t.getD ((j + 1) % n) 0 ∈ t := by
      rw [List.getD_eq_getElem?_getD, hgw]
      exact List.getElem_mem _
    have holdfin : twoOptEdgeOld D t n i j ≠ ⊤ := by
      apply lt_top_iff_ne_top.1
      exact WithTop.add_lt_top.2
        ⟨lt_top_iff_ne_top.2 (hfin _ (hbd _ hm1) _ (hbd _ hm2)),
         lt_top_iff_ne_top.2 (hfin _ (hbd _ hm3) _ (hbd _ hm4))⟩
    have hcycfin : cycleCost D (A ++ B ++ C) ≠ ⊤ := by
      rw [← hdecomp]
      exact lt_top_iff_ne_top.1 (cycleCost_lt_top hfin hbd)
    have h1 : cycleCost D (A ++ B ++ C) + twoOptEdgeNew D t n i j <
        cycleCost D (A ++ B ++ C) + twoOptEdgeOld D t n i j :=
      WithTop.add_lt_add_left hcycfin hlt
    rw [← heq] at h1
    have h2 := (WithTop.add_lt_add_iff_right holdfin).1 h1
    rw [hrs]
    conv_rhs => rw [hdecomp]
    exact h2

end TwoOptSwap

section TwoOptLoopSpec

theorem twoOptLoop_spec {D : Nat → Nat → Cost} {m : Nat}
    (hsym : ∀ x y, D x y = D y x) (hfin : ∀ x < m, ∀ y < m, D x y ≠ ⊤) :
    ∀ (fuel : Nat) (t : List Nat) (swaps n : Nat), t.length = n →
      (∀ x ∈ t, x < m) →
      (twoOptLoop D n fuel t swaps).1.Perm t ∧
      (twoOptLoop D n fuel t swaps).1.head? = t.head? ∧
      cycleCost D (twoOptLoop D n fuel t swaps).1 ≤ cycleCost D t := by
  intro fuel
  induction fuel with
  | zero =>
    intro t swaps n _ _
    exact ⟨List.Perm.refl t, rfl, le_refl _⟩
  | succ fuel ih =>
    intro t swaps n hn hbd
    rcases hfound : findImprove D n t with _ | ⟨i, j⟩
    · have hred : twoOptLoop D n (fuel + 1) t swaps = (t, swaps) := by
        show (match findImprove D n t with
          | none => (t, swaps)
          | some (i, j) =>
              twoOptLoop D n fuel (reverseSegment t (i + 1) (j + 1)) (swaps + 1)) =
          (t, swaps)
        rw [hfound]
      rw [hred]
      exact ⟨List.Perm.refl t, rfl, le_refl _⟩
    · obtain ⟨hij, hjn, hlt⟩ := findImprove_bounds hfound
      subst hn
      obtain ⟨hperm, hhead, hcost⟩ :=
        twoOpt_swap_spec hsym hfin hbd hij hjn hlt
      have hred : twoOptLoop D t.length (fuel + 1) t swaps =
          twoOptLoop D t.length fuel (reverseSegment t (i + 1) (j + 1))
            (swaps + 1) := by
        show (match findImprove D t.length t with
          | none => (t, swaps)
          | some (i, j) =>
              twoOptLoop D t.length fuel (reverseSegment t (i + 1) (j + 1))
                (swaps + 1)) = _
        rw [hfound]
      rw [hred]
      obtain ⟨ihp, ihh, ihc⟩ := ih (reverseSegment t (i + 1) (j + 1)) (swaps + 1)
        t.length hperm.length_eq
        (fun x hx => hbd x (hperm.mem_iff.1 hx))
      exact ⟨ihp.trans hperm, ihh.trans hhead, le_trans ihc (le_of_lt hcost)⟩

theorem consec_sum_eq_pathCost (D : Nat → Nat → Cost) :
    ∀ l : List Nat,
      ((List.range (l.length - 1)).map
        (fun i => D (l.getD i 0) (l.getD (i + 1) 0))).sum = pathCost D l := by
  intro l
  induction l with
  | nil => rfl
  | cons a t ih =>
    cases t with
    | nil => rfl
    | cons b t' =>
      have hlen : (a :: b :: t').length - 1 = t'.length + 1 := by simp
      rw [hlen, List.range_succ_eq_map, List.map_cons, List.map_map,
        List.sum_cons]
      have h0 : D ((a :: b :: t').getD 0 0) ((a :: b :: t').getD 1 0) =
          D a b := rfl
      have hcomp : ((List.range t'.length).map
          ((fun i => D ((a :: b :: t').getD i 0) ((a :: b :: t').getD (i + 1) 0)) ∘
            Nat.succ)) =
          (List.range t'.length).map
            (fun i => D ((b :: t').getD i 0) ((b :: t').getD (i + 1) 0)) := by
        apply List.map_congr_left
        intro x _
        rfl
      rw [h0, hcomp, pathCost_cons_cons]
      have hthis := ih
      simp only [List.length_cons, Nat.add_sub_cancel] at hthis
      rw [hthis]

theorem calcTourLengthMod_eq_cycleCost (D : Nat → Nat → Cost) (l : List Nat) :
    calcTourLengthMod D l = cycleCost D l := by
  cases l with
  | nil => simp [calcTourLengthMod, cycleCost, pathCost, closeCost, glueCost]
  | cons x xs =>
    unfold calcTourLengthMod
    set n := (x :: xs).length with hn
    have hn1 : 1 ≤ n := by rw [hn]; simp
    have hsplit : List.range n = List.range (n - 1) ++ [n - 1] := by
      conv_lhs => rw [show n = (n - 1) + 1 from by omega]
      rw [List.range_succ]
    rw [hsplit, List.map_append, List.sum_append]
    have hmid : (List.range (n - 1)).map
        (fun i => D ((x :: xs).getD i 0) ((x :: xs).getD ((i + 1) % n) 0)) =
        (List.range (n - 1)).map
          (fun i => D ((x :: xs).getD i 0) ((x :: xs).getD (i + 1) 0)) := by
      apply List.map_congr_left
      intro i hi
      have hi' : i < n - 1 := List.mem_range.1 hi
      rw [Nat.mod_eq_of_lt (by omega)]
    rw [hmid, consec_sum_eq_pathCost]
    have hlastmem := List.getElem?_eq_getElem (l := x :: xs) (n := n - 1)
      (by omega)
    have hmod : (n - 1 + 1) % n = 0 := by
      rw [show n - 1 + 1 = n from by omega]
      exact Nat.mod_self n
    have hLg : (x :: xs).getLast? = some ((x :: xs).getD (n - 1) 0) := by
      rw [List.getLast?_eq_getElem?, ← hn, hlastmem, List.getD_eq_getElem?_getD,
        hlastmem]
      rfl
    have hterm : (List.map (fun i =>
          D ((x :: xs).getD i 0) ((x :: xs).getD ((i + 1) % n) 0)) [n - 1]).sum
        = closeCost D (x :: xs) := by
      rw [List.map_singleton, hmod]
      unfold closeCost glueCost
      rw [hLg]
      show [D ((x :: xs).getD (n - 1) 0) ((x :: xs).getD 0 0)].sum
          = D ((x :: xs).getD (n - 1) 0) x
      have hx : (x :: xs).getD 0 0 = x := rfl
      rw [hx]
      simp
    rw [hterm]
    rfl

theorem improve_tour_with_2opt_spec (D : Nat → Nat → Cost) {m : Nat}
    (hsym : ∀ x y, D x y = D y x) (hfin : ∀ x < m, ∀ y < m, D x y ≠ ⊤)
    (tour ids : List Nat) (maxIter : Nat)
    (hbd : ∀ x ∈ tour.map (fun pid => ids.indexOf pid), x < m) :
    ∃ ft, improve_tour_with_2opt tour D ids maxIter =
        (ft.map (fun idx => ids.getD idx 0), cycleCost D ft,
         (twoOptLoop D (tour.map (fun pid => ids.indexOf pid)).length maxIter
            (tour.map (fun pid => ids.indexOf pid)) 0).2) ∧
      ft.Perm (tour.map (fun pid => ids.indexOf pid)) ∧
      ft.head? = (tour.map (fun pid => ids.indexOf pid)).head? ∧
      cycleCost D ft ≤ cycleCost D (tour.map (fun pid => ids.indexOf pid)) := by
  set ti := tour.map (fun pid => ids.indexOf pid) with hti
  obtain ⟨hperm, hhead, hcost⟩ :=
    twoOptLoop_spec hsym hfin maxIter ti 0 ti.length rfl hbd
  refine ⟨(twoOptLoop D ti.length maxIter ti 0).1, ?_, hperm, hhead, hcost⟩
  unfold improve_tour_with_2opt
  dsimp only
  rw [← hti, calcTourLengthMod_eq_cycleCost]

end TwoOptLoopSpec

section BranchLemmas

variable (D : Nat → Nat → Cost) (ids : List Nat)

theorem head?_eq_getD {l : List Nat} (h : l ≠ []) :
    l.head? = some (l.getD 0 0) := by
  cases l with
  | nil => exact absurd rfl h
  | cons a t => rfl

theorem solve_tsp_bruteforce_zero (h0 : ids.length = 0) :
    solve_tsp_bruteforce D ids = .error "No points provided" := by
  unfold solve_tsp_bruteforce
  simp [h0]

theorem solve_tsp_bruteforce_one (h1 : ids.length = 1) :
    solve_tsp_bruteforce D ids = .ok ([ids.getD 0 0], 0, 1) := by
  unfold solve_tsp_bruteforce
  simp [h1]

theorem solve_tsp_bruteforce_size (h : 12 < ids.length) :
    solve_tsp_bruteforce D ids = .error "Brute-force TSP is impractical" := by
  unfold solve_tsp_bruteforce
  simp only [if_neg (by omega : ¬ ids.length = 0),
    if_neg (by omega : ¬ ids.length = 1), if_pos h]

theorem solve_tsp_bruteforce_inf (h2 : 2 ≤ ids.length) (h12 : ids.length ≤ 12)
    (hInf : hasInf D ids.length = true) :
    solve_tsp_bruteforce D ids =
      .error "Graph contains disconnected points (infinite distances)" := by
  unfold solve_tsp_bruteforce
  simp only [if_neg (by omega : ¬ ids.length = 0),
    if_neg (by omega : ¬ ids.length = 1),
    if_neg (by omega : ¬ 12 < ids.length), hInf, ite_true]

theorem solve_tsp_heldkarp_zero (h0 : ids.length = 0) :
    solve_tsp_heldkarp D ids = .error "No points provided" := by
  unfold solve_tsp_heldkarp
  simp [h0]

theorem solve_tsp_heldkarp_one (h1 : ids.length = 1) :
    solve_tsp_heldkarp D ids = .ok ([ids.getD 0 0], 0, 1) := by
  unfold solve_tsp_heldkarp
  simp [h1]

theorem solve_tsp_heldkarp_two (h2 : ids.length = 2) :
    solve_tsp_heldkarp D ids =
      .ok ([ids.getD 0 0, ids.getD 1 0], D 0 1 + D 1 0, 2) := by
  unfold solve_tsp_heldkarp
  simp [h2]

theorem solve_tsp_heldkarp_size (h : 23 < ids.length) :
    solve_tsp_heldkarp D ids = .error "Held-Karp is impractical" := by
  unfold solve_tsp_heldkarp
  simp only [if_neg (by omega : ¬ ids.length = 0),
    if_neg (by omega : ¬ ids.length = 1),
    if_neg (by omega : ¬ ids.length = 2), if_pos h]

theorem solve_tsp_heldkarp_inf (h3 : 3 ≤ ids.length) (h23 : ids.length ≤ 23)
    (hInf : hasInf D ids.length = true) :
    solve_tsp_heldkarp D ids =
      .error "Graph contains disconnected points (infinite distances)" := by
  unfold solve_tsp_heldkarp
  simp only [if_neg (by omega : ¬ ids.length = 0),
    if_neg (by omega : ¬ ids.length = 1),
    if_neg (by omega : ¬ ids.length = 2),
    if_neg (by omega : ¬ 23 < ids.length), hInf, ite_true]

theorem solve_tsp_greedy_nn_zero (h0 : ids.length = 0) :
    solve_tsp_greedy_nearest_neighbor D ids = .error "No points provided" := by
  unfold solve_tsp_greedy_nearest_neighbor
  simp [h0]

theorem solve_tsp_greedy_nn_one (h1 : ids.length = 1) :
    solve_tsp_greedy_nearest_neighbor D ids = .ok ([ids.getD 0 0], 0, 0) := by
  unfold solve_tsp_greedy_nearest_neighbor
  simp [h1]

theorem solve_tsp_greedy_nn_two (h2 : ids.length = 2) :
    solve_tsp_greedy_nearest_neighbor D ids =
      .ok ([ids.getD 0 0, ids.getD 1 0], D 0 1 + D 1 0, 2) := by
  unfold solve_tsp_greedy_nearest_neighbor
  simp [h2]

theorem solve_tsp_greedy_nn_inf (h3 : 3 ≤ ids.length)
    (hInf : hasInf D ids.length = true) :
    solve_tsp_greedy_nearest_neighbor D ids =
      .error "Graph contains disconnected points (infinite distances)" := by
  unfold solve_tsp_greedy_nearest_neighbor
  simp only [if_neg (by omega : ¬ ids.length = 0),
    if_neg (by omega : ¬ ids.length = 1),
    if_neg (by omega : ¬ ids.length = 2), hInf, ite_true]

theorem solve_tsp_greedy_with_2opt_inf (maxIter : Nat) (h3 : 3 ≤ ids.length)
    (hInf : hasInf D ids.length = true) :
    solve_tsp_greedy_with_2opt D ids maxIter =
      .error "Graph contains disconnected points (infinite distances)" := by
  unfold solve_tsp_greedy_with_2opt
  rw [solve_tsp_greedy_nn_inf D ids h3 hInf]

end BranchLemmas

section OkCharacterization

theorem foldl_foldMinStep_lt_top {α : Type} (l : List (Cost × α))
    (acc : Cost × Option α) :
    l.foldl foldMinStep acc = acc ∨ (l.foldl foldMinStep acc).1 < ⊤ := by
  induction l generalizing acc with
  | nil => exact Or.inl rfl
  | cons d t ih =>
    rcases ih (foldMinStep acc d) with h | h
    · rw [List.foldl_cons, h]
      by_cases hd : d.1 < acc.1
      · right
        rw [show foldMinStep acc d = (d.1, some d.2) from by
          simp only [foldMinStep, if_pos hd]]
        exact lt_of_lt_of_le hd le_top
      · left
        rw [show foldMinStep acc d = acc from by
          simp only [foldMinStep, if_neg hd]]
    · right
      rw [List.foldl_cons]
      exact h

theorem foldMin_some_lt_top {α : Type} {l : List (Cost × α)} {t : α}
    (h : (foldMin l).2 = some t) : (foldMin l).1 < ⊤ := by
  rcases foldl_foldMinStep_lt_top l (⊤, none) with h' | h'
  · rw [foldMin_eq_foldl] at h
    rw [h'] at h
    cases h
  · rw [foldMin_eq_foldl]
    exact h'

theorem reverseSegment_perm_head {t : List Nat} {i j : Nat}
    (hij : i + 2 ≤ j) (hjn : j < t.length) :
    (reverseSegment t (i + 1) (j + 1)).Perm t ∧
    (reverseSegment t (i + 1) (j + 1)).head? = t.head? := by
  set a := i + 1 with ha
  set b := j + 1 with hb
  set A := t.take a with hA
  set B := (t.drop a).take (b - a) with hB
  set C := t.drop b with hC
  have hlenA : A.length = a := by
    rw [hA, List.length_take_of_le (by omega)]
  have hAne : A ≠ [] := by
    intro h
    rw [h] at hlenA
    simp at hlenA
    omega
  have hdecomp : t = A ++ B ++ C := by
    rw [hA, hB, hC, List.append_assoc]
    have h1 : (t.drop a).take (b - a) ++ t.drop b =
        (t.drop a).take (b - a) ++ (t.drop a).drop (b - a) := by
      rw [List.drop_drop]
      have : a + (b - a) = b := by omega
      rw [this]
    rw [h1, List.take_append_drop, List.take_append_drop]
  have hrs : reverseSegment t a b = A ++ B.reverse ++ C := rfl
  constructor
  · rw [hrs]
    conv_rhs => rw [hdecomp]
    exact ((B.reverse_perm).append_left A).append_right C
  · rw [hrs]
    conv_rhs => rw [hdecomp]
    rw [List.append_assoc, List.head?_append_of_ne_nil A hAne,
      List.append_assoc, List.head?_append_of_ne_nil A hAne]

theorem twoOptLoop_perm_head (D : Nat → Nat → Cost) :
    ∀ (fuel : Nat) (t : List Nat) (swaps n : Nat), t.length = n →
      (twoOptLoop D n fuel t swaps).1.Perm t ∧
      (twoOptLoop D n fuel t swaps).1.head? = t.head? := by
  intro fuel
  induction fuel with
  | zero =>
    intro t swaps n _
    exact ⟨List.Perm.refl t, rfl⟩
  | succ fuel ih =>
    intro t swaps n hn
    rcases hfound : findImprove D n t with _ | ⟨i, j⟩
    · have hred : twoOptLoop D n (fuel + 1) t swaps = (t, swaps) := by
        show (match findImprove D n t with
          | none => (t, swaps)
          | some (i, j) =>
              twoOptLoop D n fuel (reverseSegment t (i + 1) (j + 1)) (swaps + 1)) =
          (t, swaps)
        rw [hfound]
      rw [hred]
      exact ⟨List.Perm.refl t, rfl⟩
    · obtain ⟨hij, hjn, _⟩ := findImprove_bounds hfound
      subst hn
      obtain ⟨hperm, hhead⟩ := reverseSegment_perm_head hij hjn
      have hred : twoOptLoop D t.length (fuel + 1) t swaps =
          twoOptLoop D t.length fuel (reverseSegment t (i + 1) (j + 1))
            (swaps + 1) := by
        show (match findImprove D t.length t with
          | none => (t, swaps)
          | some (i, j) =>
              twoOptLoop D t.length fuel (reverseSegment t (i + 1) (j + 1))
                (swaps + 1)) = _
        rw [hfound]
      rw [hred]
      obtain ⟨ihp, ihh⟩ := ih (reverseSegment t (i + 1) (j + 1)) (swaps + 1)
        t.length hperm.length_eq
      exact ⟨ihp.trans hperm, ihh.trans hhead⟩

theorem getD_indexOf_of_mem {ids : List Nat} {x : Nat} (hx : x ∈ ids) :
    ids.getD (ids.indexOf x) 0 = x := by
  have hlt : ids.indexOf x < ids.length := List.indexOf_lt_length.2 hx
  rw [List.getD_eq_getElem?_getD, List.getElem?_eq_getElem hlt]
  simp only [Option.getD_some]
  exact List.getElem_indexOf hlt

end OkCharacterization

section OkLemmas

theorem map_getD_head_perm {ids t : List Nat} (hids : ids ≠ [])
    (hh : t.head? = some 0) (hp : t.Perm (List.range ids.length)) :
    (t.map (fun i => ids.getD i 0)).Perm ids ∧
    (t.map (fun i => ids.getD i 0)).head? = ids.head? := by
  refine ⟨perm_map_getD hp, ?_⟩
  cases t with
  | nil => cases hh
  | cons a r =>
    have ha : a = 0 := by
      injection hh
    subst ha
    rw [head?_eq_getD hids]
    rfl

theorem solve_tsp_bruteforce_ok {D : Nat → Nat → Cost} {ids tour : List Nat}
    {L : Cost} {c : Nat}
    (h : solve_tsp_bruteforce D ids = .ok (tour, L, c)) :
    tour.Perm ids ∧ tour.head? = ids.head? := by
  have hids : ids ≠ [] := by
    intro hh
    rw [solve_tsp_bruteforce_zero D ids (by rw [hh]; rfl)] at h
    cases h
  by_cases h0 : ids.length = 0
  · rw [solve_tsp_bruteforce_zero D ids h0] at h
    cases h
  by_cases h1 : ids.length = 1
  · rw [solve_tsp_bruteforce_one D ids h1] at h
    simp only [Except.ok.injEq, Prod.mk.injEq] at h
    obtain ⟨ht, -, -⟩ := h
    subst ht
    obtain ⟨a, rfl⟩ := List.length_eq_one.1 h1
    exact ⟨by simp, rfl⟩
  by_cases h12 : 12 < ids.length
  · rw [solve_tsp_bruteforce_size D ids h12] at h
    cases h
  rcases hInf : hasInf D ids.length with _ | _
  · obtain ⟨t, L', hres, hhead, hperm, -⟩ :=
      solve_tsp_bruteforce_spec D ids (by omega) (by omega)
        ((hasInf_eq_false_iff D ids.length).1 hInf)
    rw [hres] at h
    simp only [Except.ok.injEq, Prod.mk.injEq] at h
    obtain ⟨ht, -, -⟩ := h
    subst ht
    exact map_getD_head_perm hids hhead hperm
  · rw [solve_tsp_bruteforce_inf D ids (by omega) (by omega) hInf] at h
    cases h

theorem solve_tsp_heldkarp_ok {D : Nat → Nat → Cost} {ids tour : List Nat}
    {L : Cost} {c : Nat}
    (h : solve_tsp_heldkarp D ids = .ok (tour, L, c)) :
    tour.Perm ids ∧ tour.head? = ids.head? := by
  have hids : ids ≠ [] := by
    intro hh
    rw [solve_tsp_heldkarp_zero D ids (by rw [hh]; rfl)] at h
    cases h
  by_cases h0 : ids.length = 0
  · rw [solve_tsp_heldkarp_zero D ids h0] at h
    cases h
  by_cases h1 : ids.length = 1
  · rw [solve_tsp_heldkarp_one D ids h1] at h
    simp only [Except.ok.injEq, Prod.mk.injEq] at h
    obtain ⟨ht, -, -⟩ := h
    subst ht
    obtain ⟨a, rfl⟩ := List.length_eq_one.1 h1
    exact ⟨by simp, rfl⟩
  by_cases h2 : ids.length = 2
  · rw [solve_tsp_heldkarp_two D ids h2] at h
    simp only [Except.ok.injEq, Prod.mk.injEq] at h
    obtain ⟨ht, -, -⟩ := h
    subst ht
    obtain ⟨a, b, rfl⟩ := List.length_eq_two.1 h2
    exact ⟨by simp, rfl⟩
  by_cases h23 : 23 < ids.length
  · rw [solve_tsp_heldkarp_size D ids h23] at h
    cases h
  rcases hInf : hasInf D ids.length with _ | _
  · obtain ⟨t, L', hres, hhead, hperm, -⟩ :=
      solve_tsp_heldkarp_spec D ids (by omega) (by omega)
        ((hasInf_eq_false_iff D ids.length).1 hInf)
    rw [hres] at h
    simp only [Except.ok.injEq, Prod.mk.injEq] at h
    obtain ⟨ht, -, -⟩ := h
    subst ht
    exact map_getD_head_perm hids hhead hperm
  · rw [solve_tsp_heldkarp_inf D ids (by omega) (by omega) hInf] at h
    cases h

theorem solve_tsp_greedy_nn_ok {D : Nat → Nat → Cost} {ids tour : List Nat}
    {L : Cost} {q : Nat}
    (h : solve_tsp_greedy_nearest_neighbor D ids = .ok (tour, L, q)) :
    tour.Perm ids ∧ tour.head? = ids.head? := by
  have hids : ids ≠ [] := by
    intro hh
    rw [solve_tsp_greedy_nn_zero D ids (by rw [hh]; rfl)] at h
    cases h
  by_cases h0 : ids.length = 0
  · rw [solve_tsp_greedy_nn_zero D ids h0] at h
    cases h
  by_cases h1 : ids.length = 1
  · rw [solve_tsp_greedy_nn_one D ids h1] at h
    simp only [Except.ok.injEq, Prod.mk.injEq] at h
    obtain ⟨ht, -, -⟩ := h
    subst ht
    obtain ⟨a, rfl⟩ := List.length_eq_one.1 h1
    exact ⟨by simp, rfl⟩
  by_cases h2 : ids.length = 2
  · rw [solve_tsp_greedy_nn_two D ids h2] at h
    simp only [Except.ok.injEq, Prod.mk.injEq] at h
    obtain ⟨ht, -, -⟩ := h
    subst ht
    obtain ⟨a, b, rfl⟩ := List.length_eq_two.1 h2
    exact ⟨by simp, rfl⟩
  rcases hInf : hasInf D ids.length with _ | _
  · obtain ⟨t, hres, hhead, hperm⟩ :=
      solve_tsp_greedy_nn_spec D ids (by omega)
        ((hasInf_eq_false_iff D ids.length).1 hInf)
    rw [hres] at h
    simp only [Except.ok.injEq, Prod.mk.injEq] at h
    obtain ⟨ht, -, -⟩ := h
    subst ht
    exact map_getD_head_perm hids hhead hperm
  · rw [solve_tsp_greedy_nn_inf D ids (by omega) hInf] at h
    cases h

theorem improve_tour_perm_head {tour : List Nat} {D : Nat → Nat → Cost}
    {ids : List Nat} {maxIter : Nat}
    (hperm : tour.Perm ids) (hhead : tour.head? = ids.head?) :
    (improve_tour_with_2opt tour D ids maxIter).1.Perm ids ∧
    (improve_tour_with_2opt tour D ids maxIter).1.head? = ids.head? := by
  obtain ⟨hlp, hlh⟩ :=
    twoOptLoop_perm_head D maxIter (tour.map (fun pid => ids.indexOf pid)) 0
      (tour.map (fun pid => ids.indexOf pid)).length rfl
  have hmapback : (tour.map (fun pid => ids.indexOf pid)).map
      (fun i => ids.getD i 0) = tour := by
    rw [List.map_map]
    have hc : ∀ x ∈ tour,
        ((fun i => ids.getD i 0) ∘ fun pid => ids.indexOf pid) x = id x := by
      intro x hx
      exact getD_indexOf_of_mem (hperm.mem_iff.1 hx)
    rw [List.map_congr_left hc, List.map_id]
  have hres1 : (improve_tour_with_2opt tour D ids maxIter).1 =
      (twoOptLoop D (tour.map (fun pid => ids.indexOf pid)).length maxIter
        (tour.map (fun pid => ids.indexOf pid)) 0).1.map
        (fun i => ids.getD i 0) := rfl
  rw [hres1]
  constructor
  · have hp2 := hlp.map (fun i => ids.getD i 0)
    rw [hmapback] at hp2
    exact hp2.trans hperm
  · rw [List.head?_map, hlh, ← List.head?_map, hmapback, hhead]

theorem solve_tsp_greedy_with_2opt_ok {D : Nat → Nat → Cost}
    {ids tour : List Nat} {L : Cost} {st : GreedyStats} {maxIter : Nat}
    (h : solve_tsp_greedy_with_2opt D ids maxIter = .ok (tour, L, st)) :
    tour.Perm ids ∧ tour.head? = ids.head? := by
  unfold solve_tsp_greedy_with_2opt at h
  rcases hg : solve_tsp_greedy_nearest_neighbor D ids with e | ⟨gt, gl, q⟩
  · rw [hg] at h
    cases h
  · rw [hg] at h
    dsimp only at h
    by_cases hz : gl = 0
    · rw [if_pos hz] at h
      cases h
    · rw [if_neg hz] at h
      simp only [Except.ok.injEq, Prod.mk.injEq] at h
      obtain ⟨ht, -, -⟩ := h
      obtain ⟨hgp, hgh⟩ := solve_tsp_greedy_nn_ok hg
      obtain ⟨hip, hih⟩ := improve_tour_perm_head hgp hgh
      rw [ht] at hip hih
      exact ⟨hip, hih⟩

end OkLemmas

section MinCycleLemmas

theorem cycleCost_pair (D : Nat → Nat → Cost) (x y : Nat) :
    cycleCost D [x, y] = D x y + D y x := by
  simp [cycleCost, pathCost, closeCost, glueCost]

theorem perm_range_two {q : List Nat} (h : q.Perm (List.range 2)) :
    q = [0, 1] ∨ q = [1, 0] := by
  have h01 : q.Perm [0, 1] := h
  have hlen : q.length = 2 := h01.length_eq
  obtain ⟨x, y, rfl⟩ : ∃ x y, q = [x, y] := by
    match q, hlen with
    | [x, y], _ => exact ⟨x, y, rfl⟩
  have hx : x = 0 ∨ x = 1 := by
    have hm : x ∈ [0, 1] := h01.mem_iff.1 (by simp)
    simpa using hm
  have hy : y = 0 ∨ y = 1 := by
    have hm : y ∈ [0, 1] := h01.mem_iff.1 (by simp)
    simpa using hm
  have hne : x ≠ y := by
    have hnd : ([x, y] : List Nat).Nodup := h01.nodup_iff.2 (by decide)
    simp only [List.nodup_cons, List.mem_singleton, List.nodup_nil,
      and_true, not_false_iff] at hnd
    exact hnd.1
  rcases hx with rfl | rfl <;> rcases hy with rfl | rfl <;> simp_all

theorem isMin_of_anchored (D : Nat → Nat → Cost) {n : Nat} (hn : 0 < n)
    {t : List Nat} {L : Cost} (hp : t.Perm (List.range n))
    (hL : L = cycleCost D t)
    (hmin : ∀ p, p.Perm ((List.range n).drop 1) → L ≤ cycleCost D (0 :: p)) :
    IsMinCycleCost D n L := by
  refine ⟨⟨t, hp, hL.symm⟩, ?_⟩
  intro q hq
  obtain ⟨r, hr, hre⟩ := anchored_of_perm D hn hq
  rw [← hre]
  exact hmin r hr

theorem isMinCycleCost_unique {D : Nat → Nat → Cost} {n : Nat} {L₁ L₂ : Cost}
    (h₁ : IsMinCycleCost D n L₁) (h₂ : IsMinCycleCost D n L₂) : L₁ = L₂ := by
  obtain ⟨⟨p₁, hp₁, he₁⟩, hm₁⟩ := h₁
  obtain ⟨⟨p₂, hp₂, he₂⟩, hm₂⟩ := h₂
  exact le_antisymm (he₂ ▸ hm₁ p₂ hp₂) (he₁ ▸ hm₂ p₁ hp₁)

theorem isMinCycleCost_two (D : Nat → Nat → Cost) :
    IsMinCycleCost D 2 (D 0 1 + D 1 0) := by
  constructor
  · exact ⟨[0, 1], by decide, cycleCost_pair D 0 1⟩
  · intro q hq
    rcases perm_range_two hq with rfl | rfl
    · rw [cycleCost_pair]
    · rw [cycleCost_pair, add_comm]

end MinCycleLemmas

section Examples

/-- Concrete 3×3 symmetric finite matrix used to exercise the solvers. -/
def exD3 : Nat → Nat → Cost :=
  fun i j =>
    ((([[0, 10, 15], [10, 0, 20], [15, 20, 0]].getD i []).getD j 0 : ℚ) : Cost)

end Examples

/-- C1: for every n×n distance matrix D (1 ≤ n ≤ 12) that is symmetric, with
zero diagonal and all entries finite and non-negative, `solve_tsp_bruteforce`
and `solve_tsp_heldkarp` both succeed with equal tour lengths, and that length
is the minimum closed-cycle cost over all permutations of the n indices. -/
theorem claim_C1 (D : Nat → Nat → Cost) (ids : List Nat)
    (h1 : 1 ≤ ids.length) (h12 : ids.length ≤ 12)
    (hsym : ∀ i < ids.length, ∀ j < ids.length, D i j = D j i)
    (hdiag : ∀ i < ids.length, D i i = 0)
    (hnonneg : ∀ i < ids.length, ∀ j < ids.length, 0 ≤ D i j)
    (hfin : ∀ i < ids.length, ∀ j < ids.length, D i j ≠ ⊤) :
    ∃ tb Lb cb th Lh ch,
      solve_tsp_bruteforce D ids = .ok (tb, Lb, cb) ∧
      solve_tsp_heldkarp D ids = .ok (th, Lh, ch) ∧
      Lb = Lh ∧ IsMinCycleCost D ids.length Lb := by
  by_cases hn1 : ids.length = 1
  · refine ⟨[ids.getD 0 0], 0, 1, [ids.getD 0 0], 0, 1,
      solve_tsp_bruteforce_one D ids hn1, solve_tsp_heldkarp_one D ids hn1,
      rfl, ?_, ?_⟩
    · rw [hn1]
      refine ⟨[0], by decide, ?_⟩
      rw [cycleCost_single, hdiag 0 (by omega)]
    · rw [hn1]
      intro q hq
      have hq0 : q.Perm [0] := hq
      rw [List.perm_singleton.1 hq0, cycleCost_single, hdiag 0 (by omega)]
  · have hn2 : 2 ≤ ids.length := by omega
    obtain ⟨tb, Lb, hbres, hbhead, hbperm, hbL, hbmin⟩ :=
      solve_tsp_bruteforce_spec D ids hn2 h12 hfin
    have hbMin : IsMinCycleCost D ids.length Lb :=
      isMin_of_anchored D (by omega) hbperm hbL hbmin
    by_cases hn2' : ids.length = 2
    · have hhMin : IsMinCycleCost D ids.length (D 0 1 + D 1 0) := by
        rw [hn2']
        exact isMinCycleCost_two D
      refine ⟨tb.map (fun i => ids.getD i 0), Lb,
        (permsOf ((List.range ids.length).drop 1)).length,
        [ids.getD 0 0, ids.getD 1 0], D 0 1 + D 1 0, 2,
        hbres, solve_tsp_heldkarp_two D ids hn2',
        isMinCycleCost_unique hbMin hhMin, hbMin⟩
    · obtain ⟨th, Lh, hhres, hhhead, hhperm, hhL, hhmin⟩ :=
        solve_tsp_heldkarp_spec D ids (by omega) (by omega) hfin
      have hhMin : IsMinCycleCost D ids.length Lh :=
        isMin_of_anchored D (by omega) hhperm hhL hhmin
      exact ⟨tb.map (fun i => ids.getD i 0), Lb,
        (permsOf ((List.range ids.length).drop 1)).length,
        th.map (fun i => ids.getD i 0), Lh, hk_subproblems D ids.length,
        hbres, hhres, isMinCycleCost_unique hbMin hhMin, hbMin⟩

theorem claim_C1_witness :
    ∃ tb Lb cb th Lh ch,
      solve_tsp_bruteforce exD3 [10, 20, 30] = .ok (tb, Lb, cb) ∧
      solve_tsp_heldkarp exD3 [10, 20, 30] = .ok (th, Lh, ch) ∧
      Lb = Lh ∧ IsMinCycleCost exD3 ([10, 20, 30] : List Nat).length Lb :=
  claim_C1 exD3 [10, 20, 30] (by decide) (by decide) (by decide) (by decide)
    (by decide) (by decide)

/-- C2: whenever any of the three solvers succeeds, the returned tour is a
permutation of `point_ids` (each identifier exactly once, none omitted) whose
first element is the first element of `point_ids`; in particular the Held-Karp
parent-chain reconstruction and the 2-opt segment reversals preserve this. -/
theorem claim_C2 (D : Nat → Nat → Cost) (ids : List Nat) (maxIter : Nat) :
    (∀ tour L c, solve_tsp_bruteforce D ids = .ok (tour, L, c) →
      tour.Perm ids ∧ tour.head? = ids.head?) ∧
    (∀ tour L c, solve_tsp_heldkarp D ids = .ok (tour, L, c) →
      tour.Perm ids ∧ tour.head? = ids.head?) ∧
    (∀ tour L st, solve_tsp_greedy_with_2opt D ids maxIter = .ok (tour, L, st) →
      tour.Perm ids ∧ tour.head? = ids.head?) :=
  ⟨fun _ _ _ h => solve_tsp_bruteforce_ok h,
   fun _ _ _ h => solve_tsp_heldkarp_ok h,
   fun _ _ _ h => solve_tsp_greedy_with_2opt_ok h⟩

theorem claim_C2_witness :
    (([10, 20, 30] : List Nat).Perm [10, 20, 30] ∧
      ([10, 20, 30] : List Nat).head? = ([10, 20, 30] : List Nat).head?) ∧
    (([10, 30, 20] : List Nat).Perm [10, 20, 30] ∧
      ([10, 30, 20] : List Nat).head? = ([10, 20, 30] : List Nat).head?) ∧
    (([10, 20, 30] : List Nat).Perm [10, 20, 30] ∧
      ([10, 20, 30] : List Nat).head? = ([10, 20, 30] : List Nat).head?) :=
  ⟨(claim_C2 exD3 [10, 20, 30] 1000).1 [10, 20, 30] 45 2
      (by with_unfolding_all rfl),
   (claim_C2 exD3 [10, 20, 30] 1000).2.1 [10, 30, 20] 45 5
      (by with_unfolding_all rfl),
   (claim_C2 exD3 [10, 20, 30] 1000).2.2 [10, 20, 30] 45
      { greedy_length := 45, improved_length := 45, improvement_percent := 0,
        distance_queries := 4, two_opt_swaps := 0 }
      (by with_unfolding_all rfl)⟩

section DisconnectedExamples

/-- 2×2 (and larger) matrix with zero diagonal and `+∞` off-diagonal. -/
def exDInf : Nat → Nat → Cost := fun i j => if i = j then 0 else ⊤

end DisconnectedExamples

/-- C3 (amended): a `+∞` entry in the n×n window makes the solvers fail with
the Disconnected error in the regimes where they actually reach their infinity
check: brute force for `2 ≤ n ≤ 12`, Held-Karp for `3 ≤ n ≤ 23`, and
greedy+2-opt for `3 ≤ n`.  The original claim also asserted this for every
`n ≥ 1` — in particular for `n = 2` — but the `n ≤ 2` early returns of
Held-Karp and the greedy solver precede the infinity check, so an `n = 2`
input with `D[0][1] = +∞` is answered with a tour of length `+∞` instead of
the Disconnected error (see the counterexample). -/
theorem claim_C3 (D : Nat → Nat → Cost) (ids : List Nat) (maxIter : Nat)
    (hinf : ∃ i < ids.length, ∃ j < ids.length, D i j = ⊤) :
    (2 ≤ ids.length → ids.length ≤ 12 →
      solve_tsp_bruteforce D ids =
        .error "Graph contains disconnected points (infinite distances)") ∧
    (3 ≤ ids.length → ids.length ≤ 23 →
      solve_tsp_heldkarp D ids =
        .error "Graph contains disconnected points (infinite distances)") ∧
    (3 ≤ ids.length →
      solve_tsp_greedy_with_2opt D ids maxIter =
        .error "Graph contains disconnected points (infinite distances)") := by
  have hInf : hasInf D ids.length = true := by
    rcases h : hasInf D ids.length with _ | _
    · obtain ⟨i, hi, j, hj, hij⟩ := hinf
      exact absurd hij ((hasInf_eq_false_iff D ids.length).1 h i hi j hj)
    · rfl
  exact ⟨fun h2 h12 => solve_tsp_bruteforce_inf D ids h2 h12 hInf,
    fun h3 h23 => solve_tsp_heldkarp_inf D ids h3 h23 hInf,
    fun h3 => solve_tsp_greedy_with_2opt_inf D ids maxIter h3 hInf⟩

theorem claim_C3_witness :
    solve_tsp_bruteforce exDInf [1, 2, 3] =
      .error "Graph contains disconnected points (infinite distances)" ∧
    solve_tsp_heldkarp exDInf [1, 2, 3] =
      .error "Graph contains disconnected points (infinite distances)" ∧
    solve_tsp_greedy_with_2opt exDInf [1, 2, 3] 1000 =
      .error "Graph contains disconnected points (infinite distances)" :=
  ⟨(claim_C3 exDInf [1, 2, 3] 1000 ⟨0, by decide, 1, by decide, by decide⟩).1
      (by decide) (by decide),
   (claim_C3 exDInf [1, 2, 3] 1000 ⟨0, by decide, 1, by decide, by decide⟩).2.1
      (by decide) (by decide),
   (claim_C3 exDInf [1, 2, 3] 1000 ⟨0, by decide, 1, by decide, by decide⟩).2.2
      (by decide)⟩

/-- C3 counterexample to the original claim: for `n = 2` with
`D[0][1] = +∞`, Held-Karp and greedy+2-opt do not fail — their `n = 2` early
returns bypass the infinity check and report a tour of length `+∞`. -/
theorem claim_C3_counterexample :
    exDInf 0 1 = ⊤ ∧
    solve_tsp_heldkarp exDInf [10, 20] = .ok ([10, 20], ⊤, 2) ∧
    solve_tsp_greedy_with_2opt exDInf [10, 20] 1000 =
      .ok ([10, 20], ⊤,
        { greedy_length := ⊤, improved_length := ⊤, improvement_percent := 0,
          distance_queries := 2, two_opt_swaps := 0 }) :=
  ⟨by decide, by with_unfolding_all rfl, by with_unfolding_all rfl⟩

section TourAccounting

/-- Spec-side accounting of a returned identifier tour: the sum of `D` over
consecutive pairs of the tour plus the closing entry `D[last][first]`, with
identifiers resolved back to matrix indices by position in `point_ids`. -/
def tourCycleCost (D : Nat → Nat → Cost) (ids tour : List Nat) : Cost :=
  cycleCost D (tour.map (fun pid => ids.indexOf pid))

theorem indexOf_getD_of_nodup {ids : List Nat} (hnd : ids.Nodup) {i : Nat}
    (hi : i < ids.length) : ids.indexOf (ids.getD i 0) = i := by
  rw [List.getD_eq_getElem?_getD, List.getElem?_eq_getElem hi]
  simp only [Option.getD_some]
  exact List.indexOf_getElem hnd i hi

theorem map_indexOf_map_getD {ids t : List Nat} (hnd : ids.Nodup)
    (hbd : ∀ x ∈ t, x < ids.length) :
    (t.map (fun i => ids.getD i 0)).map (fun pid => ids.indexOf pid) = t := by
  rw [List.map_map]
  have hc : ∀ x ∈ t,
      ((fun pid => ids.indexOf pid) ∘ fun i => ids.getD i 0) x = id x :=
    fun x hx => indexOf_getD_of_nodup hnd (hbd x hx)
  rw [List.map_congr_left hc, List.map_id]

theorem tourCycleCost_map_getD {D : Nat → Nat → Cost} {ids t : List Nat}
    (hnd : ids.Nodup) (hbd : ∀ x ∈ t, x < ids.length) :
    tourCycleCost D ids (t.map (fun i => ids.getD i 0)) = cycleCost D t := by
  unfold tourCycleCost
  rw [map_indexOf_map_getD hnd hbd]

end TourAccounting

section AccountExamples

/-- 1×1 matrix with a non-zero diagonal entry. -/
def exD1 : Nat → Nat → Cost :=
  fun i j => if i = 0 ∧ j = 0 then ((5 : ℚ) : Cost) else 0

end AccountExamples

/-- C4 (amended): on duplicate-free `point_ids` with `n ≥ 2`, every
successful solve reports a `tour_length` equal to the sum of `D` over
consecutive pairs of the returned tour plus the closing entry
`D[last][first]` (identifiers resolved back to indices by position), for all
three solvers.  The original claim asserted this for every successful solve;
for `n = 1` the early returns report `0.0` without reading `D`, so a non-zero
diagonal entry breaks the identity (see the counterexample). -/
theorem claim_C4 (D : Nat → Nat → Cost) (ids : List Nat) (maxIter : Nat)
    (hnd : ids.Nodup) (h2 : 2 ≤ ids.length) :
    (∀ tour L c, solve_tsp_bruteforce D ids = .ok (tour, L, c) →
      L = tourCycleCost D ids tour) ∧
    (∀ tour L c, solve_tsp_heldkarp D ids = .ok (tour, L, c) →
      L = tourCycleCost D ids tour) ∧
    (∀ tour L st, solve_tsp_greedy_with_2opt D ids maxIter = .ok (tour, L, st) →
      L = tourCycleCost D ids tour) := by
  refine ⟨?_, ?_, ?_⟩
  · intro tour L c h
    by_cases h12 : 12 < ids.length
    · rw [solve_tsp_bruteforce_size D ids h12] at h
      cases h
    rcases hInf : hasInf D ids.length with _ | _
    · obtain ⟨t, L', hres, hhead, hperm, hL, hmin⟩ :=
        solve_tsp_bruteforce_spec D ids h2 (by omega)
          ((hasInf_eq_false_iff D ids.length).1 hInf)
      rw [hres] at h
      simp only [Except.ok.injEq, Prod.mk.injEq] at h
      obtain ⟨ht, hLL, -⟩ := h
      subst ht
      rw [← hLL, hL, tourCycleCost_map_getD hnd]
      intro x hx
      exact List.mem_range.1 (hperm.mem_iff.1 hx)
    · rw [solve_tsp_bruteforce_inf D ids h2 (by omega) hInf] at h
      cases h
  · intro tour L c h
    by_cases hn2 : ids.length = 2
    · rw [solve_tsp_heldkarp_two D ids hn2] at h
      simp only [Except.ok.injEq, Prod.mk.injEq] at h
      obtain ⟨ht, hLL, -⟩ := h
      subst ht
      have hb : ∀ x ∈ [0, 1], x < ids.length := by
        intro x hx
        simp only [List.mem_cons, List.not_mem_nil, or_false] at hx
        rcases hx with rfl | rfl <;> omega
      have := tourCycleCost_map_getD (D := D) (t := [0, 1]) hnd hb
      simp only [List.map_cons, List.map_nil] at this
      rw [← hLL, this, cycleCost_pair]
    by_cases h23 : 23 < ids.length
    · rw [solve_tsp_heldkarp_size D ids h23] at h
      cases h
    rcases hInf : hasInf D ids.length with _ | _
    · obtain ⟨t, L', hres, hhead, hperm, hL, hmin⟩ :=
        solve_tsp_heldkarp_spec D ids (by omega) (by omega)
          ((hasInf_eq_false_iff D ids.length).1 hInf)
      rw [hres] at h
      simp only [Except.ok.injEq, Prod.mk.injEq] at h
      obtain ⟨ht, hLL, -⟩ := h
      subst ht
      rw [← hLL, hL, tourCycleCost_map_getD hnd]
      intro x hx
      exact List.mem_range.1 (hperm.mem_iff.1 hx)
    · rw [solve_tsp_heldkarp_inf D ids (by omega) (by omega) hInf] at h
      cases h
  · intro tour L st h
    unfold solve_tsp_greedy_with_2opt at h
    rcases hg : solve_tsp_greedy_nearest_neighbor D ids with e | ⟨gt, gl, q⟩
    · rw [hg] at h
      cases h
    · rw [hg] at h
      dsimp only at h
      by_cases hz : gl = 0
      · rw [if_pos hz] at h
        cases h
      · rw [if_neg hz] at h
        simp only [Except.ok.injEq, Prod.mk.injEq] at h
        obtain ⟨ht, hLL, -⟩ := h
        obtain ⟨hgp, hgh⟩ := solve_tsp_greedy_nn_ok hg
        have hres1 : (improve_tour_with_2opt gt D ids maxIter).1 =
            (twoOptLoop D (gt.map (fun pid => ids.indexOf pid)).length maxIter
              (gt.map (fun pid => ids.indexOf pid)) 0).1.map
              (fun i => ids.getD i 0) := rfl
        have hres2 : (improve_tour_with_2opt gt D ids maxIter).2.1 =
            calcTourLengthMod D
              (twoOptLoop D (gt.map (fun pid => ids.indexOf pid)).length maxIter
                (gt.map (fun pid => ids.indexOf pid)) 0).1 := rfl
        obtain ⟨hlp, -⟩ :=
          twoOptLoop_perm_head D maxIter (gt.map (fun pid => ids.indexOf pid)) 0
            (gt.map (fun pid => ids.indexOf pid)).length rfl
        have hbd : ∀ x ∈ (twoOptLoop D
            (gt.map (fun pid => ids.indexOf pid)).length maxIter
            (gt.map (fun pid => ids.indexOf pid)) 0).1, x < ids.length := by
          intro x hx
          obtain ⟨pid, hpid, rfl⟩ := List.mem_map.1 (hlp.mem_iff.1 hx)
          exact List.indexOf_lt_length.2 (hgp.mem_iff.1 hpid)
        rw [← hLL, ← ht, hres1, hres2, calcTourLengthMod_eq_cycleCost,
          tourCycleCost_map_getD hnd hbd]

theorem claim_C4_witness :
    ((45 : Cost) = tourCycleCost exD3 [10, 20, 30] [10, 20, 30]) ∧
    ((45 : Cost) = tourCycleCost exD3 [10, 20, 30] [10, 30, 20]) ∧
    ((45 : Cost) = tourCycleCost exD3 [10, 20, 30] [10, 20, 30]) :=
  ⟨(claim_C4 exD3 [10, 20, 30] 1000 (by decide) (by decide)).1 [10, 20, 30] 45 2
      (by with_unfolding_all rfl),
   (claim_C4 exD3 [10, 20, 30] 1000 (by decide) (by decide)).2.1 [10, 30, 20]
      45 5 (by with_unfolding_all rfl),
   (claim_C4 exD3 [10, 20, 30] 1000 (by decide) (by decide)).2.2 [10, 20, 30]
      45
      { greedy_length := 45, improved_length := 45, improvement_percent := 0,
        distance_queries := 4, two_opt_swaps := 0 }
      (by with_unfolding_all rfl)⟩

/-- C4 counterexample to the original claim: for `n = 1`, the brute-force
early return reports length `0.0` without reading the matrix, so with a
non-zero diagonal entry the reported length differs from the closed-cycle sum
over the returned tour. -/
theorem claim_C4_counterexample :
    solve_tsp_bruteforce exD1 [7] = .ok ([7], 0, 1) ∧
    tourCycleCost exD1 [7] [7] = ((5 : ℚ) : Cost) ∧
    (0 : Cost) ≠ ((5 : ℚ) : Cost) :=
  ⟨by with_unfolding_all rfl, by with_unfolding_all rfl, by decide⟩

/-- C5: on a finite, symmetric, non-negative distance matrix over
duplicate-free identifiers, whenever `solve_tsp_greedy_with_2opt` succeeds the
returned length is the stats' `improved_length` and that improved length is at
most the `greedy_length` of the nearest-neighbor phase (no accepted 2-opt swap
increases the closed-tour length). -/
theorem claim_C5 (D : Nat → Nat → Cost) (ids : List Nat) (maxIter : Nat)
    (hnd : ids.Nodup) (hsym : ∀ i j, D i j = D j i)
    (hfin : ∀ i < ids.length, ∀ j < ids.length, D i j ≠ ⊤)
    (hnonneg : ∀ i < ids.length, ∀ j < ids.length, 0 ≤ D i j) :
    ∀ tour L st, solve_tsp_greedy_with_2opt D ids maxIter = .ok (tour, L, st) →
      L = st.improved_length ∧ st.improved_length ≤ st.greedy_length := by
  intro tour L st h
  unfold solve_tsp_greedy_with_2opt at h
  rcases hg : solve_tsp_greedy_nearest_neighbor D ids with e | ⟨gt, gl, q⟩
  · rw [hg] at h
    cases h
  rw [hg] at h
  dsimp only at h
  by_cases hz : gl = 0
  · rw [if_pos hz] at h
    cases h
  rw [if_neg hz] at h
  simp only [Except.ok.injEq, Prod.mk.injEq] at h
  obtain ⟨ht, hL, hst⟩ := h
  subst hst
  have hkey : cycleCost D (gt.map (fun pid => ids.indexOf pid)) = gl ∧
      ∀ x ∈ gt.map (fun pid => ids.indexOf pid), x < ids.length := by
    by_cases h0 : ids.length = 0
    · rw [solve_tsp_greedy_nn_zero D ids h0] at hg
      cases hg
    by_cases h1 : ids.length = 1
    · rw [solve_tsp_greedy_nn_one D ids h1] at hg
      simp only [Except.ok.injEq, Prod.mk.injEq] at hg
      exact absurd hg.2.1.symm hz
    by_cases hn2 : ids.length = 2
    · rw [solve_tsp_greedy_nn_two D ids hn2] at hg
      simp only [Except.ok.injEq, Prod.mk.injEq] at hg
      obtain ⟨hgt, hgl, -⟩ := hg
      subst hgt
      have hi0 : ids.indexOf (ids.getD 0 0) = 0 :=
        indexOf_getD_of_nodup hnd (by omega)
      have hi1 : ids.indexOf (ids.getD 1 0) = 1 :=
        indexOf_getD_of_nodup hnd (by omega)
      constructor
      · simp only [List.map_cons, List.map_nil, hi0, hi1]
        rw [cycleCost_pair]
        exact hgl
      · intro x hx
        simp only [List.map_cons, List.map_nil, hi0, hi1, List.mem_cons,
          List.not_mem_nil, or_false] at hx
        rcases hx with rfl | rfl <;> omega
    · rcases hInf : hasInf D ids.length with _ | _
      · obtain ⟨t, hres, hhead, hperm⟩ :=
          solve_tsp_greedy_nn_spec D ids (by omega)
            ((hasInf_eq_false_iff D ids.length).1 hInf)
        rw [hres] at hg
        simp only [Except.ok.injEq, Prod.mk.injEq] at hg
        obtain ⟨hgt, hgl, -⟩ := hg
        subst hgt
        have hbd : ∀ x ∈ t, x < ids.length := by
          intro x hx
          exact List.mem_range.1 (hperm.mem_iff.1 hx)
        rw [map_indexOf_map_getD hnd hbd]
        exact ⟨hgl, hbd⟩
      · rw [solve_tsp_greedy_nn_inf D ids (by omega) hInf] at hg
        cases hg
  obtain ⟨hglc, hbd⟩ := hkey
  obtain ⟨-, -, hcost⟩ :=
    twoOptLoop_spec hsym hfin maxIter (gt.map (fun pid => ids.indexOf pid)) 0
      (gt.map (fun pid => ids.indexOf pid)).length rfl hbd
  have hres2 : (improve_tour_with_2opt gt D ids maxIter).2.1 =
      calcTourLengthMod D
        (twoOptLoop D (gt.map (fun pid => ids.indexOf pid)).length maxIter
          (gt.map (fun pid => ids.indexOf pid)) 0).1 := rfl
  constructor
  · exact hL.symm
  · show (improve_tour_with_2opt gt D ids maxIter).2.1 ≤ gl
    rw [hres2, calcTourLengthMod_eq_cycleCost, ← hglc]
    exact hcost

theorem claim_C5_witness :
    ((45 : Cost) =
      GreedyStats.improved_length
        { greedy_length := 45, improved_length := 45, improvement_percent := 0,
          distance_queries := 4, two_opt_swaps := 0 }) ∧
    (GreedyStats.improved_length
        { greedy_length := 45, improved_length := 45, improvement_percent := 0,
          distance_queries := 4, two_opt_swaps := 0 } ≤
      GreedyStats.greedy_length
        { greedy_length := 45, improved_length := 45, improvement_percent := 0,
          distance_queries := 4, two_opt_swaps := 0 }) :=
  claim_C5 exD3 [10, 20, 30] 1000 (by decide)
    (by intro i j; rcases i with _ | _ | _ | i <;> rcases j with _ | _ | _ | j <;> rfl)
    (by decide) (by decide) [10, 20, 30] 45
    { greedy_length := 45, improved_length := 45, improvement_percent := 0,
      distance_queries := 4, two_opt_swaps := 0 }
    (by with_unfolding_all rfl)

/-- C10: on a finite matrix the `distance_queries` telemetry of the greedy
nearest-neighbor solver equals `n·(n−1)/2 + 1` for every `n ≥ 2` (one lookup
per unvisited candidate at each of the `n−1` extension steps plus one closing
lookup), and equals `0` for `n = 1`. -/
theorem claim_C10 (D : Nat → Nat → Cost) (ids : List Nat)
    (hfin : ∀ i < ids.length, ∀ j < ids.length, D i j ≠ ⊤) :
    (2 ≤ ids.length →
      ∃ tour L, solve_tsp_greedy_nearest_neighbor D ids =
        .ok (tour, L, ids.length * (ids.length - 1) / 2 + 1)) ∧
    (ids.length = 1 →
      ∃ tour L, solve_tsp_greedy_nearest_neighbor D ids = .ok (tour, L, 0)) := by
  constructor
  · intro h2
    by_cases hn2 : ids.length = 2
    · refine ⟨[ids.getD 0 0, ids.getD 1 0], D 0 1 + D 1 0, ?_⟩
      have hq : ids.length * (ids.length - 1) / 2 + 1 = 2 := by
        rw [hn2]
      rw [hq]
      exact solve_tsp_greedy_nn_two D ids hn2
    · obtain ⟨t, hres, hhead, hperm⟩ :=
        solve_tsp_greedy_nn_spec D ids (by omega) hfin
      refine ⟨t.map (fun i => ids.getD i 0), cycleCost D t, ?_⟩
      have hq : triangular (ids.length - 1) + 1 =
          ids.length * (ids.length - 1) / 2 + 1 := by
        have hs : ids.length - 1 + 1 = ids.length := by omega
        rw [triangular_eq, hs, Nat.mul_comm]
      rw [← hq]
      exact hres
  · intro h1
    exact ⟨[ids.getD 0 0], 0, solve_tsp_greedy_nn_one D ids h1⟩

theorem claim_C10_witness :
    (∃ tour L, solve_tsp_greedy_nearest_neighbor exD3 [10, 20, 30] =
      .ok (tour, L,
        ([10, 20, 30] : List Nat).length *
          (([10, 20, 30] : List Nat).length - 1) / 2 + 1)) ∧
    (∃ tour L, solve_tsp_greedy_nearest_neighbor exD3 [7] = .ok (tour, L, 0)) :=
  ⟨(claim_C10 exD3 [10, 20, 30] (by decide)).1 (by decide),
   (claim_C10 exD3 [7] (by decide)).2 (by decide)⟩

/-!
Graph side of the service (`distance_matrix.py` and the path materializer).
A `networkx.MultiDiGraph` is a list of nodes carrying coordinates and a list
of directed edges carrying a `length` attribute; parallel edges are allowed.
The library calls (`nx.shortest_path_length`, `nx.shortest_path` with
Dijkstra on the `length` weight) are modelled as the minimum-cost walk over
the graph, with the weight of a step `u → v` the minimum `length` over the
parallel edges from `u` to `v`; the claims below use only reachability,
non-negativity and endpoint facts about these calls, all of which hold for
any correct shortest-path routine.
-/

structure GNode where
  id : Nat
  x : ℚ
  y : ℚ
deriving DecidableEq

structure GEdge where
  src : Nat
  tgt : Nat
  length : ℚ
deriving DecidableEq

structure Graph where
  nodes : List GNode
  edges : List GEdge
deriving DecidableEq

/-- `snapped_points` entries: a dict with `id` and `snapped_coords`. -/
structure SnappedPoint where
  id : Nat
  coords : ℚ × ℚ
deriving DecidableEq

/-- Squared Euclidean degree distance.  `find_closest_node` compares
`point.distance(node_point)` (a square root) only through strict `<` against
the running minimum, and `√` is strictly monotone on the non-negative reals,
so running the same selection loop on squared distances picks the same node
with the same tie behaviour. -/
def sqDist (a b : ℚ × ℚ) : ℚ :=
  (a.1 - b.1) * (a.1 - b.1) + (a.2 - b.2) * (a.2 - b.2)

/-- `distance_matrix.find_closest_node`: the `min_dist = inf / if dist <
min_dist` scan over `G.nodes(data=True)`; `none` models the
`ValueError("No nodes found in graph")` raised on an empty node list. -/
def find_closest_node (G : Graph) (c : ℚ × ℚ) : Option Nat :=
  (foldMin (G.nodes.map (fun nd => (((sqDist c (nd.x, nd.y) : ℚ) : Cost), nd.id)))).2

/-- The resolved node of a coordinate pair (only read where
`find_closest_node` is known to return `some`). -/
def resNode (G : Graph) (c : ℚ × ℚ) : Nat :=
  (find_closest_node G c).getD 0

/-- Directed adjacency: some edge goes from `a` to `b`. -/
def adjB (G : Graph) (a b : Nat) : Bool :=
  G.edges.any (fun e => decide (e.src = a) && decide (e.tgt = b))

/-- Weight of one step `a → b`: the minimum `length` over the parallel edges
from `a` to `b` (Dijkstra on a `MultiDiGraph` uses exactly this), `⊤` when
there is no such edge. -/
def stepWeight (G : Graph) (a b : Nat) : Cost :=
  ((G.edges.filter (fun e => decide (e.src = a) && decide (e.tgt = b))).map
    (fun e => ((e.length : ℚ) : Cost))).foldr min ⊤

/-- Boolean chain test: every consecutive pair of the list satisfies `p`. -/
def chainB (p : Nat → Nat → Bool) : List Nat → Bool
  | [] => true
  | [_] => true
  | a :: b :: t => p a b && chainB p (b :: t)

/-- `w` is a directed walk from `u` to `v` through existing edges. -/
def isWalk (G : Graph) (u v : Nat) (w : List Nat) : Bool :=
  decide (w.head? = some u) && decide (w.getLast? = some v) && chainB (adjB G) w

/-- There is a directed path from `u` to `v` (`nx.NetworkXNoPath` is raised
exactly when there is none). -/
def Reachable (G : Graph) (u v : Nat) : Prop :=
  ∃ w, isWalk G u v w = true

/-- All duplicate-free walks from `u` to `v` (a shortest path is always one
of these). -/
def walkCands (G : Graph) (u v : Nat) : List (List Nat) :=
  (((G.nodes.map GNode.id).sublists.flatMap permsOf).filter
    (fun w => isWalk G u v w))

/-- Minimum walk cost from `u` to `v`: the value of
`nx.shortest_path_length(G, u, v, weight='length')` on non-negatively
weighted graphs, `⊤` when no path exists. -/
def splNodes (G : Graph) (u v : Nat) : Cost :=
  (foldMin ((walkCands G u v).map (fun w => (pathCost (stepWeight G) w, w)))).1

/-- The node sequence `nx.shortest_path` returns (the selected minimum-cost
duplicate-free walk), `none` when no path exists. -/
def spNodes (G : Graph) (u v : Nat) : Option (List Nat) :=
  (foldMin ((walkCands G u v).map (fun w => (pathCost (stepWeight G) w, w)))).2

/-- Coordinates stored on a node id (`G.nodes[node]['x']`, `['y']`). -/
def nodeCoords (G : Graph) (nid : Nat) : ℚ × ℚ :=
  ((G.nodes.find? (fun nd => decide (nd.id = nid))).map
    (fun nd => (nd.x, nd.y))).getD (0, 0)

/-- `distance_matrix.compute_shortest_path_length`. -/
def compute_shortest_path_length (G : Graph) (s t : ℚ × ℚ) :
    Except String Cost :=
  match find_closest_node G s, find_closest_node G t with
  | some sn, some tn => if sn = tn then .ok 0 else .ok (splNodes G sn tn)
  | _, _ => .error "No nodes found in graph"

/-- `distance_matrix.get_shortest_path_coords`: single-point sequence for a
shared resolved node, the node-coordinate sequence of the shortest path
otherwise, and the `[source, target]` straight-line fallback when no path
exists. -/
def get_shortest_path_coords (G : Graph) (s t : ℚ × ℚ) :
    Except String (List (ℚ × ℚ)) :=
  match find_closest_node G s, find_closest_node G t with
  | some sn, some tn =>
      if sn = tn then .ok [s]
      else
        match spNodes G sn tn with
        | some w => .ok (w.map (fun nid => nodeCoords G nid))
        | none => .ok [s, t]
  | _, _ => .error "No nodes found in graph"

section WalkLemmas

theorem find_closest_node_isSome {G : Graph} (hne : G.nodes ≠ []) (c : ℚ × ℚ) :
    ∃ u, find_closest_node G c = some u := by
  obtain ⟨nd, hnd⟩ := List.exists_mem_of_ne_nil G.nodes hne
  exact foldMin_isSome_of_lt
    (List.mem_map.2 ⟨nd, hnd, rfl⟩)
    (WithTop.coe_lt_top _)

theorem foldr_min_le_of_mem {l : List Cost} {x : Cost} (hx : x ∈ l) :
    l.foldr min ⊤ ≤ x := by
  induction l with
  | nil => cases hx
  | cons b t ih =>
    rcases List.mem_cons.1 hx with rfl | hx'
    · exact min_le_left _ _
    · exact le_trans (min_le_right _ _) (ih hx')

theorem stepWeight_lt_top_of_adj {G : Graph} {a b : Nat}
    (h : adjB G a b = true) : stepWeight G a b < ⊤ := by
  obtain ⟨e, he, hcond⟩ := List.any_eq_true.1 h
  simp only [Bool.and_eq_true, decide_eq_true_eq] at hcond
  have hmem : ((e.length : ℚ) : Cost) ∈
      ((G.edges.filter (fun e => decide (e.src = a) && decide (e.tgt = b))).map
        (fun e => ((e.length : ℚ) : Cost))) := by
    refine List.mem_map.2 ⟨e, List.mem_filter.2 ⟨he, ?_⟩, rfl⟩
    simp only [Bool.and_eq_true, decide_eq_true_eq]
    exact hcond
  exact lt_of_le_of_lt (foldr_min_le_of_mem hmem) (WithTop.coe_lt_top _)

theorem pathCost_lt_top_of_chain {G : Graph} :
    ∀ {w : List Nat}, List.Chain' (fun a b => adjB G a b = true) w →
      pathCost (stepWeight G) w < ⊤ := by
  intro w
  induction w with
  | nil =>
    intro _
    rw [pathCost_nil]
    exact WithTop.coe_lt_top 0
  | cons a t ih =>
    intro hc
    cases t with
    | nil =>
      rw [pathCost_single]
      exact WithTop.coe_lt_top 0
    | cons b t' =>
      rw [List.chain'_cons] at hc
      rw [pathCost_cons_cons]
      exact WithTop.add_lt_top.2
        ⟨stepWeight_lt_top_of_adj hc.1, ih hc.2⟩

theorem exists_dup_split {l : List Nat} (h : ¬ l.Nodup) :
    ∃ a l₁ l₂ l₃, l = l₁ ++ a :: (l₂ ++ a :: l₃) := by
  induction l with
  | nil => exact absurd List.nodup_nil h
  | cons b t ih =>
    by_cases hb : b ∈ t
    · obtain ⟨s, t', rfl⟩ := List.append_of_mem hb
      exact ⟨b, [], s, t', rfl⟩
    · have ht : ¬ t.Nodup := by
        intro hnd
        exact h (List.nodup_cons.2 ⟨hb, hnd⟩)
      obtain ⟨a, l₁, l₂, l₃, rfl⟩ := ih ht
      exact ⟨a, b :: l₁, l₂, l₃, rfl⟩

theorem chainB_eq_true_iff {p : Nat → Nat → Bool} :
    ∀ {l : List Nat}, chainB p l = true ↔
      List.Chain' (fun a b => p a b = true) l := by
  intro l
  match l with
  | [] => simp [chainB]
  | [a] => simp [chainB]
  | a :: b :: t =>
    have ih := chainB_eq_true_iff (p := p) (l := b :: t)
    simp [chainB, List.chain'_cons, Bool.and_eq_true, ih]

theorem isWalk_iff {G : Graph} {u v : Nat} {w : List Nat} :
    isWalk G u v w = true ↔
      w.head? = some u ∧ w.getLast? = some v ∧
      List.Chain' (fun a b => adjB G a b = true) w := by
  simp [isWalk, and_assoc, chainB_eq_true_iff]

theorem isWalk_splice {G : Graph} {u v a : Nat} {l₁ l₂ l₃ : List Nat}
    (h : isWalk G u v (l₁ ++ a :: (l₂ ++ a :: l₃)) = true) :
    isWalk G u v (l₁ ++ a :: l₃) = true := by
  obtain ⟨hh, hl, hc⟩ := isWalk_iff.1 h
  refine isWalk_iff.2 ⟨?_, ?_, ?_⟩
  · cases l₁ with
    | nil => exact hh
    | cons x xs =>
      rw [List.head?_append_of_ne_nil _ (by simp)] at hh ⊢
      exact hh
  · rw [List.getLast?_append_of_ne_nil _
      (by simp : (a :: l₃ : List Nat) ≠ [])]
    rw [List.getLast?_append_of_ne_nil _
      (by simp : (a :: (l₂ ++ a :: l₃) : List Nat) ≠ []),
      show (a :: (l₂ ++ a :: l₃)) = (a :: l₂) ++ (a :: l₃) from by simp,
      List.getLast?_append_of_ne_nil _
      (by simp : (a :: l₃ : List Nat) ≠ [])] at hl
    exact hl
  · rw [List.chain'_append] at hc
    obtain ⟨hc₁, hc₂, hlink⟩ := hc
    rw [show (a :: (l₂ ++ a :: l₃)) = (a :: l₂) ++ (a :: l₃) from by simp,
      List.chain'_append] at hc₂
    obtain ⟨-, hc₃, -⟩ := hc₂
    rw [List.chain'_append]
    refine ⟨hc₁, hc₃, ?_⟩
    intro x hx y hy
    exact hlink x hx y hy

theorem exists_nodup_walk {G : Graph} {u v : Nat} :
    ∀ (n : Nat) (w : List Nat), w.length ≤ n → isWalk G u v w = true →
      ∃ w', isWalk G u v w' = true ∧ w'.Nodup ∧ ∀ x ∈ w', x ∈ w := by
  intro n
  induction n with
  | zero =>
    intro w hlen hw
    have : w = [] := List.length_eq_zero.1 (by omega)
    subst this
    obtain ⟨hh, -, -⟩ := isWalk_iff.1 hw
    cases hh
  | succ n ih =>
    intro w hlen hw
    by_cases hnd : w.Nodup
    · exact ⟨w, hw, hnd, fun x hx => hx⟩
    · obtain ⟨a, l₁, l₂, l₃, rfl⟩ := exists_dup_split hnd
      have hw' := isWalk_splice hw
      have hlen' : (l₁ ++ a :: l₃).length ≤ n := by
        simp only [List.length_append, List.length_cons] at hlen ⊢
        omega
      obtain ⟨w', hw'', hnd', hsub⟩ := ih (l₁ ++ a :: l₃) hlen' hw'
      refine ⟨w', hw'', hnd', ?_⟩
      intro x hx
      have := hsub x hx
      simp only [List.mem_append, List.mem_cons] at this ⊢
      tauto

theorem walk_nodes_mem {G : Graph}
    (hcl : ∀ e ∈ G.edges, e.src ∈ G.nodes.map GNode.id ∧
      e.tgt ∈ G.nodes.map GNode.id) :
    ∀ (w : List Nat) (u : Nat), w.head? = some u →
      u ∈ G.nodes.map GNode.id →
      List.Chain' (fun a b => adjB G a b = true) w →
      ∀ x ∈ w, x ∈ G.nodes.map GNode.id := by
  intro w
  induction w with
  | nil =>
    intro u hh
    cases hh
  | cons a t ih =>
    intro u hh hu hc x hx
    have ha : a = u := by
      injection hh
    subst ha
    rcases List.mem_cons.1 hx with rfl | hx'
    · exact hu
    · cases t with
      | nil => cases hx'
      | cons b t' =>
        rw [List.chain'_cons] at hc
        have hb : b ∈ G.nodes.map GNode.id := by
          obtain ⟨e, he, hcond⟩ := List.any_eq_true.1 hc.1
          simp only [Bool.and_eq_true, decide_eq_true_eq] at hcond
          have := (hcl e he).2
          rw [hcond.2] at this
          exact this
        exact ih b rfl hb hc.2 x hx'

end WalkLemmas

section SplLemmas

theorem walkCands_sound {G : Graph} {u v : Nat} {w : List Nat}
    (h : w ∈ walkCands G u v) : isWalk G u v w = true :=
  (List.mem_filter.1 h).2

theorem walkCands_complete {G : Graph} {u v : Nat} {w : List Nat}
    (hnd : w.Nodup) (hsub : ∀ x ∈ w, x ∈ G.nodes.map GNode.id)
    (hw : isWalk G u v w = true) : w ∈ walkCands G u v := by
  refine List.mem_filter.2 ⟨?_, hw⟩
  obtain ⟨s, hsp, hss⟩ := List.Nodup.subperm hnd (fun x hx => hsub x hx)
  exact List.mem_flatMap.2
    ⟨s, List.mem_sublists.2 hss, mem_permsOf.2 hsp.symm⟩

theorem reachable_refl {G : Graph} {u : Nat} : Reachable G u u :=
  ⟨[u], by simp [isWalk, chainB]⟩

theorem splNodes_lt_top_of_reachable {G : Graph} {u v : Nat}
    (hcl : ∀ e ∈ G.edges, e.src ∈ G.nodes.map GNode.id ∧
      e.tgt ∈ G.nodes.map GNode.id)
    (hu : u ∈ G.nodes.map GNode.id) (h : Reachable G u v) :
    splNodes G u v < ⊤ := by
  obtain ⟨w, hw⟩ := h
  obtain ⟨w', hw', hnd, hsubw⟩ := exists_nodup_walk w.length w le_rfl hw
  obtain ⟨hh, -, hc⟩ := isWalk_iff.1 hw
  have hsub : ∀ x ∈ w', x ∈ G.nodes.map GNode.id := fun x hx =>
    walk_nodes_mem hcl w u hh hu hc x (hsubw x hx)
  have hmem : (pathCost (stepWeight G) w', w') ∈
      ((walkCands G u v).map (fun w => (pathCost (stepWeight G) w, w))) :=
    List.mem_map.2 ⟨w', walkCands_complete hnd hsub hw', rfl⟩
  exact lt_of_le_of_lt (foldMin_le hmem)
    (pathCost_lt_top_of_chain (isWalk_iff.1 hw').2.2)

theorem splNodes_eq_top_of_not_reachable {G : Graph} {u v : Nat}
    (h : ¬ Reachable G u v) : splNodes G u v = ⊤ := by
  have hc : walkCands G u v = [] :=
    List.eq_nil_iff_forall_not_mem.2 (fun w hw => h ⟨w, walkCands_sound hw⟩)
  unfold splNodes
  rw [hc]
  rfl

theorem splNodes_eq_top_iff {G : Graph} {u v : Nat}
    (hcl : ∀ e ∈ G.edges, e.src ∈ G.nodes.map GNode.id ∧
      e.tgt ∈ G.nodes.map GNode.id)
    (hu : u ∈ G.nodes.map GNode.id) :
    splNodes G u v = ⊤ ↔ ¬ Reachable G u v := by
  constructor
  · intro htop hr
    exact absurd htop (ne_of_lt (splNodes_lt_top_of_reachable hcl hu hr))
  · exact splNodes_eq_top_of_not_reachable

theorem spNodes_isSome_of_reachable {G : Graph} {u v : Nat}
    (hcl : ∀ e ∈ G.edges, e.src ∈ G.nodes.map GNode.id ∧
      e.tgt ∈ G.nodes.map GNode.id)
    (hu : u ∈ G.nodes.map GNode.id) (h : Reachable G u v) :
    ∃ w, spNodes G u v = some w := by
  obtain ⟨w, hw⟩ := h
  obtain ⟨w', hw', hnd, hsubw⟩ := exists_nodup_walk w.length w le_rfl hw
  obtain ⟨hh, -, hc⟩ := isWalk_iff.1 hw
  have hsub : ∀ x ∈ w', x ∈ G.nodes.map GNode.id := fun x hx =>
    walk_nodes_mem hcl w u hh hu hc x (hsubw x hx)
  have hmem : (pathCost (stepWeight G) w', w') ∈
      ((walkCands G u v).map (fun w => (pathCost (stepWeight G) w, w))) :=
    List.mem_map.2 ⟨w', walkCands_complete hnd hsub hw', rfl⟩
  exact foldMin_isSome_of_lt hmem
    (pathCost_lt_top_of_chain (isWalk_iff.1 hw').2.2)

theorem spNodes_none_of_not_reachable {G : Graph} {u v : Nat}
    (h : ¬ Reachable G u v) : spNodes G u v = none := by
  have hc : walkCands G u v = [] :=
    List.eq_nil_iff_forall_not_mem.2 (fun w hw => h ⟨w, walkCands_sound hw⟩)
  unfold spNodes
  rw [hc]
  rfl

theorem spNodes_walk {G : Graph} {u v : Nat} {w : List Nat}
    (h : spNodes G u v = some w) : isWalk G u v w = true := by
  obtain ⟨w', hw', heq⟩ := List.mem_map.1 (foldMin_mem h)
  have : w' = w := congrArg Prod.snd heq
  subst this
  exact walkCands_sound hw'

theorem foldr_min_nonneg : ∀ {l : List Cost}, (∀ x ∈ l, 0 ≤ x) →
    0 ≤ l.foldr min ⊤ := by
  intro l
  induction l with
  | nil =>
    intro _
    exact le_top
  | cons b t ih =>
    intro h
    exact le_min (h b (List.mem_cons_self b t))
      (ih (fun x hx => h x (List.mem_cons_of_mem b hx)))

theorem stepWeight_nonneg {G : Graph}
    (hlen : ∀ e ∈ G.edges, 0 ≤ e.length) (a b : Nat) :
    0 ≤ stepWeight G a b := by
  unfold stepWeight
  refine foldr_min_nonneg ?_
  intro x hx
  obtain ⟨e, he, rfl⟩ := List.mem_map.1 hx
  have h0 := hlen e (List.mem_of_mem_filter he)
  exact_mod_cast h0

theorem pathCost_nonneg {D : Nat → Nat → Cost}
    (hD : ∀ a b, 0 ≤ D a b) (l : List Nat) : 0 ≤ pathCost D l := by
  refine List.sum_nonneg ?_
  intro x hx
  obtain ⟨p, hp, rfl⟩ := List.mem_map.1 hx
  exact hD p.1 p.2

theorem splNodes_nonneg {G : Graph} {u v : Nat}
    (hlen : ∀ e ∈ G.edges, 0 ≤ e.length) : 0 ≤ splNodes G u v := by
  unfold splNodes
  rw [foldMin_eq_foldl]
  rcases foldl_foldMinStep_attain
      ((walkCands G u v).map (fun w => (pathCost (stepWeight G) w, w)))
      (⊤, none) with h | ⟨c, hc, h⟩
  · rw [h]
    exact le_top
  · rw [h]
    obtain ⟨w, hw, hcw⟩ := List.mem_map.1 hc
    have hc1 : c.1 = pathCost (stepWeight G) w := by
      rw [← hcw]
    rw [hc1]
    exact pathCost_nonneg (stepWeight_nonneg hlen) w

end SplLemmas

section GraphExamples

/-- Two-node graph with a single directed edge `1 → 2`. -/
def exG : Graph :=
  { nodes := [{ id := 1, x := 0, y := 0 }, { id := 2, x := 1, y := 0 }],
    edges := [{ src := 1, tgt := 2, length := 5 }] }

end GraphExamples

/-- C8: on a graph with at least one node, if source and target resolve to
the same nearest node then `compute_shortest_path_length` returns `0` and
`get_shortest_path_coords` returns the single-point sequence `[source]`; if
no path exists between the two resolved nodes, the length is `+∞` without an
exception and the coordinates are the two-point straight-line fallback
`[source, target]`. -/
theorem claim_C8 (G : Graph) (s t : ℚ × ℚ) (hne : G.nodes ≠ []) :
    (find_closest_node G s = find_closest_node G t →
      compute_shortest_path_length G s t = .ok 0 ∧
      get_shortest_path_coords G s t = .ok [s]) ∧
    (¬ Reachable G (resNode G s) (resNode G t) →
      compute_shortest_path_length G s t = .ok ⊤ ∧
      get_shortest_path_coords G s t = .ok [s, t]) := by
  obtain ⟨sn, hs⟩ := find_closest_node_isSome hne s
  obtain ⟨tn, ht⟩ := find_closest_node_isSome hne t
  have hred : compute_shortest_path_length G s t =
      if sn = tn then .ok 0 else .ok (splNodes G sn tn) := by
    unfold compute_shortest_path_length
    rw [hs, ht]
  have hred2 : get_shortest_path_coords G s t =
      (if sn = tn then .ok [s]
       else
        match spNodes G sn tn with
        | some w => .ok (w.map (fun nid => nodeCoords G nid))
        | none => .ok [s, t]) := by
    unfold get_shortest_path_coords
    rw [hs, ht]
  have hrs : resNode G s = sn := by
    unfold resNode
    rw [hs]
    rfl
  have hrt : resNode G t = tn := by
    unfold resNode
    rw [ht]
    rfl
  constructor
  · intro heq
    have hsntn : sn = tn := by
      rw [hs, ht] at heq
      injection heq
    constructor
    · rw [hred, if_pos hsntn]
    · rw [hred2, if_pos hsntn]
  · intro hnr
    rw [hrs, hrt] at hnr
    have hsntn : sn ≠ tn := by
      intro hh
      subst hh
      exact hnr reachable_refl
    constructor
    · rw [hred, if_neg hsntn, splNodes_eq_top_of_not_reachable hnr]
    · rw [hred2, if_neg hsntn, spNodes_none_of_not_reachable hnr]

theorem claim_C8_witness :
    (compute_shortest_path_length exG (0, 0) (0, 0) = .ok 0 ∧
      get_shortest_path_coords exG (0, 0) (0, 0) = .ok [(0, 0)]) ∧
    (compute_shortest_path_length exG (1, 0) (0, 0) = .ok ⊤ ∧
      get_shortest_path_coords exG (1, 0) (0, 0) = .ok [(1, 0), (0, 0)]) :=
  ⟨(claim_C8 exG (0, 0) (0, 0) (by decide)).1 (by with_unfolding_all rfl),
   (claim_C8 exG (1, 0) (0, 0) (by decide)).2
     ((splNodes_eq_top_iff (by decide)
        (by
          have h2 : resNode exG (1, 0) = 2 := by with_unfolding_all rfl
          rw [h2]
          decide)).1
       (by with_unfolding_all rfl))⟩

section DistanceMatrix

/-- `distance_matrix[i][j] = v` on a matrix stored as rows. -/
def setEntry (M : List (List Cost)) (i j : Nat) (v : Cost) : List (List Cost) :=
  M.set i ((M.getD i []).set j v)

/-- `distance_matrix[i][j]`. -/
def getEntry (M : List (List Cost)) (i j : Nat) : Cost :=
  (M.getD i []).getD j 0

/-- The value `compute_shortest_path_length` returns when the graph has at
least one node. -/
def cspVal (G : Graph) (s t : ℚ × ℚ) : Cost :=
  if resNode G s = resNode G t then 0
  else splNodes G (resNode G s) (resNode G t)

/-- `distance_matrix.build_distance_matrix`: `np.zeros((n, n))`, the nested
`for i / for j` loops writing the diagonal and, for `i < j`, the oracle's
answer to both `D[i][j]` and `D[j][i]`; an oracle exception propagates. -/
def build_distance_matrix (G : Graph) (snapped : List SnappedPoint) :
    Except String (List (List Cost) × List Nat) :=
  if snapped.length = 0 then .error "No points provided"
  else
    let n := snapped.length
    let coords := snapped.map (fun p => p.coords)
    let point_ids := snapped.map (fun p => p.id)
    match (List.range n).foldlM (fun M i =>
        (List.range n).foldlM (fun M j =>
          if i = j then pure (setEntry M i j 0)
          else if i < j then
            (compute_shortest_path_length G (coords.getD i (0, 0))
              (coords.getD j (0, 0))).map (fun d =>
                setEntry (setEntry M i j d) j i d)
          else pure M) M)
      (List.replicate n (List.replicate n (0 : Cost))) with
    | .error e => .error e
    | .ok M => .ok (M, point_ids)

/-- The pure per-cell step of the build loop once every oracle call is known
to succeed. -/
def bdmStep (G : Graph) (coords : List (ℚ × ℚ)) (i : Nat)
    (M : List (List Cost)) (j : Nat) : List (List Cost) :=
  if i = j then setEntry M i j 0
  else if i < j then
    setEntry
      (setEntry M i j (cspVal G (coords.getD i (0, 0)) (coords.getD j (0, 0))))
      j i (cspVal G (coords.getD i (0, 0)) (coords.getD j (0, 0)))
  else M

/-- The matrix the build loop produces (graph with at least one node). -/
def bdmMatrix (G : Graph) (snapped : List SnappedPoint) : List (List Cost) :=
  (List.range snapped.length).foldl
    (fun M i => (List.range snapped.length).foldl
      (bdmStep G (snapped.map (fun p => p.coords)) i) M)
    (List.replicate snapped.length (List.replicate snapped.length (0 : Cost)))

/-- The value both triangles receive for the unordered pair `x < y`, and `0`
on the diagonal. -/
def entryTarget (G : Graph) (coords : List (ℚ × ℚ)) (a b : Nat) : Cost :=
  if a = b then 0
  else cspVal G (coords.getD (min a b) (0, 0)) (coords.getD (max a b) (0, 0))

theorem resNode_mem {G : Graph} {c : ℚ × ℚ} {u : Nat}
    (h : find_closest_node G c = some u) : u ∈ G.nodes.map GNode.id := by
  obtain ⟨nd, hnd, heq⟩ := List.mem_map.1 (foldMin_mem h)
  exact List.mem_map.2 ⟨nd, hnd, congrArg Prod.snd heq⟩

theorem csp_ok {G : Graph} (hne : G.nodes ≠ []) (s t : ℚ × ℚ) :
    compute_shortest_path_length G s t = .ok (cspVal G s t) := by
  obtain ⟨sn, hs⟩ := find_closest_node_isSome hne s
  obtain ⟨tn, ht⟩ := find_closest_node_isSome hne t
  have hrs : resNode G s = sn := by
    unfold resNode
    rw [hs]
    rfl
  have hrt : resNode G t = tn := by
    unfold resNode
    rw [ht]
    rfl
  unfold compute_shortest_path_length cspVal
  rw [hs, ht, hrs, hrt, apply_ite Except.ok]

theorem cspVal_eq_top_iff {G : Graph} (hne : G.nodes ≠ [])
    (hcl : ∀ e ∈ G.edges, e.src ∈ G.nodes.map GNode.id ∧
      e.tgt ∈ G.nodes.map GNode.id) (s t : ℚ × ℚ) :
    cspVal G s t = ⊤ ↔ ¬ Reachable G (resNode G s) (resNode G t) := by
  unfold cspVal
  by_cases h : resNode G s = resNode G t
  · rw [if_pos h, h]
    constructor
    · intro h0
      exact absurd h0 (by simp)
    · intro hr
      exact absurd reachable_refl hr
  · rw [if_neg h]
    obtain ⟨sn, hs⟩ := find_closest_node_isSome hne s
    have hrs : resNode G s = sn := by
      unfold resNode
      rw [hs]
      rfl
    exact splNodes_eq_top_iff hcl (hrs ▸ resNode_mem hs)

theorem cspVal_nonneg {G : Graph}
    (hlen : ∀ e ∈ G.edges, 0 ≤ e.length) (s t : ℚ × ℚ) :
    0 ≤ cspVal G s t := by
  unfold cspVal
  by_cases h : resNode G s = resNode G t
  · rw [if_pos h]
  · rw [if_neg h]
    exact splNodes_nonneg hlen

theorem foldlM_ok {β γ : Type} (f : β → γ → Except String β) (g : β → γ → β)
    (hf : ∀ b c, f b c = .ok (g b c)) :
    ∀ (l : List γ) (b : β), l.foldlM f b = .ok (l.foldl g b) := by
  intro l
  induction l with
  | nil =>
    intro b
    rfl
  | cons c t ih =>
    intro b
    rw [List.foldlM_cons, hf]
    show t.foldlM f (g b c) = _
    rw [ih, List.foldl_cons]

end DistanceMatrix

section MatrixLemmas

/-- Well-formed n×n matrix. -/
def Wf (M : List (List Cost)) (n : Nat) : Prop :=
  M.length = n ∧ ∀ r ∈ M, r.length = n

theorem Wf_replicate (n : Nat) :
    Wf (List.replicate n (List.replicate n (0 : Cost))) n := by
  constructor
  · simp
  · intro r hr
    rw [List.eq_of_mem_replicate hr]
    simp

theorem getD_row_of_wf {M : List (List Cost)} {n i : Nat} (h : Wf M n)
    (hi : i < n) : (M.getD i []).length = n := by
  obtain ⟨hlen, hrow⟩ := h
  have hil : i < M.length := by omega
  rw [List.getD_eq_getElem?_getD, List.getElem?_eq_getElem hil]
  exact hrow _ (List.getElem_mem hil)

theorem Wf_setEntry {M : List (List Cost)} {n i j : Nat} {v : Cost}
    (h : Wf M n) : Wf (setEntry M i j v) n := by
  have hlen := h.1
  by_cases hi : i < M.length
  · constructor
    · rw [setEntry, List.length_set]
      exact hlen
    · intro r hr
      rcases List.mem_or_eq_of_mem_set hr with hr' | rfl
      · exact h.2 r hr'
      · rw [List.length_set]
        exact getD_row_of_wf h (by omega)
  · rw [setEntry, List.set_eq_of_length_le (by omega)]
    exact h

theorem getEntry_setEntry_self {M : List (List Cost)} {n i j : Nat} {v : Cost}
    (h : Wf M n) (hi : i < n) (hj : j < n) :
    getEntry (setEntry M i j v) i j = v := by
  have hlen := h.1
  have hil : i < M.length := by omega
  have hjl : j < (M.getD i []).length := by
    rw [getD_row_of_wf h hi]
    exact hj
  unfold getEntry setEntry
  have hrow : ∀ r : List Cost, (M.set i r).getD i [] = r := by
    intro r
    rw [List.getD_eq_getElem?_getD, List.getElem?_set_self (by simpa using hil)]
    rfl
  rw [hrow]
  have hcell : ∀ r : List Cost, j < r.length → (r.set j v).getD j 0 = v := by
    intro r hr
    rw [List.getD_eq_getElem?_getD, List.getElem?_set_self (by simpa using hr)]
    rfl
  exact hcell _ hjl

theorem getEntry_setEntry_ne {M : List (List Cost)} {i j a b : Nat} {v : Cost}
    (h : ¬ (a = i ∧ b = j)) :
    getEntry (setEntry M i j v) a b = getEntry M a b := by
  by_cases ha : a = i
  · subst ha
    have hb : b ≠ j := fun hb => h ⟨rfl, hb⟩
    by_cases hi : a < M.length
    · unfold getEntry setEntry
      have hrow : ∀ r : List Cost, (M.set a r).getD a [] = r := by
        intro r
        rw [List.getD_eq_getElem?_getD,
          List.getElem?_set_self (by simpa using hi)]
        rfl
      rw [hrow]
      have hcell : ∀ r : List Cost, (r.set j v).getD b 0 = r.getD b 0 := by
        intro r
        rw [List.getD_eq_getElem?_getD, List.getElem?_set_ne (Ne.symm hb),
          ← List.getD_eq_getElem?_getD]
      exact hcell _
    · unfold setEntry
      rw [List.set_eq_of_length_le (by omega)]
  · unfold getEntry setEntry
    have hrow : ∀ r : List Cost, (M.set i r).getD a [] = M.getD a [] := by
      intro r
      rw [List.getD_eq_getElem?_getD, List.getElem?_set_ne (Ne.symm ha),
        ← List.getD_eq_getElem?_getD]
    rw [hrow]

end MatrixLemmas

section BuildFold

theorem bdmStep_entry (G : Graph) (coords : List (ℚ × ℚ)) {n i s : Nat}
    {M : List (List Cost)} (hwf : Wf M n) (hi : i < n) (hs : s < n) :
    ∀ a b, a < n → b < n →
      getEntry (bdmStep G coords i M s) a b =
        if a = i ∧ b = s ∧ i ≤ s then entryTarget G coords i s
        else if b = i ∧ a = s ∧ i < s then entryTarget G coords s i
        else getEntry M a b := by
  intro a b ha hb
  unfold bdmStep
  by_cases his : i = s
  · rw [if_pos his]
    by_cases hcell : a = i ∧ b = s
    · rw [hcell.1, hcell.2, getEntry_setEntry_self hwf hi hs,
        if_pos (show i = i ∧ s = s ∧ i ≤ s from ⟨rfl, rfl, le_of_eq his⟩)]
      unfold entryTarget
      rw [if_pos his]
    · rw [getEntry_setEntry_ne hcell,
        if_neg (fun hh => hcell ⟨hh.1, hh.2.1⟩),
        if_neg (show ¬ (b = i ∧ a = s ∧ i < s) from by omega)]
  · rw [if_neg his]
    by_cases hlt : i < s
    · rw [if_pos hlt]
      have hTis : entryTarget G coords i s =
          cspVal G (coords.getD i (0, 0)) (coords.getD s (0, 0)) := by
        unfold entryTarget
        rw [if_neg his, Nat.min_eq_left (le_of_lt hlt),
          Nat.max_eq_right (le_of_lt hlt)]
      have hTsi : entryTarget G coords s i =
          cspVal G (coords.getD i (0, 0)) (coords.getD s (0, 0)) := by
        unfold entryTarget
        rw [if_neg (fun hh => his hh.symm), Nat.min_eq_right (le_of_lt hlt),
          Nat.max_eq_left (le_of_lt hlt)]
      by_cases hc2 : a = s ∧ b = i
      · rw [hc2.1, hc2.2, getEntry_setEntry_self (Wf_setEntry hwf) hs hi,
          if_neg (show ¬ (s = i ∧ i = s ∧ i ≤ s) from by omega),
          if_pos (show i = i ∧ s = s ∧ i < s from ⟨rfl, rfl, hlt⟩), hTsi]
      · rw [getEntry_setEntry_ne hc2]
        by_cases hc1 : a = i ∧ b = s
        · rw [hc1.1, hc1.2, getEntry_setEntry_self hwf hi hs,
            if_pos (show i = i ∧ s = s ∧ i ≤ s from ⟨rfl, rfl, le_of_lt hlt⟩),
            hTis]
        · rw [getEntry_setEntry_ne hc1,
            if_neg (fun hh => hc1 ⟨hh.1, hh.2.1⟩),
            if_neg (fun hh => hc2 ⟨hh.2.1, hh.1⟩)]
    · rw [if_neg hlt, if_neg (show ¬ (a = i ∧ b = s ∧ i ≤ s) from by omega),
        if_neg (show ¬ (b = i ∧ a = s ∧ i < s) from by omega)]

theorem bdmStep_wf (G : Graph) (coords : List (ℚ × ℚ)) {n i s : Nat}
    {M : List (List Cost)} (hwf : Wf M n) :
    Wf (bdmStep G coords i M s) n := by
  unfold bdmStep
  split_ifs with h1 h2
  · exact Wf_setEntry hwf
  · exact Wf_setEntry (Wf_setEntry hwf)
  · exact hwf

theorem bdm_inner (G : Graph) (coords : List (ℚ × ℚ)) (n i : Nat) (hi : i < n) :
    ∀ (k s : Nat) (M : List (List Cost)), s + k = n → Wf M n →
      Wf ((List.range' s k).foldl (bdmStep G coords i) M) n ∧
      (∀ a b, a < n → b < n →
        getEntry ((List.range' s k).foldl (bdmStep G coords i) M) a b =
          if a = i ∧ s ≤ b ∧ i ≤ b then entryTarget G coords i b
          else if b = i ∧ s ≤ a ∧ i < a then entryTarget G coords a i
          else getEntry M a b) := by
  intro k
  induction k with
  | zero =>
    intro s M hs hwf
    refine ⟨hwf, ?_⟩
    intro a b ha hb
    rw [if_neg (by omega), if_neg (by omega)]
    rfl
  | succ k ih =>
    intro s M hs hwf
    have hsn : s < n := by omega
    rw [List.range'_succ, List.foldl_cons]
    obtain ⟨ihwf, ihent⟩ := ih (s + 1) (bdmStep G coords i M s) (by omega)
      (bdmStep_wf G coords hwf)
    refine ⟨ihwf, ?_⟩
    intro a b ha hb
    rw [ihent a b ha hb]
    have hstep := bdmStep_entry G coords hwf hi hsn a b ha hb
    by_cases hC1 : a = i ∧ s ≤ b ∧ i ≤ b
    · obtain ⟨h1, h2, h3⟩ := hC1
      by_cases hb1 : s + 1 ≤ b
      · rw [if_pos (show a = i ∧ s + 1 ≤ b ∧ i ≤ b from ⟨h1, hb1, h3⟩),
          if_pos (show a = i ∧ s ≤ b ∧ i ≤ b from ⟨h1, h2, h3⟩)]
      · have hbs : b = s := by omega
        rw [if_neg (show ¬ (a = i ∧ s + 1 ≤ b ∧ i ≤ b) from by omega),
          if_neg (show ¬ (b = i ∧ s + 1 ≤ a ∧ i < a) from by omega),
          hstep,
          if_pos (show a = i ∧ b = s ∧ i ≤ s from ⟨h1, hbs, by omega⟩),
          if_pos (show a = i ∧ s ≤ b ∧ i ≤ b from ⟨h1, h2, h3⟩),
          hbs]
    · by_cases hC2 : b = i ∧ s ≤ a ∧ i < a
      · obtain ⟨h1, h2, h3⟩ := hC2
        by_cases ha1 : s + 1 ≤ a
        · rw [if_neg (show ¬ (a = i ∧ s + 1 ≤ b ∧ i ≤ b) from by omega),
            if_pos (show b = i ∧ s + 1 ≤ a ∧ i < a from ⟨h1, ha1, h3⟩),
            if_neg hC1,
            if_pos (show b = i ∧ s ≤ a ∧ i < a from ⟨h1, h2, h3⟩)]
        · have has : a = s := by omega
          rw [if_neg (show ¬ (a = i ∧ s + 1 ≤ b ∧ i ≤ b) from by omega),
            if_neg (show ¬ (b = i ∧ s + 1 ≤ a ∧ i < a) from by omega),
            hstep,
            if_neg (show ¬ (a = i ∧ b = s ∧ i ≤ s) from by omega),
            if_pos (show b = i ∧ a = s ∧ i < s from ⟨h1, has, by omega⟩),
            if_neg hC1,
            if_pos (show b = i ∧ s ≤ a ∧ i < a from ⟨h1, h2, h3⟩),
            has]
      · rw [if_neg (show ¬ (a = i ∧ s + 1 ≤ b ∧ i ≤ b) from by omega),
          if_neg (show ¬ (b = i ∧ s + 1 ≤ a ∧ i < a) from by omega),
          hstep,
          if_neg (show ¬ (a = i ∧ b = s ∧ i ≤ s) from by omega),
          if_neg (show ¬ (b = i ∧ a = s ∧ i < s) from by omega),
          if_neg hC1, if_neg hC2]

theorem getEntry_replicate (n a b : Nat) :
    getEntry (List.replicate n (List.replicate n (0 : Cost))) a b = 0 := by
  unfold getEntry
  have hrow : (List.replicate n (List.replicate n (0 : Cost))).getD a [] =
      List.replicate n (0 : Cost) ∨
      (List.replicate n (List.replicate n (0 : Cost))).getD a [] = [] := by
    by_cases ha : a < n
    · left
      rw [List.getD_eq_getElem?_getD, List.getElem?_replicate_of_lt ha]
      rfl
    · right
      rw [List.getD_eq_getElem?_getD, List.getElem?_replicate, if_neg ha]
      rfl
  rcases hrow with h | h <;> rw [h]
  · by_cases hb : b < n
    · rw [List.getD_eq_getElem?_getD, List.getElem?_replicate_of_lt hb]
      rfl
    · rw [List.getD_eq_getElem?_getD, List.getElem?_replicate, if_neg hb]
      rfl
  · rfl

theorem bdm_outer (G : Graph) (coords : List (ℚ × ℚ)) (n : Nat) :
    ∀ (k s : Nat) (M : List (List Cost)), s + k = n → Wf M n →
      (∀ a b, a < n → b < n → (a < s ∨ b < s) →
        getEntry M a b = entryTarget G coords a b) →
      (∀ a b, a < n → b < n → ¬ (a < s ∨ b < s) → getEntry M a b = 0) →
      Wf ((List.range' s k).foldl
        (fun M i => (List.range' 0 n).foldl (bdmStep G coords i) M) M) n ∧
      (∀ a b, a < n → b < n →
        getEntry ((List.range' s k).foldl
          (fun M i => (List.range' 0 n).foldl (bdmStep G coords i) M) M) a b =
          entryTarget G coords a b) := by
  intro k
  induction k with
  | zero =>
    intro s M hs hwf hdone hzero
    refine ⟨hwf, ?_⟩
    intro a b ha hb
    exact hdone a b ha hb (by omega)
  | succ k ih =>
    intro s M hs hwf hdone hzero
    rw [List.range'_succ, List.foldl_cons]
    obtain ⟨hwf', hent'⟩ :=
      bdm_inner G coords n s (by omega) n 0
        M (by omega) hwf
    refine ih (s + 1) _ (by omega) hwf' ?_ ?_
    · intro a b ha hb hlt
      rw [hent' a b ha hb]
      by_cases hc1 : a = s ∧ 0 ≤ b ∧ s ≤ b
      · rw [if_pos hc1, hc1.1]
      · rw [if_neg hc1]
        by_cases hc2 : b = s ∧ 0 ≤ a ∧ s < a
        · rw [if_pos hc2, hc2.1]
        · rw [if_neg hc2]
          exact hdone a b ha hb (by omega)
    · intro a b ha hb hgt
      rw [hent' a b ha hb, if_neg (by omega), if_neg (by omega)]
      exact hzero a b ha hb (by omega)

set_option maxHeartbeats 400000 in
theorem bdmMatrix_spec (G : Graph) (snapped : List SnappedPoint) :
    Wf (bdmMatrix G snapped) snapped.length ∧
    ∀ a b, a < snapped.length → b < snapped.length →
      getEntry (bdmMatrix G snapped) a b =
        entryTarget G (snapped.map (fun p => p.coords)) a b := by
  unfold bdmMatrix
  rw [List.range_eq_range']
  have h := bdm_outer G (snapped.map (fun p => p.coords)) snapped.length
    snapped.length 0
    (List.replicate snapped.length (List.replicate snapped.length (0 : Cost)))
    (by omega) (Wf_replicate _)
    (fun a b ha hb h => absurd h (by omega))
    (fun a b ha hb h => getEntry_replicate _ a b)
  exact h

theorem build_distance_matrix_ok {G : Graph} {snapped : List SnappedPoint}
    (hne : G.nodes ≠ []) (hsn : snapped.length ≠ 0) :
    build_distance_matrix G snapped =
      .ok (bdmMatrix G snapped, snapped.map (fun p => p.id)) := by
  unfold build_distance_matrix
  rw [if_neg hsn]
  dsimp only
  have hinner : ∀ (M : List (List Cost)) (i : Nat),
      (List.range snapped.length).foldlM (fun M j =>
        if i = j then pure (setEntry M i j 0)
        else if i < j then
          (compute_shortest_path_length G
            ((snapped.map (fun p => p.coords)).getD i (0, 0))
            ((snapped.map (fun p => p.coords)).getD j (0, 0))).map (fun d =>
              setEntry (setEntry M i j d) j i d)
        else pure M) M =
      .ok ((List.range snapped.length).foldl
        (bdmStep G (snapped.map (fun p => p.coords)) i) M) := by
    intro M i
    refine foldlM_ok _ _ ?_ _ _
    intro M' j
    unfold bdmStep
    by_cases hij : i = j
    · rw [if_pos hij, if_pos hij]
      rfl
    · rw [if_neg hij, if_neg hij]
      by_cases hlt : i < j
      · rw [if_pos hlt, if_pos hlt, csp_ok hne]
        rfl
      · rw [if_neg hlt, if_neg hlt]
        rfl
  rw [foldlM_ok _ _ hinner (List.range snapped.length)
    (List.replicate snapped.length
      (List.replicate snapped.length (0 : Cost)))]
  rfl

theorem entryTarget_symm (G : Graph) (coords : List (ℚ × ℚ)) (a b : Nat) :
    entryTarget G coords a b = entryTarget G coords b a := by
  unfold entryTarget
  by_cases hab : a = b
  · rw [if_pos hab, if_pos hab.symm]
  · rw [if_neg hab, if_neg (fun hh => hab hh.symm), Nat.min_comm, Nat.max_comm]

end BuildFold

section BuildExamples

/-- Two snapped points sitting exactly on the two nodes of `exG`. -/
def exSnapped : List SnappedPoint :=
  [{ id := 100, coords := (0, 0) }, { id := 200, coords := (1, 0) }]

end BuildExamples

/-- C6: on a graph with at least one node, non-negative edge lengths and
edges between existing nodes, `build_distance_matrix` on a non-empty snapped
list succeeds with the point ids in order, and the matrix has zero diagonal,
is symmetric, is entrywise non-negative, has `D[i][j] = +∞` exactly when no
path exists between the two resolved nodes (in the direction the code
queries, from the lower to the higher index), and each unordered pair's
entry in both triangles is the single oracle answer computed for `i < j`. -/
theorem claim_C6 (G : Graph) (snapped : List SnappedPoint)
    (hne : G.nodes ≠ []) (hsn : snapped.length ≠ 0)
    (hcl : ∀ e ∈ G.edges, e.src ∈ G.nodes.map GNode.id ∧
      e.tgt ∈ G.nodes.map GNode.id)
    (hlen : ∀ e ∈ G.edges, 0 ≤ e.length) :
    ∃ M, build_distance_matrix G snapped =
        .ok (M, snapped.map (fun p => p.id)) ∧
      (∀ i < snapped.length, getEntry M i i = 0) ∧
      (∀ i < snapped.length, ∀ j < snapped.length,
        getEntry M i j = getEntry M j i) ∧
      (∀ i < snapped.length, ∀ j < snapped.length, 0 ≤ getEntry M i j) ∧
      (∀ i < snapped.length, ∀ j < snapped.length,
        (getEntry M i j = ⊤ ↔
          ¬ Reachable G
            (resNode G ((snapped.map (fun p => p.coords)).getD (min i j) (0, 0)))
            (resNode G ((snapped.map (fun p => p.coords)).getD (max i j) (0, 0))))) ∧
      (∀ i < snapped.length, ∀ j < snapped.length, i < j →
        compute_shortest_path_length G
          ((snapped.map (fun p => p.coords)).getD i (0, 0))
          ((snapped.map (fun p => p.coords)).getD j (0, 0)) =
          .ok (getEntry M i j)) := by
  obtain ⟨hwf, hent⟩ := bdmMatrix_spec G snapped
  refine ⟨bdmMatrix G snapped, build_distance_matrix_ok hne hsn,
    ?_, ?_, ?_, ?_, ?_⟩
  · intro i hi
    rw [hent i i hi hi]
    unfold entryTarget
    rw [if_pos rfl]
  · intro i hi j hj
    rw [hent i j hi hj, hent j i hj hi]
    exact entryTarget_symm G _ i j
  · intro i hi j hj
    rw [hent i j hi hj]
    unfold entryTarget
    by_cases hij : i = j
    · rw [if_pos hij]
    · rw [if_neg hij]
      exact cspVal_nonneg hlen _ _
  · intro i hi j hj
    rw [hent i j hi hj]
    unfold entryTarget
    by_cases hij : i = j
    · rw [if_pos hij]
      constructor
      · intro h0
        exact absurd h0 (by simp)
      · intro hr
        rw [hij] at hr
        simp only [Nat.min_self, Nat.max_self] at hr
        exact absurd reachable_refl hr
    · rw [if_neg hij]
      exact cspVal_eq_top_iff hne hcl _ _
  · intro i hi j hj hij
    rw [hent i j hi hj]
    unfold entryTarget
    rw [if_neg (by omega), Nat.min_eq_left (le_of_lt hij),
      Nat.max_eq_right (le_of_lt hij)]
    exact csp_ok hne _ _

theorem claim_C6_witness :
    ∃ M, build_distance_matrix exG exSnapped =
        .ok (M, exSnapped.map (fun p => p.id)) ∧
      (∀ i < exSnapped.length, getEntry M i i = 0) ∧
      (∀ i < exSnapped.length, ∀ j < exSnapped.length,
        getEntry M i j = getEntry M j i) ∧
      (∀ i < exSnapped.length, ∀ j < exSnapped.length, 0 ≤ getEntry M i j) ∧
      (∀ i < exSnapped.length, ∀ j < exSnapped.length,
        (getEntry M i j = ⊤ ↔
          ¬ Reachable exG
            (resNode exG ((exSnapped.map (fun p => p.coords)).getD (min i j) (0, 0)))
            (resNode exG ((exSnapped.map (fun p => p.coords)).getD (max i j) (0, 0))))) ∧
      (∀ i < exSnapped.length, ∀ j < exSnapped.length, i < j →
        compute_shortest_path_length exG
          ((exSnapped.map (fun p => p.coords)).getD i (0, 0))
          ((exSnapped.map (fun p => p.coords)).getD j (0, 0)) =
          .ok (getEntry M i j)) :=
  claim_C6 exG exSnapped (by decide) (by decide) (by decide) (by decide)

section PathMaterializer

/-- `point_coords[pid]`: the snapped coordinates stored for an id (the dict
comprehension keeps the last occurrence of a duplicated id, `find?` the
first; on duplicate-free snapped lists they agree, and no claim concerns
duplicated ids). -/
def coordsOf (snapped : List SnappedPoint) (pid : Nat) : ℚ × ℚ :=
  ((snapped.find? (fun p => decide (p.id = pid))).map
    (fun p => p.coords)).getD (0, 0)

/-- `generate_tour_path_geojson` (identical in `tsp_bruteforce.py`,
`tsp_heldkarp.py` and `tsp_greedy.py`): the LineString coordinates built by
stitching per-segment shortest paths over consecutive tour points, including
the wrap-around `last → first` segment, dropping each later segment's first
coordinate to avoid duplicated joints. -/
def generate_tour_path_geojson (G : Graph) (tour_ids : List Nat)
    (snapped : List SnappedPoint) : Except String (List (ℚ × ℚ)) :=
  if tour_ids.length = 0 then .ok []
  else
    (List.range tour_ids.length).foldlM (fun acc i =>
      (get_shortest_path_coords G
        (coordsOf snapped (tour_ids.getD i 0))
        (coordsOf snapped (tour_ids.getD ((i + 1) % tour_ids.length) 0))).map
        (fun seg => if i = 0 then acc ++ seg else acc ++ seg.drop 1)) []

/-- The payload of an `ok` result (used only where the result is known to be
`ok`). -/
def exceptValD {α : Type} (e : Except String (List α)) : List α :=
  match e with
  | .ok v => v
  | .error _ => []

theorem gspc_spec {G : Graph} {s t : ℚ × ℚ} (hne : G.nodes ≠ [])
    (hcl : ∀ e ∈ G.edges, e.src ∈ G.nodes.map GNode.id ∧
      e.tgt ∈ G.nodes.map GNode.id)
    (hdist : find_closest_node G s ≠ find_closest_node G t)
    (hr : Reachable G (resNode G s) (resNode G t)) :
    ∃ w : List Nat, get_shortest_path_coords G s t =
        .ok (w.map (fun nid => nodeCoords G nid)) ∧
      w.head? = some (resNode G s) ∧ w.getLast? = some (resNode G t) ∧
      2 ≤ w.length := by
  obtain ⟨sn, hs⟩ := find_closest_node_isSome hne s
  obtain ⟨tn, ht⟩ := find_closest_node_isSome hne t
  have hrs : resNode G s = sn := by
    unfold resNode
    rw [hs]
    rfl
  have hrt : resNode G t = tn := by
    unfold resNode
    rw [ht]
    rfl
  have hsn : sn ≠ tn := by
    intro hh
    rw [hs, ht, hh] at hdist
    exact hdist rfl
  rw [hrs, hrt] at hr
  obtain ⟨w, hw⟩ := spNodes_isSome_of_reachable hcl (resNode_mem hs) hr
  obtain ⟨hh, hl, -⟩ := isWalk_iff.1 (spNodes_walk hw)
  refine ⟨w, ?_, hrs ▸ hh, hrt ▸ hl, ?_⟩
  · unfold get_shortest_path_coords
    rw [hs, ht]
    show (if sn = tn then Except.ok [s]
      else
        match spNodes G sn tn with
        | some w => Except.ok (List.map (fun nid => nodeCoords G nid) w)
        | none => Except.ok [s, t]) = _
    rw [if_neg hsn, hw]
  · match w, hh, hl with
    | [x], hh, hl =>
      exact absurd (by rw [← Option.some_inj, ← hh, ← hl]; rfl) hsn
    | x :: y :: r, _, _ => simp

theorem foldlM_ok_mem {β γ : Type} (f : β → γ → Except String β)
    (g : β → γ → β) (l : List γ)
    (hf : ∀ b, ∀ c ∈ l, f b c = .ok (g b c)) :
    ∀ b, l.foldlM f b = .ok (l.foldl g b) := by
  induction l with
  | nil =>
    intro b
    rfl
  | cons c t ih =>
    intro b
    rw [List.foldlM_cons, hf b c (List.mem_cons_self c t)]
    show t.foldlM f (g b c) = _
    rw [ih (fun b' c' hc' => hf b' c' (List.mem_cons_of_mem c hc')),
      List.foldl_cons]

end PathMaterializer

section C9Scaffolding

theorem drop_one_getLast? {α : Type} {l : List α} (hl : 2 ≤ l.length) :
    (l.drop 1).getLast? = l.getLast? := by
  match l, hl with
  | x :: y :: r, _ =>
    show (y :: r).getLast? = (x :: y :: r).getLast?
    exact (List.getLast?_cons_cons).symm

/-- One tour segment's emitted coordinate polyline. -/
def segFn (G : Graph) (tour_ids : List Nat) (snapped : List SnappedPoint)
    (i : Nat) : List (ℚ × ℚ) :=
  exceptValD (get_shortest_path_coords G
    (coordsOf snapped (tour_ids.getD i 0))
    (coordsOf snapped (tour_ids.getD ((i + 1) % tour_ids.length) 0)))

/-- The pure accumulation step of the materializer loop. -/
def gStep (G : Graph) (tour_ids : List Nat) (snapped : List SnappedPoint)
    (acc : List (ℚ × ℚ)) (i : Nat) : List (ℚ × ℚ) :=
  if i = 0 then acc ++ segFn G tour_ids snapped i
  else acc ++ (segFn G tour_ids snapped i).drop 1

/-- Coordinates of the node the `i`-th tour stop (cyclically) resolves to. -/
def nAt (G : Graph) (tour_ids : List Nat) (snapped : List SnappedPoint)
    (i : Nat) : ℚ × ℚ :=
  nodeCoords G (resNode G (coordsOf snapped
    (tour_ids.getD (i % tour_ids.length) 0)))

theorem segFn_spec {G : Graph} {tour_ids : List Nat}
    {snapped : List SnappedPoint} (hne : G.nodes ≠ [])
    (hcl : ∀ e ∈ G.edges, e.src ∈ G.nodes.map GNode.id ∧
      e.tgt ∈ G.nodes.map GNode.id)
    (hseg : ∀ i < tour_ids.length,
      find_closest_node G (coordsOf snapped (tour_ids.getD i 0)) ≠
        find_closest_node G
          (coordsOf snapped (tour_ids.getD ((i + 1) % tour_ids.length) 0)) ∧
      Reachable G
        (resNode G (coordsOf snapped (tour_ids.getD i 0)))
        (resNode G (coordsOf snapped
          (tour_ids.getD ((i + 1) % tour_ids.length) 0))))
    {i : Nat} (hi : i < tour_ids.length) :
    (segFn G tour_ids snapped i).head? = some (nAt G tour_ids snapped i) ∧
    (segFn G tour_ids snapped i).getLast? =
      some (nAt G tour_ids snapped (i + 1)) ∧
    2 ≤ (segFn G tour_ids snapped i).length ∧
    get_shortest_path_coords G
      (coordsOf snapped (tour_ids.getD i 0))
      (coordsOf snapped (tour_ids.getD ((i + 1) % tour_ids.length) 0)) =
      .ok (segFn G tour_ids snapped i) := by
  obtain ⟨hd, hr⟩ := hseg i hi
  obtain ⟨w, hgspc, hh, hl, hlen⟩ := gspc_spec hne hcl hd hr
  have hok : segFn G tour_ids snapped i =
      w.map (fun nid => nodeCoords G nid) := by
    unfold segFn
    rw [hgspc]
    rfl
  refine ⟨?_, ?_, ?_, ?_⟩
  · rw [hok, List.head?_map, hh]
    unfold nAt
    rw [Nat.mod_eq_of_lt hi]
    rfl
  · rw [hok, List.getLast?_map, hl]
    unfold nAt
    rfl
  · rw [hok, List.length_map]
    exact hlen
  · rw [hok]
    exact hgspc

theorem c9_fold (G : Graph) (tour_ids : List Nat) (snapped : List SnappedPoint)
    (hsegp : ∀ i < tour_ids.length,
      (segFn G tour_ids snapped i).head? = some (nAt G tour_ids snapped i) ∧
      (segFn G tour_ids snapped i).getLast? =
        some (nAt G tour_ids snapped (i + 1)) ∧
      2 ≤ (segFn G tour_ids snapped i).length) :
    ∀ (k s : Nat), 1 ≤ s → s + k = tour_ids.length →
      ∀ acc : List (ℚ × ℚ), acc ≠ [] →
        acc.getLast? = some (nAt G tour_ids snapped s) →
        ((List.range' s k).foldl (gStep G tour_ids snapped) acc) ≠ [] ∧
        ((List.range' s k).foldl (gStep G tour_ids snapped) acc).head? =
          acc.head? ∧
        ((List.range' s k).foldl (gStep G tour_ids snapped) acc).getLast? =
          some (nAt G tour_ids snapped (s + k)) := by
  intro k
  induction k with
  | zero =>
    intro s h1 hs acc hane hlast
    exact ⟨hane, rfl, by simpa using hlast⟩
  | succ k ih =>
    intro s h1 hs acc hane hlast
    rw [List.range'_succ, List.foldl_cons]
    have hsn : s < tour_ids.length := by omega
    obtain ⟨hh, hl, hlen2⟩ := hsegp s hsn
    have hstep : gStep G tour_ids snapped acc s =
        acc ++ (segFn G tour_ids snapped s).drop 1 := by
      unfold gStep
      rw [if_neg (by omega)]
    have hdne : (segFn G tour_ids snapped s).drop 1 ≠ [] := by
      apply List.ne_nil_of_length_pos
      rw [List.length_drop]
      omega
    have hane' : gStep G tour_ids snapped acc s ≠ [] := by
      rw [hstep]
      exact List.append_ne_nil_of_left_ne_nil hane _
    have hhead' : (gStep G tour_ids snapped acc s).head? = acc.head? := by
      rw [hstep]
      exact List.head?_append_of_ne_nil _ hane
    have hlast' : (gStep G tour_ids snapped acc s).getLast? =
        some (nAt G tour_ids snapped (s + 1)) := by
      rw [hstep, List.getLast?_append_of_ne_nil _ hdne,
        drop_one_getLast? hlen2, hl]
    obtain ⟨hne2, hh2, hl2⟩ := ih (s + 1) (by omega) (by omega) _ hane' hlast'
    refine ⟨hne2, hh2.trans hhead', ?_⟩
    rw [show s + (k + 1) = s + 1 + k from by omega]
    exact hl2

end C9Scaffolding

/-- C9 (amended): for a non-empty tour on a graph with at least one node and
edges between existing nodes, whenever every consecutive tour pair (including
the wrap-around pair) resolves to two distinct nodes joined by a path, the
LineString coordinates produced by `generate_tour_path_geojson` are non-empty
and closed (first coordinate = last coordinate).  The original claim asserted
closure for every non-empty tour; when a consecutive pair resolves to one
shared node the segment contributes the raw snapped coordinates instead of
node coordinates, and when no path exists the straight-line fallback is
emitted, and in either case the polyline can stay open (see the
counterexample). -/
theorem claim_C9 (G : Graph) (tour_ids : List Nat) (snapped : List SnappedPoint)
    (hne : G.nodes ≠ [])
    (hcl : ∀ e ∈ G.edges, e.src ∈ G.nodes.map GNode.id ∧
      e.tgt ∈ G.nodes.map GNode.id)
    (htl : tour_ids ≠ [])
    (hseg : ∀ i < tour_ids.length,
      find_closest_node G (coordsOf snapped (tour_ids.getD i 0)) ≠
        find_closest_node G
          (coordsOf snapped (tour_ids.getD ((i + 1) % tour_ids.length) 0)) ∧
      Reachable G
        (resNode G (coordsOf snapped (tour_ids.getD i 0)))
        (resNode G (coordsOf snapped
          (tour_ids.getD ((i + 1) % tour_ids.length) 0)))) :
    ∃ coords, generate_tour_path_geojson G tour_ids snapped = .ok coords ∧
      coords ≠ [] ∧ coords.head? = coords.getLast? := by
  have hn0 : 0 < tour_ids.length := List.length_pos.2 htl
  have hsegp : ∀ i < tour_ids.length,
      (segFn G tour_ids snapped i).head? = some (nAt G tour_ids snapped i) ∧
      (segFn G tour_ids snapped i).getLast? =
        some (nAt G tour_ids snapped (i + 1)) ∧
      2 ≤ (segFn G tour_ids snapped i).length := by
    intro i hi
    obtain ⟨h1, h2, h3, -⟩ := segFn_spec hne hcl hseg hi
    exact ⟨h1, h2, h3⟩
  have hgen : generate_tour_path_geojson G tour_ids snapped =
      .ok ((List.range tour_ids.length).foldl (gStep G tour_ids snapped) []) := by
    unfold generate_tour_path_geojson
    rw [if_neg (by omega)]
    refine foldlM_ok_mem _ _ _ ?_ []
    intro acc i hi
    obtain ⟨-, -, -, hok⟩ := segFn_spec hne hcl hseg (List.mem_range.1 hi)
    rw [hok]
    rfl
  refine ⟨_, hgen, ?_⟩
  have hrange : List.range tour_ids.length =
      0 :: List.range' 1 (tour_ids.length - 1) := by
    conv_lhs =>
      rw [List.range_eq_range',
        show tour_ids.length = (tour_ids.length - 1) + 1 from by omega,
        List.range'_succ]
  rw [hrange, List.foldl_cons]
  obtain ⟨hh0, hl0, hlen0⟩ := hsegp 0 hn0
  have hinit : gStep G tour_ids snapped [] 0 = segFn G tour_ids snapped 0 := by
    unfold gStep
    rw [if_pos rfl]
    exact List.nil_append _
  have hane0 : gStep G tour_ids snapped [] 0 ≠ [] := by
    rw [hinit]
    apply List.ne_nil_of_length_pos
    omega
  have hlast0 : (gStep G tour_ids snapped [] 0).getLast? =
      some (nAt G tour_ids snapped 1) := by
    rw [hinit]
    exact hl0
  obtain ⟨hfne, hfh, hfl⟩ := c9_fold G tour_ids snapped hsegp
    (tour_ids.length - 1) 1 le_rfl (by omega) _ hane0 hlast0
  refine ⟨hfne, ?_⟩
  rw [hfh, hfl, hinit, hh0]
  have hwrap : nAt G tour_ids snapped (1 + (tour_ids.length - 1)) =
      nAt G tour_ids snapped 0 := by
    unfold nAt
    rw [show 1 + (tour_ids.length - 1) = tour_ids.length from by omega,
      Nat.mod_self, Nat.zero_mod]
  rw [hwrap]

section C9Examples

/-- Two-node graph with edges in both directions. -/
def exG2 : Graph :=
  { nodes := [{ id := 1, x := 0, y := 0 }, { id := 2, x := 1, y := 0 }],
    edges := [{ src := 1, tgt := 2, length := 5 },
              { src := 2, tgt := 1, length := 7 }] }

/-- Snapped points near but not on the two nodes of `exG`. -/
def exSnappedOff : List SnappedPoint :=
  [{ id := 100, coords := (0, 1/2) }, { id := 200, coords := (1, 1/2) }]

end C9Examples

theorem claim_C9_witness :
    ∃ coords, generate_tour_path_geojson exG2 [100, 200] exSnapped =
        .ok coords ∧ coords ≠ [] ∧ coords.head? = coords.getLast? :=
  claim_C9 exG2 [100, 200] exSnapped (by decide) (by decide) (by decide)
    (by
      intro i hi
      match i, hi with
      | 0, _ =>
        constructor
        · intro h
          rw [show find_closest_node exG2
                (coordsOf exSnapped (([100, 200] : List Nat).getD 0 0)) =
                some 1 from by with_unfolding_all rfl,
            show find_closest_node exG2
                (coordsOf exSnapped
                  (([100, 200] : List Nat).getD ((0 + 1) % ([100, 200] : List Nat).length) 0)) =
                some 2 from by with_unfolding_all rfl] at h
          simp at h
        · exact ⟨[1, 2], by with_unfolding_all rfl⟩
      | 1, _ =>
        constructor
        · intro h
          rw [show find_closest_node exG2
                (coordsOf exSnapped (([100, 200] : List Nat).getD 1 0)) =
                some 2 from by with_unfolding_all rfl,
            show find_closest_node exG2
                (coordsOf exSnapped
                  (([100, 200] : List Nat).getD ((1 + 1) % ([100, 200] : List Nat).length) 0)) =
                some 1 from by with_unfolding_all rfl] at h
          simp at h
        · exact ⟨[2, 1], by with_unfolding_all rfl⟩)

/-- C9 counterexample to the original claim: on the one-way graph `exG`
(single edge `1 → 2`) with off-node snapped points, the wrap-around segment
`200 → 100` has no path and emits the raw straight-line fallback, so the
polyline starts at node 1's coordinates but ends at point 100's raw snapped
coordinates — the LineString is not closed. -/
theorem claim_C9_counterexample :
    generate_tour_path_geojson exG [100, 200] exSnappedOff =
      .ok [(0, 0), (1, 0), (0, 1/2)] ∧
    ([((0 : ℚ), (0 : ℚ)), (1, 0), (0, 1/2)] : List (ℚ × ℚ)).head? ≠
      ([((0 : ℚ), (0 : ℚ)), (1, 0), (0, 1/2)] : List (ℚ × ℚ)).getLast? :=
  ⟨by with_unfolding_all rfl, by
    intro h
    rw [show ([((0 : ℚ), (0 : ℚ)), (1, 0), (0, 1/2)] : List (ℚ × ℚ)).head? =
        some ((0 : ℚ), (0 : ℚ)) from rfl,
      show ([((0 : ℚ), (0 : ℚ)), (1, 0), (0, 1/2)] : List (ℚ × ℚ)).getLast? =
        some ((0 : ℚ), (1/2 : ℚ)) from by
          rw [List.getLast?_cons_cons, List.getLast?_cons_cons]
          rfl] at h
    simp only [Option.some_inj, Prod.mk.injEq] at h
    norm_num at h⟩

section Endpoints

/-- The parts of `TSPResult` the claims speak about (runtime and GeoJSON
properties carry no claimed structure). -/
structure TSPResult where
  tour : List Nat
  length : Cost
  warning : Option String
deriving DecidableEq

/-- `np.any(np.isinf(distance_matrix))` on the stored matrix
(`validate_distance_matrix`'s `has_infinite` field, the only field the
endpoints read). -/
def hasInfM (M : List (List Cost)) : Bool :=
  M.any (fun r => r.any (fun x => decide (x = ⊤)))

/-- The warning f-string of the `/bruteforce` endpoint. -/
def bfWarning (original_count : Nat) : String :=
  "⚠️ Only the first 12 out of " ++ toString original_count ++
  " points were used for brute-force calculation. Points 13-" ++
  toString original_count ++
  " were ignored. For larger datasets, consider using Held-Karp or Heuristic algorithms."

/-- The warning f-string of the `/heldkarp` endpoint. -/
def hkWarning (original_count : Nat) : String :=
  "⚠️ Only the first 20 out of " ++ toString original_count ++
  " points were used for Held-Karp calculation. Points 21-" ++
  toString original_count ++
  " were ignored. For larger datasets, consider using the Heuristic algorithm."

/-- `api/tsp.py solve_bruteforce`: empty-cache guard, truncation to the first
12 points with the warning string, matrix build, infinity validation, the
solver, and the path materializer; every raised `ValueError`/`HTTPException`
is an `error`. -/
def solve_bruteforce_endpoint (G : Graph) (snapped : List SnappedPoint) :
    Except String TSPResult :=
  if snapped.length = 0 then
    .error "No points available. Please upload and snap points first."
  else
    let truncated := if 12 < snapped.length then snapped.take 12 else snapped
    let warning : Option String :=
      if 12 < snapped.length then some (bfWarning snapped.length) else none
    match build_distance_matrix G truncated with
    | .error e => .error e
    | .ok (M, point_ids) =>
        if hasInfM M then
          .error "Some points are not reachable from others. The road network may be disconnected."
        else
          match solve_tsp_bruteforce (fun i j => getEntry M i j) point_ids with
          | .error e => .error e
          | .ok (tour_ids, tour_length, _) =>
              match generate_tour_path_geojson G tour_ids truncated with
              | .error e => .error e
              | .ok _ =>
                  .ok { tour := tour_ids, length := tour_length,
                        warning := warning }

/-- `api/tsp.py solve_heldkarp`: the same pipeline with threshold 20 and the
Held-Karp solver. -/
def solve_heldkarp_endpoint (G : Graph) (snapped : List SnappedPoint) :
    Except String TSPResult :=
  if snapped.length = 0 then
    .error "No points available. Please upload and snap points first."
  else
    let truncated := if 20 < snapped.length then snapped.take 20 else snapped
    let warning : Option String :=
      if 20 < snapped.length then some (hkWarning snapped.length) else none
    match build_distance_matrix G truncated with
    | .error e => .error e
    | .ok (M, point_ids) =>
        if hasInfM M then
          .error "Some points are not reachable from others. The road network may be disconnected."
        else
          match solve_tsp_heldkarp (fun i j => getEntry M i j) point_ids with
          | .error e => .error e
          | .ok (tour_ids, tour_length, _) =>
              match generate_tour_path_geojson G tour_ids truncated with
              | .error e => .error e
              | .ok _ =>
                  .ok { tour := tour_ids, length := tour_length,
                        warning := warning }

theorem gspc_isOk {G : Graph} (hne : G.nodes ≠ []) (s t : ℚ × ℚ) :
    ∃ v, get_shortest_path_coords G s t = .ok v := by
  obtain ⟨sn, hs⟩ := find_closest_node_isSome hne s
  obtain ⟨tn, ht⟩ := find_closest_node_isSome hne t
  unfold get_shortest_path_coords
  rw [hs, ht]
  by_cases hst : sn = tn
  · refine ⟨[s], ?_⟩
    show (if sn = tn then Except.ok [s] else _) = _
    rw [if_pos hst]
  · rcases hsp : spNodes G sn tn with _ | w
    · refine ⟨[s, t], ?_⟩
      show (if sn = tn then _ else
        match spNodes G sn tn with
        | some w => Except.ok (List.map (fun nid => nodeCoords G nid) w)
        | none => Except.ok [s, t]) = _
      rw [if_neg hst, hsp]
    · refine ⟨w.map (fun nid => nodeCoords G nid), ?_⟩
      show (if sn = tn then _ else
        match spNodes G sn tn with
        | some w => Except.ok (List.map (fun nid => nodeCoords G nid) w)
        | none => Except.ok [s, t]) = _
      rw [if_neg hst, hsp]

theorem generate_ok {G : Graph} (hne : G.nodes ≠ []) (tour_ids : List Nat)
    (snapped : List SnappedPoint) :
    ∃ coords, generate_tour_path_geojson G tour_ids snapped = .ok coords := by
  unfold generate_tour_path_geojson
  by_cases h0 : tour_ids.length = 0
  · rw [if_pos h0]
    exact ⟨[], rfl⟩
  · rw [if_neg h0]
    refine ⟨(List.range tour_ids.length).foldl (gStep G tour_ids snapped) [],
      foldlM_ok_mem _ _ _ ?_ []⟩
    intro acc i hi
    obtain ⟨v, hv⟩ := gspc_isOk hne
      (coordsOf snapped (tour_ids.getD i 0))
      (coordsOf snapped (tour_ids.getD ((i + 1) % tour_ids.length) 0))
    rw [hv]
    unfold gStep segFn
    rw [hv]
    rfl

theorem hasInfM_eq_false {M : List (List Cost)} {n : Nat} (hwf : Wf M n)
    (hfin : ∀ a < n, ∀ b < n, getEntry M a b ≠ ⊤) : hasInfM M = false := by
  unfold hasInfM
  rw [List.any_eq_false]
  intro r hr
  intro hcontra
  obtain ⟨x, hx, hxt⟩ := List.any_eq_true.1 hcontra
  simp only [decide_eq_true_eq] at hxt
  obtain ⟨a, hal, har⟩ := List.mem_iff_getElem.1 hr
  obtain ⟨b, hbl, hbx⟩ := List.mem_iff_getElem.1 hx
  have hrowa : M.getD a [] = r := by
    rw [List.getD_eq_getElem?_getD, List.getElem?_eq_getElem hal]
    simp only [Option.getD_some]
    exact har
  have hge : getEntry M a b = x := by
    unfold getEntry
    rw [hrowa, List.getD_eq_getElem?_getD, List.getElem?_eq_getElem hbl]
    simp only [Option.getD_some]
    exact hbx
  have han : a < n := by
    have := hwf.1
    omega
  have hbn : b < n := by
    have hrl : r.length = n := hwf.2 r hr
    omega
  exact hfin a han b hbn (by rw [hge, hxt])

end Endpoints

section EndpointLemmas

theorem bdmMatrix_fin {G : Graph} {snapped : List SnappedPoint}
    (hne : G.nodes ≠ [])
    (hcl : ∀ e ∈ G.edges, e.src ∈ G.nodes.map GNode.id ∧
      e.tgt ∈ G.nodes.map GNode.id)
    (hreach : ∀ s ∈ snapped, ∀ t ∈ snapped,
      Reachable G (resNode G s.coords) (resNode G t.coords)) :
    ∀ a < snapped.length, ∀ b < snapped.length,
      getEntry (bdmMatrix G snapped) a b ≠ ⊤ := by
  intro a ha b hb
  obtain ⟨-, hent⟩ := bdmMatrix_spec G snapped
  rw [hent a b ha hb]
  unfold entryTarget
  by_cases hab : a = b
  · rw [if_pos hab]
    simp
  · rw [if_neg hab]
    intro htop
    have hmin : min a b < snapped.length := by omega
    have hmax : max a b < snapped.length := by omega
    have hc1 : ∃ p ∈ snapped,
        (snapped.map (fun q => q.coords)).getD (min a b) (0, 0) = p.coords := by
      refine ⟨snapped.get ⟨min a b, hmin⟩, List.get_mem snapped _ hmin, ?_⟩
      rw [List.getD_eq_getElem?_getD, List.getElem?_map,
        List.getElem?_eq_getElem hmin]
      rfl
    have hc2 : ∃ p ∈ snapped,
        (snapped.map (fun q => q.coords)).getD (max a b) (0, 0) = p.coords := by
      refine ⟨snapped.get ⟨max a b, hmax⟩, List.get_mem snapped _ hmax, ?_⟩
      rw [List.getD_eq_getElem?_getD, List.getElem?_map,
        List.getElem?_eq_getElem hmax]
      rfl
    obtain ⟨p, hp, hpc⟩ := hc1
    obtain ⟨q, hq, hqc⟩ := hc2
    rw [hpc, hqc] at htop
    exact absurd (hreach p hp q hq)
      ((cspVal_eq_top_iff hne hcl p.coords q.coords).1 htop)

end EndpointLemmas

/-- C7: with more than 12 cached snapped points, the `/bruteforce` endpoint
runs the solver on exactly the first 12 points in input order, returns a tour
of exactly 12 identifiers (a permutation of those points' ids), and returns
the warning string naming the ignored range `13-N`; the `/heldkarp` endpoint
does the same with threshold 20 and range `21-N`.  (The reachability
hypothesis makes the pipeline's disconnection guard pass; the other
hypotheses are the standing graph well-formedness assumptions.) -/
theorem claim_C7 (G : Graph) (snapped : List SnappedPoint)
    (hne : G.nodes ≠ [])
    (hcl : ∀ e ∈ G.edges, e.src ∈ G.nodes.map GNode.id ∧
      e.tgt ∈ G.nodes.map GNode.id) :
    (12 < snapped.length →
      (∀ s ∈ snapped.take 12, ∀ t ∈ snapped.take 12,
        Reachable G (resNode G s.coords) (resNode G t.coords)) →
      ∃ r : TSPResult, solve_bruteforce_endpoint G snapped = .ok r ∧
        r.tour.Perm ((snapped.take 12).map (fun p => p.id)) ∧
        r.tour.length = 12 ∧
        r.warning = some (bfWarning snapped.length)) ∧
    (20 < snapped.length →
      (∀ s ∈ snapped.take 20, ∀ t ∈ snapped.take 20,
        Reachable G (resNode G s.coords) (resNode G t.coords)) →
      ∃ r : TSPResult, solve_heldkarp_endpoint G snapped = .ok r ∧
        r.tour.Perm ((snapped.take 20).map (fun p => p.id)) ∧
        r.tour.length = 20 ∧
        r.warning = some (hkWarning snapped.length)) := by
  constructor
  · intro h12 hreach
    have hlentr : (snapped.take 12).length = 12 := by
      rw [List.length_take]
      omega
    have hsn : (snapped.take 12).length ≠ 0 := by omega
    have hlenids : ((snapped.take 12).map (fun p => p.id)).length = 12 := by
      rw [List.length_map, hlentr]
    have hfinM := bdmMatrix_fin hne hcl hreach
    have hinfM : hasInfM (bdmMatrix G (snapped.take 12)) = false :=
      hasInfM_eq_false (bdmMatrix_spec G (snapped.take 12)).1 hfinM
    have hfinD : ∀ i < ((snapped.take 12).map (fun p => p.id)).length,
        ∀ j < ((snapped.take 12).map (fun p => p.id)).length,
        (fun i j => getEntry (bdmMatrix G (snapped.take 12)) i j) i j ≠ ⊤ := by
      intro i hi j hj
      exact hfinM i (by omega) j (by omega)
    obtain ⟨t, L, hbf, hbfhead, hbfperm, -, -⟩ :=
      solve_tsp_bruteforce_spec
        (fun i j => getEntry (bdmMatrix G (snapped.take 12)) i j)
        ((snapped.take 12).map (fun p => p.id))
        (by omega) (by omega) hfinD
    obtain ⟨coords, hgen⟩ := generate_ok hne
      (t.map (fun i => ((snapped.take 12).map (fun p => p.id)).getD i 0))
      (snapped.take 12)
    have hfinal : solve_bruteforce_endpoint G snapped =
        .ok { tour := t.map (fun i =>
                ((snapped.take 12).map (fun p => p.id)).getD i 0),
              length := L, warning := some (bfWarning snapped.length) } := by
      unfold solve_bruteforce_endpoint
      rw [if_neg (show ¬ snapped.length = 0 from by omega)]
      dsimp only
      rw [if_pos h12, if_pos h12, build_distance_matrix_ok hne hsn]
      dsimp only
      rw [hinfM, if_neg (show ¬ (false = true) from by simp), hbf]
      dsimp only
      rw [hgen]
    refine ⟨_, hfinal, ?_, ?_, rfl⟩
    · exact perm_map_getD hbfperm
    · rw [List.length_map]
      have hte := hbfperm.length_eq
      rw [List.length_range, hlenids] at hte
      exact hte
  · intro h20 hreach
    have hlentr : (snapped.take 20).length = 20 := by
      rw [List.length_take]
      omega
    have hsn : (snapped.take 20).length ≠ 0 := by omega
    have hlenids : ((snapped.take 20).map (fun p => p.id)).length = 20 := by
      rw [List.length_map, hlentr]
    have hfinM := bdmMatrix_fin hne hcl hreach
    have hinfM : hasInfM (bdmMatrix G (snapped.take 20)) = false :=
      hasInfM_eq_false (bdmMatrix_spec G (snapped.take 20)).1 hfinM
    have hfinD : ∀ i < ((snapped.take 20).map (fun p => p.id)).length,
        ∀ j < ((snapped.take 20).map (fun p => p.id)).length,
        (fun i j => getEntry (bdmMatrix G (snapped.take 20)) i j) i j ≠ ⊤ := by
      intro i hi j hj
      exact hfinM i (by omega) j (by omega)
    obtain ⟨t, L, hhk, hhkhead, hhkperm, -, -⟩ :=
      solve_tsp_heldkarp_spec
        (fun i j => getEntry (bdmMatrix G (snapped.take 20)) i j)
        ((snapped.take 20).map (fun p => p.id))
        (by omega) (by omega) hfinD
    obtain ⟨coords, hgen⟩ := generate_ok hne
      (t.map (fun i => ((snapped.take 20).map (fun p => p.id)).getD i 0))
      (snapped.take 20)
    have hfinal : solve_heldkarp_endpoint G snapped =
        .ok { tour := t.map (fun i =>
                ((snapped.take 20).map (fun p => p.id)).getD i 0),
              length := L, warning := some (hkWarning snapped.length) } := by
      unfold solve_heldkarp_endpoint
      rw [if_neg (show ¬ snapped.length = 0 from by omega)]
      dsimp only
      rw [if_pos h20, if_pos h20, build_distance_matrix_ok hne hsn]
      dsimp only
      rw [hinfM, if_neg (show ¬ (false = true) from by simp), hhk]
      dsimp only
      rw [hgen]
    refine ⟨_, hfinal, ?_, ?_, rfl⟩
    · exact perm_map_getD hhkperm
    · rw [List.length_map]
      have hte := hhkperm.length_eq
      rw [List.length_range, hlenids] at hte
      exact hte

section C7Examples

/-- Fifteen cached snapped points (ids 1..15), all at node 1's location. -/
def exSnapped15 : List SnappedPoint :=
  (List.range 15).map (fun k => { id := k + 1, coords := ((0 : ℚ), (0 : ℚ)) })

/-- Twenty-five cached snapped points (ids 1..25), all at node 1's
location. -/
def exSnapped25 : List SnappedPoint :=
  (List.range 25).map (fun k => { id := k + 1, coords := ((0 : ℚ), (0 : ℚ)) })

theorem exSnapped15_res {p : SnappedPoint} (hp : p ∈ exSnapped15.take 12) :
    resNode exG2 p.coords = 1 := by
  obtain ⟨k, hk, rfl⟩ := List.mem_map.1 (List.mem_of_mem_take hp)
  show resNode exG2 (0, 0) = 1
  with_unfolding_all rfl

theorem exSnapped25_res {p : SnappedPoint} (hp : p ∈ exSnapped25.take 20) :
    resNode exG2 p.coords = 1 := by
  obtain ⟨k, hk, rfl⟩ := List.mem_map.1 (List.mem_of_mem_take hp)
  show resNode exG2 (0, 0) = 1
  with_unfolding_all rfl

end C7Examples

theorem claim_C7_witness :
    (∃ r : TSPResult, solve_bruteforce_endpoint exG2 exSnapped15 = .ok r ∧
      r.tour.Perm ((exSnapped15.take 12).map (fun p => p.id)) ∧
      r.tour.length = 12 ∧
      r.warning = some (bfWarning exSnapped15.length)) ∧
    (∃ r : TSPResult, solve_heldkarp_endpoint exG2 exSnapped25 = .ok r ∧
      r.tour.Perm ((exSnapped25.take 20).map (fun p => p.id)) ∧
      r.tour.length = 20 ∧
      r.warning = some (hkWarning exSnapped25.length)) :=
  ⟨(claim_C7 exG2 exSnapped15 (by decide) (by decide)).1 (by decide)
      (by
        intro s hs t ht
        rw [exSnapped15_res hs, exSnapped15_res ht]
        exact reachable_refl),
   (claim_C7 exG2 exSnapped25 (by decide) (by decide)).2 (by decide)
      (by
        intro s hs t ht
        rw [exSnapped25_res hs, exSnapped25_res ht]
        exact reachable_refl)⟩
